import Mathlib

/-!
Verification development for the dq-checker hours-of-service engine.

Shallow embedding conventions:
* Timestamps are `Int` milliseconds since the Unix epoch (JS `Date.getTime()`),
  and calendar days are modelled in UTC: the day of a timestamp is its floor
  division by 86400000, and the `iso(...)` day key of the source is modelled as
  that day number.  (The source uses the browser's local time zone; the model
  fixes the zone to UTC, which is irrelevant to the claims under study.)
* Segment lengths in minutes use JS `Math.round(ms / 60000)`, which for an
  integer `ms` equals `⌊(ms + 30000) / 60000⌋`.
* The free-text status of an event is abstracted to which keyword set of the
  source it falls in (`ON_SET`, `D_SET`, `OFF_SET`, `SB_SET`, or none of
  them), refined by whether it is the set's literal `"ON"`/`"D"`/`"OFF"`/
  `"SB"` spelling or an alternate member — the engine tests statuses both
  ways, so this quotient is exactly as fine as the code's tests; the location
  of an event is abstracted to the boolean value of the source's `isNearHome`
  predicate on it.
* Human-readable note strings of the source are modelled as structured values
  carrying the same data (e.g. the near-reset "short by" amount in ms).
* Route resolution (the Stops-index lookup filling the `Route` column) is
  omitted: it reads external UI state and affects no field any claim mentions.
-/

/-- The four statuses produced by the certification-gap checker's
`eventStatus` helper: ON duty, Driving, OFF duty, Sleeper berth. -/
inductive St
  | on
  | drv
  | off
  | sb
deriving DecidableEq, Repr

/-- A duty status string of the hours engine, up to the distinctions the
engine's tests make.  The engine compares effective statuses both through the
keyword sets (`ON_SET`/`D_SET`/`OFF_SET`/`SB_SET`, via `isOnOrD`/`isOffOrSb`)
and through literal string equality with `"ON"`, `"D"`, `"OFF"` and `"SB"`,
so each set splits into its literal member and the alternate spellings: `on`
is the literal `"ON"`, `onAlt` any other `ON_SET` member (e.g. `"ONDUTY"`);
`drv` is the literal `"D"`, `drvAlt` any other `D_SET` member (e.g.
`"DRIVING"`, which the status-extraction regex produces from a
`Duty Status - Driving` event); `off` is `"OFF"` (`OFF_SET` is a singleton);
`sb` is the literal `"SB"`, `sbAlt` any other `SB_SET` member (e.g.
`"SLEEPER"`).  Every status test of the source is constant on each class. -/
inductive Eff
  | on
  | onAlt
  | drv
  | drvAlt
  | off
  | sb
  | sbAlt
deriving DecidableEq, Repr

/-- Raw status of a kept event row: a member of one of the four duty keyword
sets of `parseLogsAcrossWorkbooks`, classified as in `Eff` by whether it is
the literal `"ON"`/`"D"`/`"OFF"`/`"SB"` spelling or an alternate set member,
or `other` for a nonempty extracted status word that belongs to none of the
sets. -/
inductive RawSt
  | on
  | onAlt
  | drv
  | drvAlt
  | off
  | sb
  | sbAlt
  | other
deriving DecidableEq, Repr

/-- A normalized duty event of the hours engine: timestamp (ms), raw status,
and the value of `isNearHome` on the event row's location. -/
structure Evt1 where
  ts : Int
  st : RawSt
  near : Bool
deriving DecidableEq, Repr

/-- A timeline entry: timestamp, effective (forward-filled) status, location
predicate value.  `eff = none` models the empty-string effective status that
occurs before any duty-bearing event has been seen. -/
structure TLE where
  ts : Int
  eff : Option Eff
  near : Bool
deriving DecidableEq, Repr

/-- Which duty status a raw status carries (`none` for an unrecognized word).
The forward fill stores the event's own status string (`eff: isDuty ?
e.status : lastDuty`), so the spelling class is preserved. -/
def rawDuty : RawSt → Option Eff
  | .on => some .on
  | .onAlt => some .onAlt
  | .drv => some .drv
  | .drvAlt => some .drvAlt
  | .off => some .off
  | .sb => some .sb
  | .sbAlt => some .sbAlt
  | .other => none

/-- Forward-fill pass of `parseLogsAcrossWorkbooks` (the `lastDuty` loop):
duty-bearing events keep their status, others receive the last duty status. -/
def buildTimelineGo (lastDuty : Option Eff) : List Evt1 → List TLE
  | [] => []
  | e :: r =>
    match rawDuty e.st with
    | some s => ⟨e.ts, some s, e.near⟩ :: buildTimelineGo (some s) r
    | none => ⟨e.ts, lastDuty, e.near⟩ :: buildTimelineGo lastDuty r

/-- The effective-status timeline of a driver's merged event list. -/
def buildTimeline (evs : List Evt1) : List TLE := buildTimelineGo none evs

/-- `isOnOrD` of the source: effective status in `ON_SET ∪ D_SET`. -/
def isOnOrD (e : Option Eff) : Prop :=
  e = some Eff.on ∨ e = some Eff.onAlt ∨ e = some Eff.drv ∨ e = some Eff.drvAlt

instance (e : Option Eff) : Decidable (isOnOrD e) := by unfold isOnOrD; infer_instance

/-- `isOffOrSb` of the source: effective status in `OFF_SET ∪ SB_SET`. -/
def isOffOrSb (e : Option Eff) : Prop :=
  e = some Eff.off ∨ e = some Eff.sb ∨ e = some Eff.sbAlt

instance (e : Option Eff) : Decidable (isOffOrSb e) := by unfold isOffOrSb; infer_instance

/-- The literal test `cur.eff === "ON" || cur.eff === "D"` of `onDutyDeadline`
(page.tsx lines 893 and 2327): unlike the set-based `isOnOrD`, alternate
`ON_SET`/`D_SET` spellings fail it. -/
def isOnDLit (e : Option Eff) : Prop := e = some Eff.on ∨ e = some Eff.drv

instance (e : Option Eff) : Decidable (isOnDLit e) := by unfold isOnDLit; infer_instance

/-- The literal test `cur.eff === "OFF" || cur.eff === "SB"` of the first
hours-engine variant's block branch (page.tsx line 1015) and tail closure
(line 1082): unlike the set-based `isOffOrSb`, alternate `SB_SET` spellings
fail it. -/
def isOffSbLit (e : Option Eff) : Prop := e = some Eff.off ∨ e = some Eff.sb

instance (e : Option Eff) : Decidable (isOffSbLit e) := by
  unfold isOffSbLit; infer_instance

/-- JS `Math.round(ms / 60000)` for an integer number of milliseconds. -/
def jsRoundMin (ms : Int) : Int := Int.fdiv (ms + 30000) 60000

/-- `TEN_HOURS_MS` of the source: a full 10-hour reset. -/
def TEN_HOURS_MS : Int := 36000000

/-- `START_BREAK_MIN_MS` of the source: 10h minus the 30-minute near-reset
grace, i.e. 9h30m. -/
def START_BREAK_MIN_MS : Int := 34200000

/-- `MIN_LAYOVER_MS` of the source: 2 hours. -/
def MIN_LAYOVER_MS : Int := 7200000

/-- `MAX_SHIFT_MS_FLAG` of the source: 18 hours. -/
def MAX_SHIFT_MS_FLAG : Int := 64800000

/-- `MAX_CONT_ON_MS_FLAG` of the source: 14 hours. -/
def MAX_CONT_ON_MS_FLAG : Int := 50400000

/-- `MEAL_REQ_MS` of the source: a qualifying meal break is at least 30 minutes. -/
def MEAL_REQ_MS : Int := 1800000

/-- Consecutive pairs of a timeline, mirroring the `(timeline[j], timeline[j+1])`
loops of the source. -/
def consecPairs : List TLE → List (TLE × TLE)
  | a :: b :: r => (a, b) :: consecPairs (b :: r)
  | _ => []

/-- `onDutyDeadline` of `finalizeAndPush` (page.tsx): scan the timeline pairs
clipped to `[s, e)`, accumulating the time of entries passing the literal
`cur.eff === "ON" || cur.eff === "D"` test, and return the instant at which
the accumulator first reaches `limitMs`; `e` if it never does. -/
def onDutyDeadlineGo (s e limitMs : Int) : List (TLE × TLE) → Int → Int
  | [], _ => e
  | (cur, next) :: rest, acc =>
    if next.ts ≤ s ∨ cur.ts ≥ e then onDutyDeadlineGo s e limitMs rest acc
    else
      let segStart := max cur.ts s
      let segEnd := min next.ts e
      let segMs := max 0 (segEnd - segStart)
      if isOnDLit cur.eff then
        (if acc + segMs ≥ limitMs then segStart + max 0 (limitMs - acc)
         else onDutyDeadlineGo s e limitMs rest (acc + segMs))
      else onDutyDeadlineGo s e limitMs rest acc

/-- The on-duty-time deadline for `limitHours` cumulative ON/DRIVING hours
within the shift `[s, e)`. -/
def onDutyDeadline (tl : List TLE) (s e : Int) (limitHours : Int) : Int :=
  onDutyDeadlineGo s e (limitHours * 3600000) (consecPairs tl) 0

/-- An OFF segment of a shift as collected by `finalizeAndPush`:
clipped start, clipped end, and length in ms. -/
structure OffSeg where
  start : Int
  stop : Int
  ms : Int
deriving DecidableEq, Repr

/-- The OFF segments of the timeline clipped to the shift `[s, e)`, in
timeline order (the `offSegs` array of `finalizeAndPush`). -/
def offSegsIn (tl : List TLE) (s e : Int) : List OffSeg :=
  (consecPairs tl).filterMap (fun p =>
    let segStart := max p.1.ts s
    let segEnd := min p.2.ts e
    if segEnd ≤ segStart then none
    else if p.1.ts ≥ e ∨ p.2.ts ≤ s then none
    else if p.1.ts < s ∧ p.2.ts ≤ s then none
    else if p.1.eff = some Eff.off then some ⟨segStart, segEnd, max 0 (segEnd - segStart)⟩
    else none)

/-- Meal-break verdict of the first hours-engine variant, with the data of the
source's note strings: a break is reported as its (clipped) start timestamp and
its rounded length in minutes; violations carry the missed deadline and, when
present, the late segment that would otherwise have qualified. -/
inductive Meal1
  | noBreakNeeded
  | ok (b1 : Int × Int) (b2 : Option (Int × Int))
  | lateFirst (late : Option (Int × Int)) (deadline : Int)
  | lateSecond (late : Option (Int × Int)) (deadline : Int)
deriving DecidableEq, Repr

/-- Whether a meal verdict is the source's "✅ Compliant". -/
def Meal1.isCompliant : Meal1 → Prop
  | .noBreakNeeded => True
  | .ok _ _ => True
  | .lateFirst _ _ => False
  | .lateSecond _ _ => False

instance (m : Meal1) : Decidable m.isCompliant := by
  unfold Meal1.isCompliant; cases m <;> infer_instance

/-- The meal-break evaluation block of `finalizeAndPush` (first variant,
page.tsx lines 877–971).  `find?` over the enumerated segment list models the
JS `Array.find` with the reference test `s !== firstBreak` rendered as index
inequality (the segment list has one entry per timeline pair, so positions
stand for references). -/
def mealEval1 (tl : List TLE) (s e : Int) (payableMin : Int) : Meal1 :=
  let onDutyMs := payableMin * 60000
  if onDutyMs < 6 * 3600000 then .noBreakNeeded
  else
    let needTwo := onDutyMs > 12 * 3600000
    let deadline5 := if onDutyMs ≥ 6 * 3600000 then onDutyDeadline tl s e 5 else e
    let deadline10 := if needTwo then onDutyDeadline tl s e 10 else e
    let offSegs := (offSegsIn tl s e).enum
    let firstBreak := offSegs.find? (fun p => decide (p.2.start < deadline5 ∧ p.2.ms ≥ MEAL_REQ_MS))
    let secondBreak :=
      if needTwo then
        offSegs.find? (fun p =>
          match firstBreak with
          | some f => decide (p.1 ≠ f.1 ∧ p.2.start < deadline10 ∧ p.2.ms ≥ MEAL_REQ_MS ∧
              p.2.start > f.2.start)
          | none => decide (p.2.start < deadline10 ∧ p.2.ms ≥ MEAL_REQ_MS))
      else none
    match firstBreak with
    | none =>
      let late := offSegs.find? (fun p => decide (p.2.ms ≥ MEAL_REQ_MS))
      .lateFirst (late.map (fun p => (p.2.start, jsRoundMin p.2.ms))) deadline5
    | some f =>
      if needTwo ∧ secondBreak = none then
        let late := offSegs.find? (fun p =>
          decide (p.1 ≠ f.1 ∧ p.2.ms ≥ MEAL_REQ_MS ∧ p.2.start > f.2.start))
        .lateSecond (late.map (fun p => (p.2.start, jsRoundMin p.2.ms))) deadline10
      else
        .ok (f.2.start, jsRoundMin f.2.ms)
          (secondBreak.map (fun p => (p.2.start, jsRoundMin p.2.ms)))

/-- Shift-closing note of the first engine variant, as structured data:
near-reset (with the "short by" amount in ms), its end-of-data form, the
end-of-file closure at the start of a short trailing OFF/SB block, and the
end-of-file closure while still on duty. -/
inductive CloseNote
  | nearReset (shortBy : Int)
  | nearResetEof (shortBy : Int)
  | eofShortOff
  | eofStillOn
deriving DecidableEq, Repr

/-- A Shift row of the first hours-engine variant.  `layoverMin` already
includes the `extraLayoverMin` of the closing call; `longShift` and `contOn`
are the two diagnostic flags of the source's `Note` column. -/
structure Row1 where
  start : Int
  stop : Int
  durationMin : Int
  payableMin : Int
  sleeperMin : Int
  layoverMin : Int
  meal : Meal1
  note : Option CloseNote
  longShift : Bool
  contOn : Bool
deriving DecidableEq, Repr

/-- Mutable state of the first variant's per-driver loop.  `offNearO` models
`offLoc` through the value of `isNearHome` on it (`none` models the JS `null`,
on which `isNearHome` is `false`); `offKind` is `some true` for `"OFF"`,
`some false` for `"SB"`, `none` for `null`.  `startsLog` is instrumentation:
it records each timestamp at which the loop opens a new shift
(`shiftStart = cur.ts`), i.e. the emitted shift boundaries. -/
structure Eng1 where
  inOff : Bool
  offStart : Option Int
  offNearO : Option Bool
  offKind : Option Bool
  shiftActive : Bool
  shiftStart : Option Int
  payableMin : Int
  sleeperMin : Int
  layoverMin : Int
  maxOn : Int
  curOn : Int
  startsLog : List Int
  rows : List Row1
deriving DecidableEq, Repr

/-- `isNearHome(offLoc)` for the stored block location. -/
def offNearVal (st : Eng1) : Bool := st.offNearO.getD false

/-- `finalizeAndPush` of the first variant, minus the meal block (factored as
`mealEval1`) and the route lookup (omitted, see the header). -/
def finalize1 (tl : List TLE) (st : Eng1) (stop : Int) (note : Option CloseNote)
    (extraLayover : Int) : Eng1 :=
  match st.shiftStart with
  | none => st
  | some start =>
    let durationMin := jsRoundMin (stop - start)
    let row : Row1 :=
      { start := start
        stop := stop
        durationMin := durationMin
        payableMin := st.payableMin
        sleeperMin := st.sleeperMin
        layoverMin := st.layoverMin + extraLayover
        meal := mealEval1 tl start stop st.payableMin
        note := note
        longShift := durationMin * 60000 > MAX_SHIFT_MS_FLAG
        contOn := st.maxOn > MAX_CONT_ON_MS_FLAG }
    { st with rows := st.rows ++ [row] }

/-- One iteration of the first variant's main loop (page.tsx lines 1002–1077):
streak tracking (set-based `isOnOrD`), OFF-block entry/close (the literal
`cur.eff === "OFF" || cur.eff === "SB"` test of line 1015), shift start on
exiting a qualifying block, and in-shift minute accumulation (payable by
set-based `isOnOrD`, sleeper by literal `"SB"`, layover by literal `"OFF"`). -/
def step1 (tl : List TLE) (st0 : Eng1) (cur : TLE) (next : Option TLE) : Eng1 :=
  let segMs : Int := match next with | some n => max 0 (n.ts - cur.ts) | none => 0
  let segMin := jsRoundMin segMs
  let st1 :=
    if isOnOrD cur.eff then
      { st0 with curOn := st0.curOn + segMs, maxOn := max st0.maxOn (st0.curOn + segMs) }
    else { st0 with curOn := 0 }
  let st2 :=
    if isOffSbLit cur.eff then
      let stE :=
        if st1.inOff then st1
        else { st1 with inOff := true, offStart := some cur.ts,
                        offNearO := some cur.near,
                        offKind := some (cur.eff = some Eff.off : Bool) }
      match next, stE.offStart with
      | some n, some os =>
        if stE.shiftActive then
          let offDur := n.ts - os
          if offDur ≥ TEN_HOURS_MS then
            let extra := if stE.offKind = some true ∧ offDur ≥ MIN_LAYOVER_MS ∧
                ¬ offNearVal stE = true then jsRoundMin offDur else 0
            { finalize1 tl stE os none extra with shiftActive := false }
          else if offDur ≥ START_BREAK_MIN_MS then
            let extra := if stE.offKind = some true ∧ offDur ≥ MIN_LAYOVER_MS ∧
                ¬ offNearVal stE = true then jsRoundMin offDur else 0
            { finalize1 tl stE os (some (.nearReset (TEN_HOURS_MS - offDur))) extra with
                shiftActive := false }
          else stE
        else stE
      | _, _ => stE
    else
      if st1.inOff then
        let stG :=
          match st1.offStart with
          | some os =>
            if cur.ts - os ≥ START_BREAK_MIN_MS then
              { st1 with shiftActive := true, shiftStart := some cur.ts,
                         payableMin := 0, sleeperMin := 0, layoverMin := 0,
                         maxOn := 0, curOn := 0,
                         startsLog := st1.startsLog ++ [cur.ts] }
            else st1
          | none => st1
        { stG with inOff := false, offStart := none, offNearO := none, offKind := none }
      else st1
  match next with
  | some _ =>
    if st2.shiftActive then
      let st3 := if isOnOrD cur.eff then { st2 with payableMin := st2.payableMin + segMin }
                 else st2
      let st4 := if cur.eff = some Eff.sb then { st3 with sleeperMin := st3.sleeperMin + segMin }
                 else st3
      if cur.eff = some Eff.off ∧ cur.near = false ∧ segMs ≥ MIN_LAYOVER_MS then
        { st4 with layoverMin := st4.layoverMin + segMin }
      else st4
    else st2
  | none => st2

/-- End-of-data tail closure of the first variant (page.tsx lines 1079–1107);
the last entry is tested with the literal `last.eff === "OFF" || last.eff ===
"SB"` comparison of line 1082. -/
def tail1 (tl : List TLE) (st : Eng1) : Eng1 :=
  match tl.getLast? with
  | none => st
  | some last =>
    if st.shiftActive then
      match st.offStart with
      | some os =>
        if isOffSbLit last.eff then
          let tailOff := max 0 (last.ts - os)
          if tailOff ≥ TEN_HOURS_MS then
            let extra := if tailOff ≥ MIN_LAYOVER_MS ∧ ¬ offNearVal st = true
                         then jsRoundMin tailOff else 0
            finalize1 tl st os none extra
          else if tailOff ≥ START_BREAK_MIN_MS then
            let extra := if tailOff ≥ MIN_LAYOVER_MS ∧ ¬ offNearVal st = true
                         then jsRoundMin tailOff else 0
            finalize1 tl st os (some (.nearResetEof (TEN_HOURS_MS - tailOff))) extra
          else finalize1 tl st os (some .eofShortOff) 0
        else finalize1 tl st last.ts (some .eofStillOn) 0
      | none => finalize1 tl st last.ts (some .eofStillOn) 0
    else st

/-- Initial loop state of the first variant. -/
def eng1Init : Eng1 :=
  { inOff := false, offStart := none, offNearO := none, offKind := none,
    shiftActive := false, shiftStart := none,
    payableMin := 0, sleeperMin := 0, layoverMin := 0, maxOn := 0, curOn := 0,
    startsLog := [], rows := [] }

/-- The first variant's main loop over the timeline (current entry plus
lookahead, as in the indexed `for` loop of the source). -/
def eng1Go (tl : List TLE) (st : Eng1) : List TLE → Eng1
  | [] => st
  | [a] => step1 tl st a none
  | a :: b :: r => eng1Go tl (step1 tl st a (some b)) (b :: r)

/-- Run the first hours-engine variant on an effective-status timeline. -/
def runEng1 (tl : List TLE) : Eng1 := tail1 tl (eng1Go tl eng1Init tl)

/-- Shift rows of the first hours-engine variant for a merged event list. -/
def run1 (evs : List Evt1) : List Row1 := (runEng1 (buildTimeline evs)).rows

/-- Shift-start boundaries opened by the first variant (instrumented). -/
def starts1 (evs : List Evt1) : List Int := (runEng1 (buildTimeline evs)).startsLog

/-! ### Second hours-engine variant

The repository's `page.tsx` contains a second, older copy of
`parseLogsAcrossWorkbooks` (the part of the file after the document
separator).  Its per-driver loop differs from the first variant in three
places: the close-time extra layover ignores the kind of the block (an
`SB`-opened block can count), the meal-violation notes carry no late-segment
information, and the end-of-data tail closure emits nothing when the stream
ends mid-duty or in a short trailing OFF/SB block. -/

/-- Meal-break verdict of the second variant (constant violation notes). -/
inductive Meal2
  | noBreakNeeded
  | ok (b1 : Int × Int) (b2 : Option (Int × Int))
  | viol1
  | viol2
deriving DecidableEq, Repr

/-- The meal-break evaluation block of the second variant
(page.tsx lines 2311–2393). -/
def mealEval2 (tl : List TLE) (s e : Int) (payableMin : Int) : Meal2 :=
  let onDutyMs := payableMin * 60000
  if onDutyMs < 6 * 3600000 then .noBreakNeeded
  else
    let needTwo := onDutyMs > 12 * 3600000
    let deadline5 := if onDutyMs ≥ 6 * 3600000 then onDutyDeadline tl s e 5 else e
    let deadline10 := if needTwo then onDutyDeadline tl s e 10 else e
    let offSegs := (offSegsIn tl s e).enum
    let firstBreak := offSegs.find? (fun p => decide (p.2.start < deadline5 ∧ p.2.ms ≥ MEAL_REQ_MS))
    let secondBreak :=
      if needTwo then
        offSegs.find? (fun p =>
          match firstBreak with
          | some f => decide (p.1 ≠ f.1 ∧ p.2.start < deadline10 ∧ p.2.ms ≥ MEAL_REQ_MS ∧
              p.2.start > f.2.start)
          | none => decide (p.2.start < deadline10 ∧ p.2.ms ≥ MEAL_REQ_MS))
      else none
    match firstBreak with
    | none => .viol1
    | some f =>
      if needTwo ∧ secondBreak = none then .viol2
      else
        .ok (f.2.start, jsRoundMin f.2.ms)
          (secondBreak.map (fun p => (p.2.start, jsRoundMin p.2.ms)))

/-- A Shift row of the second hours-engine variant. -/
structure Row2 where
  start : Int
  stop : Int
  durationMin : Int
  payableMin : Int
  sleeperMin : Int
  layoverMin : Int
  meal : Meal2
  note : Option CloseNote
  longShift : Bool
  contOn : Bool
deriving DecidableEq, Repr

/-- Loop state of the second variant (no `offKind`). -/
structure Eng2 where
  inOff : Bool
  offStart : Option Int
  offNearO : Option Bool
  shiftActive : Bool
  shiftStart : Option Int
  payableMin : Int
  sleeperMin : Int
  layoverMin : Int
  maxOn : Int
  curOn : Int
  startsLog : List Int
  rows : List Row2
deriving DecidableEq, Repr

/-- `isNearHome(offLoc)` for the second variant's stored block location. -/
def offNearVal2 (st : Eng2) : Bool := st.offNearO.getD false

/-- `finalizeAndPush` of the second variant, minus the meal block. -/
def finalize2 (tl : List TLE) (st : Eng2) (stop : Int) (note : Option CloseNote)
    (extraLayover : Int) : Eng2 :=
  match st.shiftStart with
  | none => st
  | some start =>
    let durationMin := jsRoundMin (stop - start)
    let row : Row2 :=
      { start := start
        stop := stop
        durationMin := durationMin
        payableMin := st.payableMin
        sleeperMin := st.sleeperMin
        layoverMin := st.layoverMin + extraLayover
        meal := mealEval2 tl start stop st.payableMin
        note := note
        longShift := durationMin * 60000 > MAX_SHIFT_MS_FLAG
        contOn := st.maxOn > MAX_CONT_ON_MS_FLAG }
    { st with rows := st.rows ++ [row] }

/-- One iteration of the second variant's main loop (page.tsx lines 2423–2492). -/
def step2 (tl : List TLE) (st0 : Eng2) (cur : TLE) (next : Option TLE) : Eng2 :=
  let segMs : Int := match next with | some n => max 0 (n.ts - cur.ts) | none => 0
  let segMin := jsRoundMin segMs
  let st1 :=
    if isOnOrD cur.eff then
      { st0 with curOn := st0.curOn + segMs, maxOn := max st0.maxOn (st0.curOn + segMs) }
    else { st0 with curOn := 0 }
  let st2 :=
    if isOffOrSb cur.eff then
      let stE :=
        if st1.inOff then st1
        else { st1 with inOff := true, offStart := some cur.ts, offNearO := some cur.near }
      match next, stE.offStart with
      | some n, some os =>
        if stE.shiftActive then
          let offDur := n.ts - os
          if offDur ≥ TEN_HOURS_MS then
            let extra := if offDur ≥ MIN_LAYOVER_MS ∧ ¬ offNearVal2 stE = true
                         then jsRoundMin offDur else 0
            { finalize2 tl stE os none extra with shiftActive := false }
          else if offDur ≥ START_BREAK_MIN_MS then
            let extra := if offDur ≥ MIN_LAYOVER_MS ∧ ¬ offNearVal2 stE = true
                         then jsRoundMin offDur else 0
            { finalize2 tl stE os (some (.nearReset (TEN_HOURS_MS - offDur))) extra with
                shiftActive := false }
          else stE
        else stE
      | _, _ => stE
    else
      if st1.inOff then
        let stG :=
          match st1.offStart with
          | some os =>
            if cur.ts - os ≥ START_BREAK_MIN_MS then
              { st1 with shiftActive := true, shiftStart := some cur.ts,
                         payableMin := 0, sleeperMin := 0, layoverMin := 0,
                         maxOn := 0, curOn := 0,
                         startsLog := st1.startsLog ++ [cur.ts] }
            else st1
          | none => st1
        { stG with inOff := false, offStart := none, offNearO := none }
      else st1
  match next with
  | some _ =>
    if st2.shiftActive then
      let st3 := if isOnOrD cur.eff then { st2 with payableMin := st2.payableMin + segMin }
                 else st2
      let st4 := if cur.eff = some Eff.sb then { st3 with sleeperMin := st3.sleeperMin + segMin }
                 else st3
      if cur.eff = some Eff.off ∧ cur.near = false ∧ segMs ≥ MIN_LAYOVER_MS then
        { st4 with layoverMin := st4.layoverMin + segMin }
      else st4
    else st2
  | none => st2

/-- End-of-data tail closure of the second variant (page.tsx lines 2494–2511):
nothing is emitted unless the stream ends inside an OFF/SB block of at least
`START_BREAK_MIN_MS`. -/
def tail2 (tl : List TLE) (st : Eng2) : Eng2 :=
  match tl.getLast? with
  | none => st
  | some last =>
    if st.shiftActive then
      match st.offStart with
      | some os =>
        let tailOff := last.ts - os
        if tailOff ≥ TEN_HOURS_MS then
          let extra := if tailOff ≥ MIN_LAYOVER_MS ∧ ¬ offNearVal2 st = true
                       then jsRoundMin tailOff else 0
          finalize2 tl st os none extra
        else if tailOff ≥ START_BREAK_MIN_MS then
          let extra := if tailOff ≥ MIN_LAYOVER_MS ∧ ¬ offNearVal2 st = true
                       then jsRoundMin tailOff else 0
          finalize2 tl st os (some (.nearResetEof (TEN_HOURS_MS - tailOff))) extra
        else st
      | none => st
    else st

/-- Initial loop state of the second variant. -/
def eng2Init : Eng2 :=
  { inOff := false, offStart := none, offNearO := none,
    shiftActive := false, shiftStart := none,
    payableMin := 0, sleeperMin := 0, layoverMin := 0, maxOn := 0, curOn := 0,
    startsLog := [], rows := [] }

/-- The second variant's main loop over the timeline. -/
def eng2Go (tl : List TLE) (st : Eng2) : List TLE → Eng2
  | [] => st
  | [a] => step2 tl st a none
  | a :: b :: r => eng2Go tl (step2 tl st a (some b)) (b :: r)

/-- Run the second hours-engine variant on an effective-status timeline. -/
def runEng2 (tl : List TLE) : Eng2 := tail2 tl (eng2Go tl eng2Init tl)

/-- Shift rows of the second hours-engine variant for a merged event list. -/
def run2 (evs : List Evt1) : List Row2 := (runEng2 (buildTimeline evs)).rows

/-! ### Certification-gap checker (`UncertifiedDQChecker.tsx`)

Events of this component carry one of the four statuses returned by its
`eventStatus` helper; calendar-day keys (`iso(..)`) are modelled as UTC day
numbers. -/

/-- A duty event of the certification-gap checker. -/
structure CEvt where
  ts : Int
  status : St
deriving DecidableEq, Repr

/-- Milliseconds per calendar day. -/
def msPerDay : Int := 86400000

/-- The UTC calendar day of a timestamp, modelling the `iso(..)` day key. -/
def dayOf (ts : Int) : Int := Int.fdiv ts msPerDay

/-- `BLIP_MAX_MS` of the checker: yard-move blips of at most 10 minutes. -/
def BLIP_MAX_MS : Int := 600000

/-- `CERT_WINDOW_MIN` grace of the checker, in ms: 60 minutes. -/
def CERT_WINDOW_MS : Int := 3600000

/-- Sort a checker event list by timestamp (`events.sort` of `buildBuckets`;
insertion sort is stable like the JS sort on these inputs). -/
def sortCE (evs : List CEvt) : List CEvt :=
  evs.insertionSort (fun a b => a.ts ≤ b.ts)

/-- OFF/SB test of `detectShiftStarts`. -/
def isOffish (s : St) : Prop := s = St.off ∨ s = St.sb

instance (s : St) : Decidable (isOffish s) := by unfold isOffish; infer_instance

/-- ON/D test of `detectShiftStarts`. -/
def isWork (s : St) : Prop := s = St.on ∨ s = St.drv

instance (s : St) : Decidable (isWork s) := by unfold isWork; infer_instance

/-- Placeholder event for (guarded) out-of-range list indexing. -/
def dummyCE : CEvt := ⟨0, St.off⟩

/-- The inner `while` loop of `detectShiftStarts`: extend the OFF/SB block
starting at index `i`, absorbing work excursions of at most `BLIP_MAX_MS`
that are bracketed by OFF/SB on both sides, and return the final `endIndex`.
The loop advances `k` by one per iteration and stops before `len - 1`, so a
fuel of `len` (supplied by `detectShiftStarts`) always suffices; the fuel only
renders the iteration structurally recursive. -/
def blipScan (evs : List CEvt) (len : Nat) : Nat → Nat → Nat → Nat
  | 0, _, endIndex => endIndex
  | fuel + 1, k, endIndex =>
    if k < len - 1 then
      let a := evs.getD k dummyCE
      let b := evs.getD (k + 1) dummyCE
      let durMs := max 0 (b.ts - a.ts)
      if isOffish a.status then blipScan evs len fuel (k + 1) (k + 1)
      else if isWork a.status then
        let prevIsOff := if 1 ≤ k then isOffish (evs.getD (k - 1) dummyCE).status else False
        let nextIsOff := isOffish b.status
        if prevIsOff ∧ nextIsOff ∧ durMs ≤ BLIP_MAX_MS then blipScan evs len fuel (k + 1) (k + 1)
        else endIndex
      else endIndex
    else endIndex

/-- The outer loop of `detectShiftStarts`, collecting shift-start timestamps.
The index strictly increases each iteration and stops before `len - 1`, so a
fuel of `len` always suffices. -/
def detectGo (evs : List CEvt) (len : Nat) : Nat → Nat → List Int → List Int
  | 0, _, acc => acc
  | fuel + 1, i, acc =>
    if i < len - 1 then
      let cur := evs.getD i dummyCE
      if isOffish cur.status then
        let blockStart := cur.ts
        let endIndex := blipScan evs len len i i
        let blockEnd := (evs.getD endIndex dummyCE).ts
        let blockMs := max 0 (blockEnd - blockStart)
        let nextEvt := evs.getD endIndex dummyCE
        let acc' := if blockMs ≥ START_BREAK_MIN_MS ∧ endIndex < len ∧ isWork nextEvt.status
                    then acc ++ [nextEvt.ts] else acc
        detectGo evs len fuel (max (i + 1) endIndex) acc'
      else detectGo evs len fuel (i + 1) acc
    else acc

/-- `detectShiftStarts` of the checker: shift starts are the work events that
end an OFF/SB block of at least `START_BREAK_MIN_MS` (with yard-blip
tolerance), sorted ascending. -/
def detectShiftStarts (evs : List CEvt) : List Int :=
  if evs.isEmpty then []
  else (detectGo evs evs.length evs.length 0 []).insertionSort (fun a b => a ≤ b)

/-- Events of one calendar day, in timeline order (`groupByDate`). -/
def dayEvents (evs : List CEvt) (d : Int) : List CEvt :=
  evs.filter (fun e => decide (dayOf e.ts = d))

/-- `hasShift` of the checker: the day has some ON or D event. -/
def hasShiftDay (evs : List CEvt) : Bool :=
  evs.any (fun e => decide (isWork e.status))

/-- `firstOfType` of the checker. -/
def firstOfType (evs : List CEvt) (t : St) : Option CEvt :=
  evs.find? (fun e => e.status == t)

/-- First-occurrence deduplication (JS `Map` key insertion order). -/
def keepFirstGo (seen : List Int) : List Int → List Int
  | [] => []
  | x :: r => if x ∈ seen then keepFirstGo seen r else x :: keepFirstGo (x :: seen) r

/-- The distinct values of a list, first occurrences kept in order. -/
def keepFirst (l : List Int) : List Int := keepFirstGo [] l

/-- The sorted list of distinct day keys of a bucket (`dayOrder`). -/
def dayOrderOf (evs : List CEvt) : List Int :=
  (keepFirst (evs.map (fun e => dayOf e.ts))).insertionSort (fun a b => a ≤ b)

/-- `lastShiftStartAtOrBefore` of the checker. -/
def lastStartAtOrBefore (starts : List Int) (t : Int) : Option Int :=
  starts.foldl
    (fun best s =>
      if s ≤ t then
        match best with
        | none => some s
        | some b => if s > b then some s else some b
      else best)
    none

/-- `missingPriorShiftDaysByTime` of the checker: the days of `dayOrder`
strictly before the day of `T` that have work activity and no certification
at or before `T` (the scan `break`s at the first day not before `T`'s day). -/
def missingPrior (evs : List CEvt) (certOf : Int → List Int) (dayOrder : List Int)
    (T : Int) : List Int :=
  match dayOrder with
  | [] => []
  | y :: rest =>
    if y ≥ dayOf T then []
    else if ¬ hasShiftDay (dayEvents evs y) = true then missingPrior evs certOf rest T
    else if (certOf y).any (fun c => decide (c ≤ T)) then missingPrior evs certOf rest T
    else y :: missingPrior evs certOf rest T

/-- A verdict row of the certification-gap checker.  `day` is instrumentation
recording which scanned calendar day produced the row; `key` is the per-driver
emit-guard key (`none` models the `"(unknown)"` key of an anchorless row);
`missing` is the filtered missing-day list and `disq` the verdict. -/
structure DQRow where
  day : Int
  anchor : Option Int
  key : Option Int
  missing : List Int
  disq : Bool
deriving DecidableEq, Repr

/-- Processing of one scanned day `D` inside `run` of the checker
(lines 482–611): lookback filter, branch selection (DRIVING day / ON-only day
with a same-day anchor / ON-only continuation), missing-day computation,
continuation and shift-start-day exemptions, and the verdict. -/
def processDay (evs : List CEvt) (certOf : Int → List Int) (lookback : Int)
    (shiftStarts dayOrder : List Int) (D : Int) : Option DQRow :=
  let ev := dayEvents evs D
  if ev.isEmpty then none
  else if D * msPerDay < lookback then none
  else
    let firstON := firstOfType ev St.on
    let firstD := firstOfType ev St.drv
    match firstD, firstON with
    | none, none => none
    | some fD, _ =>
      let anchorRef := fD.ts
      let anchorShiftStart := lastStartAtOrBefore shiftStarts anchorRef
      let cutoffTime := fD.ts
      let missing := missingPrior evs certOf dayOrder cutoffTime
      let prevDay := D - 1
      let lastWork := evs.foldl
        (fun acc e =>
          if isWork e.status ∧ e.ts ≤ fD.ts then
            match acc with
            | none => some e.ts
            | some l => if e.ts > l then some e.ts else some l
          else acc)
        none
      let isContinuation := match lastWork with
        | some lw => decide (dayOf lw < D)
        | none => false
      let filtered1 := if isContinuation then missing.filter (fun d => decide (d ≠ prevDay))
                       else missing
      let filtered2 :=
        match anchorShiftStart with
        | some a =>
          let nextStart := shiftStarts.find? (fun x => decide (x > a))
          let still := match nextStart with
            | some ns => decide (cutoffTime < ns)
            | none => true
          if still then filtered1.filter (fun d => decide (d ≠ dayOf a)) else filtered1
        | none => filtered1
      some ⟨D, anchorShiftStart, anchorShiftStart.map dayOf, filtered2,
        decide (filtered2 ≠ [])⟩
    | none, some fON =>
      let anchorRef := fON.ts
      let anchorShiftStart := lastStartAtOrBefore shiftStarts anchorRef
      let anchorToday :=
        match shiftStarts.find? (fun x => decide (dayOf x = D)) with
        | some x => some x
        | none =>
          match anchorShiftStart with
          | some a => if dayOf a = D then some a else none
          | none => none
      match anchorToday with
      | some aT =>
        let plus := aT + CERT_WINDOW_MS
        let missing := missingPrior evs certOf dayOrder plus
        let nextStart := shiftStarts.find? (fun x => decide (x > aT))
        let still := match nextStart with
          | some ns => decide (plus < ns)
          | none => true
        let filtered := if still then missing.filter (fun d => decide (d ≠ dayOf aT))
                        else missing
        some ⟨D, some aT, some (dayOf aT), filtered, decide (filtered ≠ [])⟩
      | none =>
        let tempCutoff := fON.ts
        let missing := missingPrior evs certOf dayOrder tempCutoff
        let filtered :=
          match anchorShiftStart with
          | some a =>
            let nextStart := shiftStarts.find? (fun x => decide (x > a))
            let still := match nextStart with
              | some ns => decide (tempCutoff < ns)
              | none => true
            if still then missing.filter (fun d => decide (d ≠ dayOf a)) else missing
          | none => missing
        some ⟨D, anchorShiftStart, anchorShiftStart.map dayOf, filtered,
          decide (filtered ≠ [])⟩

/-- The per-day scan of `run` with the per-driver emit-guard set
(`emittedShiftStarts`). -/
def runBucketGo (evs : List CEvt) (certOf : Int → List Int) (lookback : Int)
    (shiftStarts dayOrder : List Int) (emitted : List (Option Int)) :
    List Int → List DQRow
  | [] => []
  | D :: rest =>
    match processDay evs certOf lookback shiftStarts dayOrder D with
    | none => runBucketGo evs certOf lookback shiftStarts dayOrder emitted rest
    | some row =>
      if row.key ∈ emitted then
        runBucketGo evs certOf lookback shiftStarts dayOrder emitted rest
      else row :: runBucketGo evs certOf lookback shiftStarts dayOrder (row.key :: emitted) rest

/-- Verdict rows of the certification-gap checker for one driver bucket:
sort the events, detect shift starts, scan the day keys in ascending order. -/
def runBucket (evs0 : List CEvt) (certOf : Int → List Int) (lookback : Int) :
    List DQRow :=
  let evs := sortCE evs0
  if evs.isEmpty then []
  else
    let dayOrder := dayOrderOf evs
    let shiftStarts := detectShiftStarts evs
    runBucketGo evs certOf lookback shiftStarts dayOrder [] dayOrder

/-! ### Certification extraction of `buildBuckets` (UncertifiedDQChecker.tsx)

A sheet row is modelled by the data the certification block reads: the
stringified cell values in column order (with whether each is a JS string or
number, the candidate test of line 312), whether a detail column exists and
its stringified value, the `toDate` result of the log-date cell (a JS `Date`
oracle, since `toDate` on free-form strings is `new Date(..)` whose grammar is
environment-defined), and the outcome of the row's timestamp resolution
(lines 296–299; `none` means the row is skipped by the `continue` of
line 299). -/

/-- Days from the civil epoch 1970-01-01 for a Gregorian date; the month must
be in `1..12`, the day may be any integer offset (as JS `Date` rollover). -/
def daysFromCivil (y m d : Int) : Int :=
  let y' := if m ≤ 2 then y - 1 else y
  let era := Int.fdiv y' 400
  let yoe := y' - era * 400
  let mp := Int.emod (m + 9) 12
  let doy := Int.fdiv (153 * mp + 2) 5 + d - 1
  let doe := yoe * 365 + Int.fdiv yoe 4 - Int.fdiv yoe 100 + doy
  era * 146097 + doe - 719468

/-- The UTC day number of JS `new Date(y, mIdx, d)` (month index based at 0,
with rollover for out-of-range month indices and days). -/
def jsDateDay (y mIdx d : Int) : Int :=
  daysFromCivil (y + Int.fdiv mIdx 12) (Int.emod mIdx 12 + 1) d

/-- Case-insensitive search for the substring `certif` (the `/certif/i` test). -/
def containsCertifL : List Char → Bool
  | [] => false
  | l@(_ :: r) =>
    decide ((l.take 6).map Char.toLower = ['c', 'e', 'r', 't', 'i', 'f']) || containsCertifL r

/-- `/certif/i.test(s)`. -/
def containsCertif (s : String) : Bool := containsCertifL s.data

/-- Parse exactly `n` decimal digits, returning their value and the rest. -/
def parseNDig (n : Nat) (l : List Char) : Option (Int × List Char) :=
  let pre := l.take n
  if pre.length = n ∧ pre.all Char.isDigit then
    some (pre.foldl (fun a c => a * 10 + ((c.toNat : Int) - 48)) 0, l.drop n)
  else none

/-- A date separator of the checker's date regexes: `-` or `/`. -/
def parseSep : List Char → Option (List Char)
  | c :: r => if c = '-' ∨ c = '/' then some r else none
  | [] => none

/-- Greedy `\d{1,2}` with nothing required after it. -/
def parse12 (l : List Char) : Option (Int × List Char) :=
  (parseNDig 2 l).orElse (fun _ => parseNDig 1 l)

/-- Greedy `\d{2,4}` with nothing required after it. -/
def parse24 (l : List Char) : Option (Int × List Char) :=
  ((parseNDig 4 l).orElse (fun _ => parseNDig 3 l)).orElse (fun _ => parseNDig 2 l)

/-- Match of `(\d{4})[-\/](\d{1,2})[-\/](\d{1,2})` at the head of the list,
with the regex's backtracking between the one- and two-digit month forms. -/
def parseAAt (l : List Char) : Option (Int × Int × Int) :=
  match parseNDig 4 l with
  | none => none
  | some (y, r1) =>
    match parseSep r1 with
    | none => none
    | some r2 =>
      let withMonth : Int × List Char → Option (Int × Int × Int) := fun mv =>
        match parseSep mv.2 with
        | none => none
        | some r4 =>
          match parse12 r4 with
          | some (dd, _) => some (y, mv.1, dd)
          | none => none
      match parseNDig 2 r2 with
      | some mv =>
        match withMonth mv with
        | some res => some res
        | none =>
          match parseNDig 1 r2 with
          | some mv1 => withMonth mv1
          | none => none
      | none =>
        match parseNDig 1 r2 with
        | some mv1 => withMonth mv1
        | none => none

/-- Match of `(\d{1,2})[-\/](\d{1,2})[-\/](\d{2,4})` at the head of the list,
with backtracking over the one- and two-digit first and second groups. -/
def parseBAt (l : List Char) : Option (Int × Int × Int) :=
  let tailB : Int → List Char → Option (Int × Int × Int) := fun g1 r2 =>
    let withG2 : Int × List Char → Option (Int × Int × Int) := fun g2v =>
      match parseSep g2v.2 with
      | none => none
      | some r4 =>
        match parse24 r4 with
        | some (y, _) => some (g1, g2v.1, y)
        | none => none
    match parseNDig 2 r2 with
    | some g2v =>
      match withG2 g2v with
      | some res => some res
      | none =>
        match parseNDig 1 r2 with
        | some g2v1 => withG2 g2v1
        | none => none
    | none =>
      match parseNDig 1 r2 with
      | some g2v1 => withG2 g2v1
      | none => none
  let withG1 : Int × List Char → Option (Int × Int × Int) := fun g1v =>
    match parseSep g1v.2 with
    | none => none
    | some r2 => tailB g1v.1 r2
  match parseNDig 2 l with
  | some g1v =>
    match withG1 g1v with
    | some res => some res
    | none =>
      match parseNDig 1 l with
      | some g1v1 => withG1 g1v1
      | none => none
  | none =>
    match parseNDig 1 l with
    | some g1v1 => withG1 g1v1
    | none => none

/-- Leftmost match: try the matcher at every start position, left to right. -/
def scanFirst {α : Type} (f : List Char → Option α) : List Char → Option α
  | [] => none
  | l@(_ :: r) =>
    match f l with
    | some v => some v
    | none => scanFirst f r

/-- `parseDateFromString` of the checker, returning the UTC day number of the
constructed `Date` (`Date(y, m-1, d)`, with the two-digit-year adjustment of
the second pattern). -/
def parseDateFromString (s : String) : Option Int :=
  match scanFirst parseAAt s.data with
  | some (y, m, dd) => some (jsDateDay y (m - 1) dd)
  | none =>
    match scanFirst parseBAt s.data with
    | some (mm, dd, y) => some (jsDateDay (if y < 100 then y + 2000 else y) (mm - 1) dd)
    | none => none

/-- A stringified cell value of a sheet row: its `String(v ?? "")` text and
whether the raw value was a JS string or number (candidate eligibility). -/
structure Cell where
  text : String
  strOrNum : Bool
deriving DecidableEq, Repr

/-- The data of one sheet row read by the certification block. -/
structure CertRow where
  cells : List Cell
  hasDetailCol : Bool
  detail : String
  logDateVal : Option Int
  rowTs : Option Int
deriving Repr

/-- `Object.values(r).map(v => String(v ?? "")).join(" | ")`. -/
def lineAll (r : CertRow) : String :=
  String.intercalate " | " (r.cells.map Cell.text)

/-- The candidate strings scanned for a parsable date: the detail cell first
(when a detail column exists), then every string- or number-valued cell in
column order. -/
def certCandidates (r : CertRow) : List String :=
  (if r.hasDetailCol then [r.detail] else []) ++
    (r.cells.filter (fun c => c.strOrNum)).map Cell.text

/-- The target log day of a certification row with resolved timestamp `ts`:
first parsable candidate date, else the log-date cell, else the calendar day
before `ts`. -/
def certTargetDay (r : CertRow) (ts : Int) : Int :=
  match (certCandidates r).findSome? parseDateFromString with
  | some dnum => dnum
  | none =>
    match r.logDateVal with
    | some ms => dayOf ms
    | none => dayOf ts - 1

/-- Lookup in the association-list model of the `certByDate` map. -/
def mapGet (m : List (Int × List Int)) (k : Int) : List Int :=
  match m.find? (fun p => decide (p.1 = k)) with
  | some p => p.2
  | none => []

/-- Update in the association-list model of the `certByDate` map (JS `Map.set`
keeps the key position of an existing key and appends a new key). -/
def mapPut (m : List (Int × List Int)) (k : Int) (v : List Int) :
    List (Int × List Int) :=
  if m.any (fun p => decide (p.1 = k)) then
    m.map (fun p => if p.1 = k then (k, v) else p)
  else m ++ [(k, v)]

/-- The certification branch of `buildBuckets` for one row (lines 296–324):
rows without a resolvable timestamp are skipped; a row whose joined cell text
contains `certif` records its timestamp under the target day, and the day's
list is re-sorted ascending after each insertion. -/
def processCertRow (m : List (Int × List Int)) (r : CertRow) :
    List (Int × List Int) :=
  match r.rowTs with
  | none => m
  | some ts =>
    if containsCertif (lineAll r) then
      let k := certTargetDay r ts
      let arr := mapGet m k ++ [ts]
      mapPut m k (arr.insertionSort (fun a b => a ≤ b))
    else m

/-- The `certByDate` map built from a sheet's rows. -/
def buildCerts (rows : List CertRow) : List (Int × List Int) :=
  rows.foldl processCertRow []

/-! ### Measurement functions and merge pipeline -/

/-- Clipped length of one timeline pair within the shift window `[s, e)` and
up to instant `t`, counted only when the pair's entry passes the literal
`"ON"`/`"D"` test of `onDutyDeadline` (a measure used to state what the
deadline scan accumulates). -/
def onLen (p : TLE × TLE) (s e t : Int) : Int :=
  if isOnDLit p.1.eff then max 0 (min (min p.2.ts e) t - max p.1.ts s) else 0

/-- Accumulated literally-spelled `"ON"`/`"D"` time of a pair list within
`[s, e)` up to `t` (the deadline scan's accumulation, stated over an
arbitrary pair list). -/
def accumPs (ps : List (TLE × TLE)) (s e t : Int) : Int :=
  (ps.map (fun p => onLen p s e t)).sum

/-- Accumulated literally-spelled `"ON"`/`"D"` time of the timeline within
`[s, e)` up to `t`: what `onDutyDeadline`'s accumulator actually measures. -/
def onDutyAccum (tl : List TLE) (s e t : Int) : Int :=
  ((consecPairs tl).map (fun p => onLen p s e t)).sum

/-- Accumulated ON/DRIVING time of the timeline within `[s, e)` up to `t`,
read off the spec's words for C2: ON/DRIVING taken as the effective-status
classes `ON_SET ∪ D_SET` (the same set-based `isOnOrD` reading that feeds
payable time).  Kept distinct from `onDutyAccum` to compare the spec's
deadline characterization with the code's literal accumulator. -/
def onDutyAccumSpec (tl : List TLE) (s e t : Int) : Int :=
  ((consecPairs tl).map (fun p =>
    if isOnOrD p.1.eff then max 0 (min (min p.2.ts e) t - max p.1.ts s) else 0)).sum

/-- The summed rounded ON/DRIVING minutes of the timeline pairs lying inside
`[a, b]` (a measure used to state what the payable accumulator computes). -/
def paySumWithin (tl : List TLE) (a b : Int) : Int :=
  ((consecPairs tl).filter
      (fun p => decide (a ≤ p.1.ts ∧ p.2.ts ≤ b ∧ isOnOrD p.1.eff))).foldl
    (fun acc p => acc + jsRoundMin (max 0 (p.2.ts - p.1.ts))) 0

/-- The minute-total projection of a Shift row: start, end, payable, sleeper,
layover. -/
def Row1.core (r : Row1) : Int × Int × Int × Int × Int :=
  (r.start, r.stop, r.payableMin, r.sleeperMin, r.layoverMin)

/-- The per-sheet timestamp de-duplication of `parseLogsAcrossWorkbooks`
(lines 764–771): drop an event whose timestamp equals the previously kept
one. -/
def dedupTsGo (lastTs : Option Int) : List Evt1 → List Evt1
  | [] => []
  | e :: r =>
    match lastTs with
    | some t => if e.ts = t then dedupTsGo lastTs r else e :: dedupTsGo (some e.ts) r
    | none => e :: dedupTsGo (some e.ts) r

/-- Per-sheet event pipeline: stable sort by timestamp, then adjacent
timestamp de-duplication keeping the first occurrence. -/
def perSheetEvents (evs : List Evt1) : List Evt1 :=
  dedupTsGo none (evs.insertionSort (fun a b => a.ts ≤ b.ts))

/-- The merged per-driver event list across input batches: each batch (sheet)
is sorted and de-duplicated on its own, the results are concatenated, and the
concatenation is re-sorted — with no second de-duplication (lines 772–782). -/
def mergeBatches (batches : List (List Evt1)) : List Evt1 :=
  ((batches.map perSheetEvents).flatten).insertionSort (fun a b => a.ts ≤ b.ts)

/-- Row soundness for C5: non-negative totals and payable equal to the
clipped rounded ON/DRIVING sum within the row's window. -/
def rowOk (tl : List TLE) (r : Row1) : Prop :=
  0 ≤ r.payableMin ∧ 0 ≤ r.sleeperMin ∧ 0 ≤ r.layoverMin ∧
  r.payableMin = paySumWithin tl r.start r.stop

/-- Loop invariant of the first engine variant for C5, stated at the point
where `h` is the next timeline entry to process. -/
def inv1 (tl : List TLE) (st : Eng1) (h : TLE) : Prop :=
  (∀ r ∈ st.rows, rowOk tl r) ∧
  0 ≤ st.payableMin ∧ 0 ≤ st.sleeperMin ∧ 0 ≤ st.layoverMin ∧
  (st.inOff = false → st.offStart = none) ∧
  (st.shiftActive = true →
    ∃ s0, st.shiftStart = some s0 ∧ s0 ≤ h.ts ∧
      (if st.inOff = true then
        ∃ os, st.offStart = some os ∧ os ≤ h.ts ∧
          st.payableMin = paySumWithin tl s0 os ∧
          paySumWithin tl s0 h.ts = paySumWithin tl s0 os
       else st.payableMin = paySumWithin tl s0 h.ts))

/-- Post-loop invariant of the first engine variant for C5 (`z` is the last
timeline entry). -/
def finalInv1 (tl : List TLE) (st : Eng1) (z : TLE) : Prop :=
  (∀ r ∈ st.rows, rowOk tl r) ∧
  0 ≤ st.payableMin ∧ 0 ≤ st.sleeperMin ∧ 0 ≤ st.layoverMin ∧
  (st.shiftActive = true →
    ∃ s0, st.shiftStart = some s0 ∧
      (match st.offStart with
       | some os => st.payableMin = paySumWithin tl s0 os ∧ isOffSbLit z.eff
       | none => st.payableMin = paySumWithin tl s0 z.ts))

/-- C5 counterexample events: a qualifying OFF reset, a one-hour ON, then a
sleeper block whose first hour is logged in two SB entries before the block
closes the shift at its own start. -/
def evsC5 : List Evt1 :=
  [⟨0, .off, false⟩, ⟨36000000, .on, false⟩, ⟨39600000, .sb, false⟩,
   ⟨43200000, .sb, false⟩, ⟨75600000, .on, false⟩]

/-- State equivalence for C4: equal on every field that feeds the minute
totals of current and future rows (`curOn`, `maxOn` and `startsLog` are
excluded, and rows are compared through `Row1.core`). -/
def coreEq (s t : Eng1) : Prop :=
  s.inOff = t.inOff ∧ s.offStart = t.offStart ∧ s.offNearO = t.offNearO ∧
  s.offKind = t.offKind ∧ s.shiftActive = t.shiftActive ∧
  s.shiftStart = t.shiftStart ∧ s.payableMin = t.payableMin ∧
  s.sleeperMin = t.sleeperMin ∧ s.layoverMin = t.layoverMin ∧
  s.rows.map Row1.core = t.rows.map Row1.core

/-- C2 counterexample timeline: a shift `[0, 10h)` whose work is logged with
the `"DRIVING"` spelling (as produced from `Duty Status - Driving` events),
with one 30-minute OFF break starting at the 5-hour mark. -/
def tlC2cex : List TLE :=
  buildTimeline [⟨0, RawSt.drvAlt, false⟩, ⟨18000000, RawSt.off, false⟩,
    ⟨19800000, RawSt.drvAlt, false⟩, ⟨36000000, RawSt.off, false⟩]

/-- C6 witness state: an active shift opened at 10h, currently inside an OFF
block opened at 12h. -/
def eng1C6 : Eng1 :=
  { eng1Init with
    inOff := true
    shiftActive := true
    shiftStart := some 36000000
    offStart := some 43200000 }

/-! ### Theorems -/

/-- Claim C1 counterexample: an OFF block of 9h45m with a single 5-minute
DRIVING excursion bracketed by OFF entries.  `detectShiftStarts` (the
certification-gap engine's segmenter) treats it as one unbroken rest and emits
the boundary at duty resumption (9h45m), but the hours engine's segmentation
(`parseLogsAcrossWorkbooks`, whose opened boundaries `starts1` records) emits
no boundary at all: the claim that the blip tolerance holds in the shift
segmentation used by both engines is false. -/
theorem claim_C1_counterexample :
    detectShiftStarts [⟨0, .off⟩, ⟨14400000, .drv⟩, ⟨14700000, .off⟩, ⟨35100000, .on⟩] =
      [35100000] ∧
    starts1 [⟨0, .off, false⟩, ⟨14400000, .drv, false⟩, ⟨14700000, .off, false⟩,
      ⟨35100000, .on, false⟩] = [] :=
  ⟨by decide, by decide⟩

/-- `detectShiftStarts` on an OFF–work–OFF–work event pattern whose two OFF
parts are each below the 9h30m threshold while the whole span is not: the
embedded work excursion is absorbed as a blip exactly when its duration is at
most `BLIP_MAX_MS`, in which case one boundary is emitted at the final duty
resumption; a longer excursion splits the rest and no boundary is emitted. -/
theorem detectBlip_cases (a b c dd : Int) (hab : a < b) (hbc : b < c) (hcd : c < dd)
    (hleft : b - a < START_BREAK_MIN_MS) (hright : dd - c < START_BREAK_MIN_MS)
    (hrest : dd - a ≥ START_BREAK_MIN_MS) :
    (c - b ≤ BLIP_MAX_MS →
      detectShiftStarts [⟨a, .off⟩, ⟨b, .drv⟩, ⟨c, .off⟩, ⟨dd, .on⟩] = [dd]) ∧
    (¬ c - b ≤ BLIP_MAX_MS →
      detectShiftStarts [⟨a, .off⟩, ⟨b, .drv⟩, ⟨c, .off⟩, ⟨dd, .on⟩] = []) := by
  refine ⟨?_, ?_⟩
  · intro hblip
    have hbs : blipScan [⟨a, .off⟩, ⟨b, .drv⟩, ⟨c, .off⟩, ⟨dd, .on⟩] 4 4 0 0 = 3 := by
      simp only [blipScan, List.getD, isOffish, isWork, BLIP_MAX_MS] at *
      norm_num
      omega
    have h1 : detectGo [⟨a, .off⟩, ⟨b, .drv⟩, ⟨c, .off⟩, ⟨dd, .on⟩] 4 3 3 [dd] = [dd] := by
      unfold detectGo
      norm_num
    have h0 : detectGo [⟨a, .off⟩, ⟨b, .drv⟩, ⟨c, .off⟩, ⟨dd, .on⟩] 4 4 0 [] = [dd] := by
      unfold detectGo
      norm_num [hbs, List.getD, isOffish, isWork, START_BREAK_MIN_MS]
      rw [if_pos (by simp only [START_BREAK_MIN_MS] at *; omega)]
      simpa using h1
    simp only [detectShiftStarts, List.isEmpty]
    norm_num [h0, List.insertionSort, List.orderedInsert]
  · intro hblip
    have hbs : blipScan [⟨a, .off⟩, ⟨b, .drv⟩, ⟨c, .off⟩, ⟨dd, .on⟩] 4 4 0 0 = 1 := by
      simp only [blipScan, List.getD, isOffish, isWork, BLIP_MAX_MS] at *
      norm_num
      rw [if_neg (by simp), if_neg (by omega)]
    have hbs2 : blipScan [⟨a, .off⟩, ⟨b, .drv⟩, ⟨c, .off⟩, ⟨dd, .on⟩] 4 4 2 2 = 3 := by
      simp only [blipScan, List.getD, isOffish, isWork] at *
      norm_num
    have h3 : detectGo [⟨a, .off⟩, ⟨b, .drv⟩, ⟨c, .off⟩, ⟨dd, .on⟩] 4 1 3 [] = [] := by
      unfold detectGo
      norm_num
    have h2 : detectGo [⟨a, .off⟩, ⟨b, .drv⟩, ⟨c, .off⟩, ⟨dd, .on⟩] 4 2 2 [] = [] := by
      unfold detectGo
      norm_num [hbs2, List.getD, isOffish, isWork]
      rw [if_neg (by simp only [START_BREAK_MIN_MS] at *; omega)]
      simpa using h3
    have h1 : detectGo [⟨a, .off⟩, ⟨b, .drv⟩, ⟨c, .off⟩, ⟨dd, .on⟩] 4 3 1 [] = [] := by
      unfold detectGo
      norm_num [List.getD, isOffish, isWork]
      simpa using h2
    have h0 : detectGo [⟨a, .off⟩, ⟨b, .drv⟩, ⟨c, .off⟩, ⟨dd, .on⟩] 4 4 0 [] = [] := by
      unfold detectGo
      norm_num [hbs, List.getD, isOffish, isWork]
      rw [if_neg (by simp only [START_BREAK_MIN_MS] at *; omega)]
      simpa using h1
    simp only [detectShiftStarts, List.isEmpty]
    norm_num [h0, List.insertionSort]

/-- Claim C1 (amended): in `detectShiftStarts` — used by the certification-gap
engine only — an OFF/SLEEPER block with an embedded ON/DRIVING excursion of at
most 10 minutes bracketed by OFF/SLEEPER on both sides is one unbroken rest
block and a shift boundary is emitted at the duty resumption, while a longer
excursion terminates the block (and here neither remaining part qualifies);
the hours engine's segmentation has no blip tolerance: any ON/DRIVING
effective entry ends the off block, and it opens a shift boundary there
exactly when the gap from the block's start reaches 9h30m, regardless of how
short the excursion is. -/
theorem claim_C1 (a b c dd : Int) (hab : a < b) (hbc : b < c) (hcd : c < dd)
    (hleft : b - a < START_BREAK_MIN_MS) (hright : dd - c < START_BREAK_MIN_MS)
    (hrest : dd - a ≥ START_BREAK_MIN_MS) :
    (c - b ≤ BLIP_MAX_MS →
      detectShiftStarts [⟨a, .off⟩, ⟨b, .drv⟩, ⟨c, .off⟩, ⟨dd, .on⟩] = [dd]) ∧
    (¬ c - b ≤ BLIP_MAX_MS →
      detectShiftStarts [⟨a, .off⟩, ⟨b, .drv⟩, ⟨c, .off⟩, ⟨dd, .on⟩] = []) ∧
    (∀ (tl : List TLE) (st : Eng1) (cur : TLE) (next : Option TLE),
      isOnOrD cur.eff → st.inOff = true →
      (step1 tl st cur next).inOff = false ∧
      (step1 tl st cur next).startsLog =
        (match st.offStart with
         | some os => if cur.ts - os ≥ START_BREAK_MIN_MS then st.startsLog ++ [cur.ts]
                      else st.startsLog
         | none => st.startsLog)) := by
  refine ⟨(detectBlip_cases a b c dd hab hbc hcd hleft hright hrest).1,
    (detectBlip_cases a b c dd hab hbc hcd hleft hright hrest).2, ?_⟩
  intro tl st cur next hw hin
  have hnoff : ¬ isOffSbLit cur.eff := by
    rcases hw with h | h | h | h <;> simp [isOffSbLit, h]
  cases next <;> cases hst : st.offStart <;>
    simp only [step1, hin, if_pos hw, if_neg hnoff, hst, if_true, if_false] <;>
    constructor <;> (repeat' split) <;> simp_all

/-- Claim C1 witness: a 9h45m OFF block (starting at 1h) with a 6-minute
bracketed DRIVING blip yields the boundary at duty resumption. -/
theorem claim_C1_witness :
    detectShiftStarts [⟨3600000, .off⟩, ⟨18000000, .drv⟩, ⟨18360000, .off⟩,
      ⟨38700000, .on⟩] = [38700000] :=
  (claim_C1 3600000 18000000 18360000 38700000 (by decide) (by decide) (by decide)
    (by decide) (by decide) (by decide)).1 (by decide)

/-- Claim C7 counterexample: for the shift ON 08:00→10:00, DRIVING
10:00→14:00, OFF 14:00→14:20, ON 14:20→16:00 (preceded by a 10h OFF rest and
closed by a 10h OFF block at 16:00), the hours engine reports 460 payable
minutes, not the 480 the claim asserts. -/
theorem claim_C7_counterexample :
    ((run1 [⟨-7200000, .off, false⟩, ⟨28800000, .on, false⟩, ⟨36000000, .drv, false⟩,
        ⟨50400000, .off, false⟩, ⟨51600000, .on, false⟩, ⟨57600000, .off, false⟩,
        ⟨93600000, .on, false⟩]).map (fun r => (r.start, r.stop, r.payableMin)) =
      [(28800000, 57600000, 460), (93600000, 93600000, 0)]) ∧ (460 : Int) ≠ 480 :=
  ⟨by decide, by decide⟩

/-- Claim C7 (amended): for that shift the hours engine reports payable
minutes 460 (7h40m: the ON/DRIVING segments only, excluding the 20-minute OFF
segment), not 480 and not 520. -/
theorem claim_C7 :
    ((run1 [⟨-7200000, .off, false⟩, ⟨28800000, .on, false⟩, ⟨36000000, .drv, false⟩,
        ⟨50400000, .off, false⟩, ⟨51600000, .on, false⟩, ⟨57600000, .off, false⟩,
        ⟨93600000, .on, false⟩]).map (fun r => (r.start, r.stop, r.payableMin))).head? =
      some (28800000, 57600000, 460) :=
  by decide

/-- Claim C9: the two hours-engine variants are not equivalent.  On a stream
ending while still duty-bearing (OFF 0h, ON 10h, DRIVING 11h) the first
variant closes the shift at the last event with a still-on-duty note while the
second emits no row; on a stream ending in a short trailing OFF block (OFF 0h,
ON 10h, OFF 12h) the first variant closes the shift at the block's start with
an end-of-file note while the second again emits no row. -/
theorem claim_C9 :
    ((run1 [⟨0, .off, false⟩, ⟨36000000, .on, false⟩, ⟨39600000, .drv, false⟩]).map
        (fun r => (r.start, r.stop, r.note)) =
      [(36000000, 39600000, some CloseNote.eofStillOn)]) ∧
    run2 [⟨0, .off, false⟩, ⟨36000000, .on, false⟩, ⟨39600000, .drv, false⟩] = [] ∧
    ((run1 [⟨0, .off, false⟩, ⟨36000000, .on, false⟩, ⟨43200000, .off, false⟩]).map
        (fun r => (r.start, r.stop, r.note)) =
      [(36000000, 43200000, some CloseNote.eofShortOff)]) ∧
    run2 [⟨0, .off, false⟩, ⟨36000000, .on, false⟩, ⟨43200000, .off, false⟩] = [] :=
  ⟨by decide, by decide, by decide, by decide⟩

/-- Every emitted verdict row's emit key is the day of its anchor (so the
per-driver emit guard is keyed by anchor day). -/
theorem processDay_key (evs : List CEvt) (certOf : Int → List Int) (lookback : Int)
    (shiftStarts dayOrder : List Int) (D : Int) (row : DQRow)
    (h : processDay evs certOf lookback shiftStarts dayOrder D = some row) :
    row.key = row.anchor.map dayOf := by
  simp only [processDay] at h
  repeat' split at h
  all_goals first
    | exact Option.noConfusion h
    | (injection h with h2; subst h2; simp)

/-- The emit-guard scan never emits a key already in the guard set, keeps all
emitted keys pairwise distinct, and every emitted row comes from `processDay`
of some scanned day. -/
theorem runBucketGo_keys (evs : List CEvt) (certOf : Int → List Int) (lookback : Int)
    (shiftStarts dayOrder : List Int) :
    ∀ (days : List Int) (emitted : List (Option Int)),
      (∀ r ∈ runBucketGo evs certOf lookback shiftStarts dayOrder emitted days,
        r.key ∉ emitted ∧
          ∃ D, processDay evs certOf lookback shiftStarts dayOrder D = some r) ∧
      (runBucketGo evs certOf lookback shiftStarts dayOrder emitted days).Pairwise
        (fun r1 r2 => r1.key ≠ r2.key) := by
  intro days
  induction days with
  | nil => intro emitted; simp [runBucketGo]
  | cons D rest ih =>
    intro emitted
    unfold runBucketGo
    cases hp : processDay evs certOf lookback shiftStarts dayOrder D with
    | none => simpa using ih emitted
    | some row =>
      simp only
      by_cases hk : row.key ∈ emitted
      · simpa [hk] using ih emitted
      · have ih' := ih (row.key :: emitted)
        refine ⟨?_, ?_⟩
        · simp only [if_neg hk, List.mem_cons]
          rintro r (rfl | hr)
          · exact ⟨hk, D, hp⟩
          · refine ⟨fun hmem => ((ih'.1 r hr).1 (List.mem_cons_of_mem _ hmem)), (ih'.1 r hr).2⟩
        · simp only [if_neg hk]
          refine List.Pairwise.cons ?_ ih'.2
          intro r hr heq
          exact (ih'.1 r hr).1 (heq ▸ List.mem_cons_self _ _)

/-- Claim C8: within one run over a driver bucket, the certification-gap
evaluator emits at most one verdict row per anchor: no two distinct emitted
rows are anchored at the same detected shift start (the emit guard suppresses
duplicates by key, and a row's key is its anchor's day). -/
theorem claim_C8 (evs : List CEvt) (certOf : Int → List Int) (lookback : Int) :
    (runBucket evs certOf lookback).Pairwise
      (fun r1 r2 => ¬ ∃ x : Int, r1.anchor = some x ∧ r2.anchor = some x) := by
  simp only [runBucket]
  split
  · exact List.Pairwise.nil
  · have h := runBucketGo_keys (sortCE evs) certOf lookback (detectShiftStarts (sortCE evs))
      (dayOrderOf (sortCE evs)) (dayOrderOf (sortCE evs)) []
    refine List.Pairwise.imp_of_mem ?_ h.2
    intro r1 r2 h1 h2 hne ⟨x, hx1, hx2⟩
    obtain ⟨D1, hp1⟩ := (h.1 r1 h1).2
    obtain ⟨D2, hp2⟩ := (h.1 r2 h2).2
    have k1 := processDay_key _ _ _ _ _ _ _ hp1
    have k2 := processDay_key _ _ _ _ _ _ _ hp2
    exact hne (by rw [k1, k2, hx1, hx2])

/-- Claim C8 witness: a concrete two-day single-shift bucket in which the
second day's row would re-anchor at the same shift start and is suppressed:
only one row is emitted for the anchor. -/
theorem claim_C8_witness :
    (runBucket [⟨28800000, .on⟩, ⟨32400000, .off⟩, ⟨165600000, .on⟩, ⟨194400000, .on⟩]
        (fun _ => []) 0).Pairwise
      (fun r1 r2 => ¬ ∃ x : Int, r1.anchor = some x ∧ r2.anchor = some x) :=
  claim_C8 [⟨28800000, .on⟩, ⟨32400000, .off⟩, ⟨165600000, .on⟩, ⟨194400000, .on⟩]
    (fun _ => []) 0

/-- Membership in `missingPriorShiftDaysByTime` over a sorted day list: exactly
the days strictly before the cutoff's day that have work activity and no
certification at or before the cutoff. -/
theorem mem_missingPrior (evs : List CEvt) (certOf : Int → List Int) (T : Int) :
    ∀ (dayOrder : List Int), dayOrder.Sorted (· ≤ ·) →
      ∀ y, y ∈ missingPrior evs certOf dayOrder T ↔
        (y ∈ dayOrder ∧ y < dayOf T ∧ hasShiftDay (dayEvents evs y) = true ∧
         ¬ ((certOf y).any (fun c => decide (c ≤ T))) = true) := by
  intro dayOrder
  induction dayOrder with
  | nil => simp [missingPrior]
  | cons d rest ih =>
    intro hs y
    have hrest := ih (List.sorted_cons.mp hs).2
    have hle : ∀ z ∈ rest, d ≤ z := (List.sorted_cons.mp hs).1
    unfold missingPrior
    by_cases h1 : d ≥ dayOf T
    · rw [if_pos h1]
      simp only [List.not_mem_nil, false_iff, List.mem_cons]
      rintro ⟨(rfl | hy), h2, _⟩
      · omega
      · have := hle y hy; omega
    · rw [if_neg h1]
      by_cases h2 : hasShiftDay (dayEvents evs d) = true
      · rw [if_neg (by simpa using h2)]
        by_cases h3 : ((certOf d).any (fun c => decide (c ≤ T))) = true
        · rw [if_pos h3, hrest y]
          constructor
          · rintro ⟨hy, rest'⟩; exact ⟨List.mem_cons_of_mem _ hy, rest'⟩
          · rintro ⟨hy, hb, hc, hd⟩
            rcases List.mem_cons.mp hy with rfl | hy
            · exact absurd h3 hd
            · exact ⟨hy, hb, hc, hd⟩
        · rw [if_neg h3]
          simp only [List.mem_cons, hrest y]
          constructor
          · rintro (rfl | ⟨hy, rest'⟩)
            · exact ⟨Or.inl rfl, by omega, h2, h3⟩
            · exact ⟨Or.inr hy, rest'⟩
          · rintro ⟨(rfl | hy), hb, hc, hd⟩
            · exact Or.inl rfl
            · exact Or.inr ⟨hy, hb, hc, hd⟩
      · rw [if_pos h2, hrest y]
        constructor
        · rintro ⟨hy, rest'⟩; exact ⟨List.mem_cons_of_mem _ hy, rest'⟩
        · rintro ⟨hy, hb, hc, hd⟩
          rcases List.mem_cons.mp hy with rfl | hy
          · exact absurd hc h2
          · exact ⟨hy, hb, hc, hd⟩

/-- A value of the scanned list that is not yet seen survives `keepFirstGo`. -/
theorem mem_keepFirstGo (y : Int) :
    ∀ (l : List Int) (seen : List Int), y ∈ l → y ∉ seen → y ∈ keepFirstGo seen l := by
  intro l
  induction l with
  | nil => simp
  | cons x r ih =>
    intro seen hy hns
    unfold keepFirstGo
    by_cases hx : x ∈ seen
    · rw [if_pos hx]
      rcases List.mem_cons.mp hy with rfl | hy'
      · exact absurd hx hns
      · exact ih seen hy' hns
    · rw [if_neg hx]
      rcases List.mem_cons.mp hy with rfl | hy'
      · exact List.mem_cons_self _ _
      · by_cases hyx : y = x
        · subst hyx; exact List.mem_cons_self _ _
        · exact List.mem_cons_of_mem _ (ih (x :: seen) hy'
            (by simp [hyx, hns]))

/-- Every day with work activity appears in the bucket's day order. -/
theorem mem_dayOrderOf (evs : List CEvt) (y : Int)
    (h : hasShiftDay (dayEvents evs y) = true) : y ∈ dayOrderOf evs := by
  have : ∃ e ∈ dayEvents evs y, isWork e.status := by
    simpa [hasShiftDay] using h
  obtain ⟨e, he, _⟩ := this
  have hdy : dayOf e.ts = y := by
    have := (List.mem_filter.mp he).2
    simpa using this
  have hmem : y ∈ evs.map (fun e => dayOf e.ts) := by
    refine List.mem_map.mpr ⟨e, (List.mem_filter.mp he).1, hdy⟩
  have hk : y ∈ keepFirst (evs.map (fun e => dayOf e.ts)) :=
    mem_keepFirstGo y _ [] hmem (by simp)
  unfold dayOrderOf
  exact ((List.perm_insertionSort _ _).mem_iff).mpr hk

/-- The day order of a bucket is sorted ascending. -/
theorem dayOrderOf_sorted (evs : List CEvt) : (dayOrderOf evs).Sorted (· ≤ ·) := by
  unfold dayOrderOf
  exact List.sorted_insertionSort _ _

/-- The `lastWork` fold of the DRIVING branch computes a maximum of the work
event timestamps at or before `t`: its value is at most `t`, at least each
qualifying event, and never decreases. -/
theorem lastWorkFold (t : Int) :
    ∀ (evs : List CEvt) (acc : Option Int),
      (∀ a, acc = some a → a ≤ t) →
      (∀ a, evs.foldl
          (fun acc e =>
            if isWork e.status ∧ e.ts ≤ t then
              match acc with
              | none => some e.ts
              | some l => if e.ts > l then some e.ts else some l
            else acc) acc = some a → a ≤ t) ∧
      (∀ e ∈ evs, isWork e.status → e.ts ≤ t →
        ∃ a, evs.foldl
          (fun acc e =>
            if isWork e.status ∧ e.ts ≤ t then
              match acc with
              | none => some e.ts
              | some l => if e.ts > l then some e.ts else some l
            else acc) acc = some a ∧ e.ts ≤ a) ∧
      (∀ a, acc = some a →
        ∃ b, evs.foldl
          (fun acc e =>
            if isWork e.status ∧ e.ts ≤ t then
              match acc with
              | none => some e.ts
              | some l => if e.ts > l then some e.ts else some l
            else acc) acc = some b ∧ a ≤ b) := by
  intro evs
  induction evs with
  | nil =>
    intro acc hacc
    refine ⟨by simpa using hacc, by simp, ?_⟩
    intro a ha
    exact ⟨a, by simpa using ha, le_refl _⟩
  | cons e r ih =>
    intro acc hacc
    have hstep : ∀ a, (if isWork e.status ∧ e.ts ≤ t then
        match acc with
        | none => some e.ts
        | some l => if e.ts > l then some e.ts else some l
        else acc) = some a → a ≤ t := by
      intro a ha
      by_cases hc : isWork e.status ∧ e.ts ≤ t
      · rw [if_pos hc] at ha
        cases hacc' : acc with
        | none => simp [hacc'] at ha; omega
        | some l =>
          rw [hacc'] at ha
          by_cases hgt : e.ts > l
          · simp [hgt] at ha; omega
          · simp [hgt] at ha; exact ha ▸ hacc l hacc'
      · rw [if_neg hc] at ha; exact hacc a ha
    have ihs := ih _ hstep
    refine ⟨ihs.1, ?_, ?_⟩
    · intro e' he' hw hle
      rcases List.mem_cons.mp he' with rfl | hmem
      · have hsome : ∃ a, (if isWork e'.status ∧ e'.ts ≤ t then
            match acc with
            | none => some e'.ts
            | some l => if e'.ts > l then some e'.ts else some l
            else acc) = some a ∧ e'.ts ≤ a := by
          rw [if_pos ⟨hw, hle⟩]
          cases acc with
          | none => exact ⟨e'.ts, rfl, le_refl _⟩
          | some l =>
            by_cases hgt : e'.ts > l
            · exact ⟨e'.ts, by simp [hgt], le_refl _⟩
            · exact ⟨l, by simp [hgt], by omega⟩
        obtain ⟨a, ha, hea⟩ := hsome
        obtain ⟨b, hb, hab⟩ := ihs.2.2 a ha
        exact ⟨b, hb, by omega⟩
      · exact ihs.2.1 e' hmem hw hle
    · intro a ha
      have hsome : ∃ a2, (if isWork e.status ∧ e.ts ≤ t then
          match acc with
          | none => some e.ts
          | some l => if e.ts > l then some e.ts else some l
          else acc) = some a2 ∧ a ≤ a2 := by
        by_cases hc : isWork e.status ∧ e.ts ≤ t
        · rw [if_pos hc, ha]
          by_cases hgt : e.ts > a
          · exact ⟨e.ts, by simp [hgt], by omega⟩
          · exact ⟨a, by simp [hgt], le_refl _⟩
        · exact ⟨a, by rw [if_neg hc]; exact ha, le_refl _⟩
      obtain ⟨a2, ha2, haa⟩ := hsome
      obtain ⟨b, hb, hab⟩ := ihs.2.2 a2 ha2
      exact ⟨b, hb, by omega⟩

/-- The `isContinuation` test of the DRIVING branch is always false: the first
DRIVING event of the scanned day itself bounds the `lastWork` fold, so the
latest work timestamp at or before it lies on the scanned day.  The previous-
day exclusion is therefore dead code. -/
theorem isContinuation_false (evs : List CEvt) (D : Int) (fD : CEvt)
    (hfD : firstOfType (dayEvents evs D) St.drv = some fD) :
    (match evs.foldl
        (fun acc e =>
          if isWork e.status ∧ e.ts ≤ fD.ts then
            match acc with
            | none => some e.ts
            | some l => if e.ts > l then some e.ts else some l
          else acc) none with
      | some lw => decide (dayOf lw < D)
      | none => false) = false := by
  have hmem : fD ∈ dayEvents evs D := List.mem_of_find?_eq_some hfD
  have hday : dayOf fD.ts = D := by
    have := (List.mem_filter.mp hmem).2
    simpa using this
  have hwork : isWork fD.status := by
    have := List.find?_some hfD
    simp only [beq_iff_eq] at this
    simp [isWork, this]
  have hin : fD ∈ evs := (List.mem_filter.mp hmem).1
  have hfold := lastWorkFold fD.ts evs none (by simp)
  obtain ⟨a, ha, hge⟩ := hfold.2.1 fD hin hwork (le_refl _)
  have hle := hfold.1 a ha
  have : a = fD.ts := by omega
  rw [ha, this]
  simp [hday]

/-- Membership in the shift-start-day exemption filter: a day survives iff it
is in the unfiltered list and is not the anchor's day while the cutoff falls
before the next detected shift start. -/
theorem mem_exemptFilter (m : List Int) (starts : List Int) (a T y : Int) :
    (y ∈ (if (match starts.find? (fun x => decide (x > a)) with
               | some ns => decide (T < ns)
               | none => true) = true then m.filter (fun d => decide (d ≠ dayOf a)) else m)) ↔
    (y ∈ m ∧ ¬ ((match starts.find? (fun x => decide (x > a)) with
                 | some ns => T < ns
                 | none => True) ∧ y = dayOf a)) := by
  cases hf : starts.find? (fun x => decide (x > a)) with
  | none => simp [List.mem_filter]
  | some ns =>
    by_cases hlt : T < ns
    · simp [hlt, List.mem_filter]
    · simp [hlt]

/-- A row produced by `processDay` records the scanned day it came from. -/
theorem processDay_day (evs : List CEvt) (certOf : Int → List Int) (lookback : Int)
    (shiftStarts dayOrder : List Int) (D : Int) (row : DQRow)
    (h : processDay evs certOf lookback shiftStarts dayOrder D = some row) :
    row.day = D := by
  simp only [processDay] at h
  repeat' split at h
  all_goals first
    | exact Option.noConfusion h
    | (injection h with h2; subst h2; simp)

/-- The certification `any` test, unfolded to a universal statement. -/
theorem certAny_iff (certOf : Int → List Int) (y T : Int) :
    (¬ ((certOf y).any (fun c => decide (c ≤ T))) = true) ↔ (∀ c ∈ certOf y, ¬ c ≤ T) := by
  simp [List.any_eq_true]

/-- Claim C3 (amended): for every verdict row emitted by the certification-gap
evaluator, the verdict is "disqualified" iff the filtered missing-day list is
non-empty, and that list contains exactly the calendar days strictly before
the cutoff's day that have ON/DRIVING activity and no certification with
`certifiedAt` at or before the cutoff, minus the anchor's day while the
cutoff falls before the next detected shift start.  The cutoff is: the first
DRIVING event's timestamp on a day containing DRIVING; the anchor plus 60
minutes on an On-Duty-only day whose anchor lies on that same day; and the
first ON event's timestamp on an On-Duty-only continuation day (anchor on an
earlier day, or no anchor). -/
theorem claim_C3 (evs0 : List CEvt) (certOf : Int → List Int) (lookback : Int)
    (row : DQRow) (hrow : row ∈ runBucket evs0 certOf lookback) :
    (let sevs := sortCE evs0
     let starts := detectShiftStarts sevs
     let ev := dayEvents sevs row.day
     let T : Int :=
       match firstOfType ev St.drv with
       | some fD => fD.ts
       | none =>
         match row.anchor with
         | some a =>
           if dayOf a = row.day then a + CERT_WINDOW_MS
           else ((firstOfType ev St.on).getD dummyCE).ts
         | none => ((firstOfType ev St.on).getD dummyCE).ts
     let exempt : Int → Prop := fun y =>
       (match row.anchor with
        | some a =>
          ((match starts.find? (fun x => decide (x > a)) with
            | some ns => T < ns
            | none => True) ∧ y = dayOf a)
        | none => False)
     (row.disq = true ↔ row.missing ≠ []) ∧
     ∀ y : Int, y ∈ row.missing ↔
       (y < dayOf T ∧ hasShiftDay (dayEvents sevs y) = true ∧
        (∀ c ∈ certOf y, ¬ c ≤ T) ∧ ¬ exempt y)) := by
  have hproc : ∃ D, processDay (sortCE evs0) certOf lookback (detectShiftStarts (sortCE evs0))
      (dayOrderOf (sortCE evs0)) D = some row := by
    simp only [runBucket] at hrow
    split at hrow
    · exact absurd hrow (by simp)
    · exact ((runBucketGo_keys _ _ _ _ _ _ _).1 row hrow).2
  obtain ⟨D, hp⟩ := hproc
  have hday : row.day = D := processDay_day _ _ _ _ _ _ _ hp
  dsimp only
  rw [hday]
  simp only [processDay] at hp
  split at hp
  · exact absurd hp (by simp)
  split at hp
  · exact absurd hp (by simp)
  cases hfD : firstOfType (dayEvents (sortCE evs0) D) St.drv with
  | some fD =>
    cases hfON : firstOfType (dayEvents (sortCE evs0) D) St.on <;>
      simp only [hfD, hfON] at hp
    all_goals {
      rw [isContinuation_false (sortCE evs0) D fD hfD] at hp
      simp only [Bool.false_eq_true, if_false] at hp
      cases hanchor : lastStartAtOrBefore (detectShiftStarts (sortCE evs0)) fD.ts <;>
        simp only [hanchor] at hp
      · -- anchor none
        injection hp with hlit
        subst hlit
        simp only [hfD]
        refine ⟨by simp, ?_⟩
        intro y
        rw [mem_missingPrior (sortCE evs0) certOf fD.ts _ (dayOrderOf_sorted _) y]
        rw [certAny_iff certOf y fD.ts] at *
        constructor
        · rintro ⟨_, h1, h2, h3⟩
          exact ⟨h1, h2, h3, by simp⟩
        · rintro ⟨h1, h2, h3, _⟩
          exact ⟨mem_dayOrderOf _ _ h2, h1, h2, h3⟩
      · -- anchor some a
        next a =>
        injection hp with hlit
        subst hlit
        simp only [hfD]
        refine ⟨by simp, ?_⟩
        intro y
        rw [mem_exemptFilter _ _ a fD.ts y,
          mem_missingPrior (sortCE evs0) certOf fD.ts _ (dayOrderOf_sorted _) y]
        constructor
        · rintro ⟨⟨_, h1, h2, h3⟩, hex⟩
          exact ⟨h1, h2, (certAny_iff certOf y fD.ts).mp h3, hex⟩
        · rintro ⟨h1, h2, h3, hex⟩
          exact ⟨⟨mem_dayOrderOf _ _ h2, h1, h2, (certAny_iff certOf y fD.ts).mpr h3⟩, hex⟩
    }
  | none =>
    cases hfON : firstOfType (dayEvents (sortCE evs0) D) St.on with
    | none =>
      simp only [hfD, hfON] at hp
      exact Option.noConfusion hp
    | some fON =>
      simp only [hfD, hfON] at hp
      cases hfind : (detectShiftStarts (sortCE evs0)).find? (fun x => decide (dayOf x = D)) with
      | some aT =>
        simp only [hfind] at hp
        injection hp with hlit
        subst hlit
        have hdaT : dayOf aT = D := by
          have := List.find?_some hfind
          simpa using this
        simp only [hfD, if_pos hdaT]
        refine ⟨by simp, ?_⟩
        intro y
        rw [mem_exemptFilter _ _ aT (aT + CERT_WINDOW_MS) y,
          mem_missingPrior (sortCE evs0) certOf (aT + CERT_WINDOW_MS) _ (dayOrderOf_sorted _) y]
        constructor
        · rintro ⟨⟨_, h1, h2, h3⟩, hex⟩
          exact ⟨h1, h2, (certAny_iff certOf y _).mp h3, hex⟩
        · rintro ⟨h1, h2, h3, hex⟩
          exact ⟨⟨mem_dayOrderOf _ _ h2, h1, h2, (certAny_iff certOf y _).mpr h3⟩, hex⟩
      | none =>
        simp only [hfind] at hp
        cases hanchor : lastStartAtOrBefore (detectShiftStarts (sortCE evs0)) fON.ts with
        | some a =>
          simp only [hanchor] at hp
          by_cases hda : dayOf a = D
          · simp only [if_pos hda] at hp
            injection hp with hlit
            subst hlit
            simp only [hfD, if_pos hda]
            refine ⟨by simp, ?_⟩
            intro y
            rw [mem_exemptFilter _ _ a (a + CERT_WINDOW_MS) y,
              mem_missingPrior (sortCE evs0) certOf (a + CERT_WINDOW_MS) _ (dayOrderOf_sorted _) y]
            constructor
            · rintro ⟨⟨_, h1, h2, h3⟩, hex⟩
              exact ⟨h1, h2, (certAny_iff certOf y _).mp h3, hex⟩
            · rintro ⟨h1, h2, h3, hex⟩
              exact ⟨⟨mem_dayOrderOf _ _ h2, h1, h2, (certAny_iff certOf y _).mpr h3⟩, hex⟩
          · simp only [if_neg hda] at hp
            injection hp with hlit
            subst hlit
            simp only [hfD, hfON, if_neg hda, Option.getD_some]
            refine ⟨by simp, ?_⟩
            intro y
            rw [mem_exemptFilter _ _ a fON.ts y,
              mem_missingPrior (sortCE evs0) certOf fON.ts _ (dayOrderOf_sorted _) y]
            constructor
            · rintro ⟨⟨_, h1, h2, h3⟩, hex⟩
              exact ⟨h1, h2, (certAny_iff certOf y _).mp h3, hex⟩
            · rintro ⟨h1, h2, h3, hex⟩
              exact ⟨⟨mem_dayOrderOf _ _ h2, h1, h2, (certAny_iff certOf y _).mpr h3⟩, hex⟩
        | none =>
          simp only [hanchor] at hp
          injection hp with hlit
          subst hlit
          simp only [hfD, hfON, Option.getD_some]
          refine ⟨by simp, ?_⟩
          intro y
          rw [mem_missingPrior (sortCE evs0) certOf fON.ts _ (dayOrderOf_sorted _) y]
          constructor
          · rintro ⟨_, h1, h2, h3⟩
            exact ⟨h1, h2, (certAny_iff certOf y _).mp h3, by simp⟩
          · rintro ⟨h1, h2, h3, _⟩
            exact ⟨mem_dayOrderOf _ _ h2, h1, h2, (certAny_iff certOf y _).mpr h3⟩

/-- Claim C3 counterexample: a driver works on day 0, starts a detected shift
at day 1 22:00, continues with an On-Duty-only day 2 (first ON at 06:00), and
certifies day 0 at day 2 05:00.  The evaluator emits one row (the lookback
cutoff hides days 0-1), with verdict "qualified" and an empty missing list,
because its cutoff for the continuation day is the first ON timestamp
(day 2 06:00) and the certification precedes it.  Under the claim's stated
cutoff for an On-Duty-only day — anchor + 60 minutes = day 1 23:00 — day 0 is
a prior work day, lacks any certification at or before that cutoff, and is
not the shift-start day, so the claim would require a non-empty missing list
and a "disqualified" verdict: the claim's cutoff rule is wrong for
continuation days. -/
theorem claim_C3_counterexample :
    runBucket [⟨28800000, .on⟩, ⟨32400000, .off⟩, ⟨165600000, .on⟩, ⟨194400000, .on⟩]
        (fun k => if k = 0 then [190800000] else []) 172800000 =
      [⟨2, some 165600000, some 1, [], false⟩] ∧
    detectShiftStarts (sortCE [⟨28800000, .on⟩, ⟨32400000, .off⟩, ⟨165600000, .on⟩,
      ⟨194400000, .on⟩]) = [165600000] ∧
    firstOfType (dayEvents (sortCE [⟨28800000, .on⟩, ⟨32400000, .off⟩, ⟨165600000, .on⟩,
      ⟨194400000, .on⟩]) 2) St.drv = none ∧
    hasShiftDay (dayEvents (sortCE [⟨28800000, .on⟩, ⟨32400000, .off⟩, ⟨165600000, .on⟩,
      ⟨194400000, .on⟩]) 0) = true ∧
    (∀ c ∈ [(190800000 : Int)], ¬ c ≤ 165600000 + CERT_WINDOW_MS) ∧
    (0 : Int) < dayOf (165600000 + CERT_WINDOW_MS) ∧
    (0 : Int) ≠ dayOf 165600000 :=
  ⟨by decide, by decide, by decide, by decide, by decide, by decide, by decide⟩

/-- Claim C3 witness: the amended characterization applied to the concrete
continuation-day row of the scenario above. -/
theorem claim_C3_witness :
    (let row : DQRow := ⟨2, some 165600000, some 1, [], false⟩
     let sevs := sortCE [⟨28800000, .on⟩, ⟨32400000, .off⟩, ⟨165600000, .on⟩,
       ⟨194400000, .on⟩]
     let starts := detectShiftStarts sevs
     let ev := dayEvents sevs row.day
     let T : Int :=
       match firstOfType ev St.drv with
       | some fD => fD.ts
       | none =>
         match row.anchor with
         | some a =>
           if dayOf a = row.day then a + CERT_WINDOW_MS
           else ((firstOfType ev St.on).getD dummyCE).ts
         | none => ((firstOfType ev St.on).getD dummyCE).ts
     let exempt : Int → Prop := fun y =>
       (match row.anchor with
        | some a =>
          ((match starts.find? (fun x => decide (x > a)) with
            | some ns => T < ns
            | none => True) ∧ y = dayOf a)
        | none => False)
     (row.disq = true ↔ row.missing ≠ []) ∧
     ∀ y : Int, y ∈ row.missing ↔
       (y < dayOf T ∧ hasShiftDay (dayEvents sevs y) = true ∧
        (∀ c ∈ (fun k => if k = 0 then [(190800000 : Int)] else []) y, ¬ c ≤ T) ∧
        ¬ exempt y)) :=
  claim_C3 [⟨28800000, .on⟩, ⟨32400000, .off⟩, ⟨165600000, .on⟩, ⟨194400000, .on⟩]
    (fun k => if k = 0 then [190800000] else []) 172800000
    ⟨2, some 165600000, some 1, [], false⟩ (by decide)

/-- Lookup in a nonempty association list. -/
theorem mapGet_cons (p : Int × List Int) (rest : List (Int × List Int)) (d : Int) :
    mapGet (p :: rest) d = if p.1 = d then p.2 else mapGet rest d := by
  unfold mapGet
  by_cases h : p.1 = d
  · rw [List.find?_cons_of_pos _ (by simpa using h), if_pos h]
  · rw [List.find?_cons_of_neg _ (by simpa using h), if_neg h]

/-- `Map.set` followed by `Map.get` of the same key. -/
theorem mapGet_mapPut_same (m : List (Int × List Int)) (k : Int) (v : List Int) :
    mapGet (mapPut m k v) k = v := by
  unfold mapPut
  by_cases h : m.any (fun p => decide (p.1 = k)) = true
  · rw [if_pos h]
    induction m with
    | nil => simp at h
    | cons p rest ih =>
      simp only [List.any_cons, Bool.or_eq_true_iff] at h
      by_cases hp : p.1 = k
      · simp [mapGet_cons, hp]
      · simp only [List.map_cons, if_neg hp, mapGet_cons, hp, if_false]
        rcases h with h1 | h2
        · exact absurd (of_decide_eq_true h1) hp
        · exact ih h2
  · rw [if_neg h]
    induction m with
    | nil => simp [mapGet_cons]
    | cons p rest ih =>
      simp only [List.any_cons, Bool.or_eq_true_iff, not_or] at h
      have hp : ¬ p.1 = k := fun hh => h.1 (by simp [hh])
      rw [List.cons_append, mapGet_cons, if_neg hp]
      exact ih h.2

/-- `Map.set` leaves other keys' values unchanged. -/
theorem mapGet_mapPut_other (m : List (Int × List Int)) (k : Int) (v : List Int)
    (d : Int) (hd : d ≠ k) : mapGet (mapPut m k v) d = mapGet m d := by
  unfold mapPut
  by_cases h : m.any (fun p => decide (p.1 = k)) = true
  · rw [if_pos h]
    clear h
    induction m with
    | nil => simp
    | cons p rest ih =>
      simp only [List.map_cons]
      by_cases hp : p.1 = k
      · rw [if_pos hp, mapGet_cons, mapGet_cons,
          if_neg (show ¬ ((k, v) : Int × List Int).1 = d from fun hh => hd hh.symm),
          if_neg (show ¬ p.1 = d from by rw [hp]; exact fun hh => hd hh.symm)]
        exact ih
      · rw [if_neg hp, mapGet_cons, mapGet_cons]
        by_cases hq : p.1 = d
        · rw [if_pos hq, if_pos hq]
        · rw [if_neg hq, if_neg hq]
          exact ih
  · rw [if_neg h]
    induction m with
    | nil => simp [mapGet_cons, Ne.symm hd, mapGet]
    | cons p rest ih =>
      simp only [List.any_cons, Bool.or_eq_true_iff, not_or] at h
      rw [List.cons_append, mapGet_cons, mapGet_cons]
      by_cases hq : p.1 = d
      · rw [if_pos hq, if_pos hq]
      · rw [if_neg hq, if_neg hq]
        exact ih h.2


/-- Fold invariant of the certification map construction: for each day, the
list stays sorted and accumulates exactly the timestamps of the
timestamp-bearing `certif` rows whose target day is that day. -/
theorem buildCertsGo (d : Int) :
    ∀ (rows : List CertRow) (m : List (Int × List Int)),
      (mapGet m d).Sorted (· ≤ ·) →
      ((mapGet (rows.foldl processCertRow m) d).Sorted (· ≤ ·) ∧
       (mapGet (rows.foldl processCertRow m) d).Perm
         (mapGet m d ++ rows.filterMap (fun r =>
           match r.rowTs with
           | some ts => if containsCertif (lineAll r) = true ∧ certTargetDay r ts = d
                        then some ts else none
           | none => none))) := by
  intro rows
  induction rows with
  | nil =>
    intro m hm
    refine ⟨by simpa using hm, by simp⟩
  | cons r rows ih =>
    intro m hm
    simp only [List.foldl_cons, List.filterMap_cons]
    cases hts : r.rowTs with
    | none =>
      have hid : processCertRow m r = m := by unfold processCertRow; rw [hts]
      rw [hid]
      simp only [hts]
      exact ih m hm
    | some ts =>
      by_cases hc : containsCertif (lineAll r) = true
      · have hpc : processCertRow m r =
            mapPut m (certTargetDay r ts)
              ((mapGet m (certTargetDay r ts) ++ [ts]).insertionSort (fun a b => a ≤ b)) := by
          simp [processCertRow, hts, hc]
        rw [hpc]
        simp only [hts]
        by_cases hk : certTargetDay r ts = d
        · rw [if_pos ⟨hc, hk⟩, hk]
          have hS : mapGet (mapPut m d ((mapGet m d ++ [ts]).insertionSort (fun a b => a ≤ b))) d
              = (mapGet m d ++ [ts]).insertionSort (fun a b => a ≤ b) :=
            mapGet_mapPut_same m d _
          have hsort : ((mapGet m d ++ [ts]).insertionSort (fun a b => a ≤ b)).Sorted (· ≤ ·) :=
            List.sorted_insertionSort _ _
          obtain ⟨hs1, hs2⟩ := ih _ (by rw [hS]; exact hsort)
          refine ⟨hs1, ?_⟩
          refine hs2.trans ?_
          rw [hS]
          have hperm : ((mapGet m d ++ [ts]).insertionSort (fun a b => a ≤ b)).Perm
              (mapGet m d ++ [ts]) := List.perm_insertionSort _ _
          refine (hperm.append_right _).trans ?_
          rw [List.append_assoc]
          exact List.Perm.refl _
        · have hO : mapGet (mapPut m (certTargetDay r ts)
              ((mapGet m (certTargetDay r ts) ++ [ts]).insertionSort (fun a b => a ≤ b))) d
              = mapGet m d := mapGet_mapPut_other _ _ _ _ (fun hh => hk hh.symm)
          have hih := ih _ (by rw [hO]; exact hm)
          rw [if_neg (fun hh => hk hh.2)]
          refine ⟨hih.1, hih.2.trans ?_⟩
          rw [hO]
      · have hid : processCertRow m r = m := by
          simp [processCertRow, hts, hc]
        rw [hid]
        simp only [hts]
        rw [if_neg (fun hh => hc hh.1)]
        exact ih m hm

/-- Claim C10 (amended): for every calendar day, the per-day certification
list built by `buildBuckets` is sorted ascending and contains exactly (with
multiplicity) the timestamps of the rows that have a resolvable timestamp and
whose concatenated field values contain `certif` (case-insensitively) and
whose target day — the first parsable date among the detail column's value
followed by the string/number fields in column order, else the log-date
column's value, else the day preceding the row's timestamp (`certTargetDay`)
— is that day.  Rows without a resolvable timestamp contribute nothing. -/
theorem claim_C10 (rows : List CertRow) (d : Int) :
    (mapGet (buildCerts rows) d).Sorted (· ≤ ·) ∧
    (mapGet (buildCerts rows) d).Perm
      (rows.filterMap (fun r =>
        match r.rowTs with
        | some ts => if containsCertif (lineAll r) = true ∧ certTargetDay r ts = d
                     then some ts else none
        | none => none)) := by
  have h := buildCertsGo d rows [] (by simp [mapGet])
  unfold buildCerts
  exact ⟨h.1, by simpa [mapGet] using h.2⟩

/-- Claim C10 counterexample: (i) a row whose fields contain "Certification(s)"
but which has no resolvable timestamp produces no certification entry, against
the claim's "every row ... produces a certification entry"; (ii) for a row
whose detail column reads "certified 2024-03-04" while an earlier field in
column order reads "2024-01-02", the entry is attributed to 2024-03-04 (day
19786) — the detail column's value is scanned first — not to the first
parsable date among the row's fields in column order (2024-01-02, day 19724)
as the claim states. -/
theorem claim_C10_counterexample :
    buildCerts [⟨[⟨"Certification(s)", true⟩], false, "", none, none⟩] = [] ∧
    buildCerts [⟨[⟨"2024-01-02", true⟩, ⟨"certified 2024-03-04", true⟩], true,
      "certified 2024-03-04", none, some 777⟩] = [(19786, [777])] ∧
    parseDateFromString "2024-01-02" = some 19724 ∧ (19786 : Int) ≠ 19724 :=
  ⟨by decide, by decide, by decide, by decide⟩

theorem accumPs_nonneg (ps : List (TLE × TLE)) (s e t : Int) : 0 ≤ accumPs ps s e t := by
  induction ps with
  | nil => simp [accumPs]
  | cons p r ih =>
    simp only [accumPs, List.map_cons, List.sum_cons]
    have : 0 ≤ onLen p s e t := by
      unfold onLen; split <;> simp
    have h2 : 0 ≤ (r.map (fun p => onLen p s e t)).sum := ih
    omega

theorem consecPairs_head_le (tl : List TLE) (hch : tl.Chain' (fun a b => a.ts ≤ b.ts)) :
    ∀ q ∈ consecPairs tl, ∀ x ∈ tl.head?, x.ts ≤ q.1.ts := by
  induction tl with
  | nil => simp [consecPairs]
  | cons a rest ih =>
    cases rest with
    | nil => simp [consecPairs]
    | cons b r =>
      intro q hq x hx
      obtain rfl : x = a := by simpa [eq_comm] using hx
      rcases List.mem_cons.mp hq with rfl | hq' 
      · exact le_refl _
      · have hab : x.ts ≤ b.ts := (List.chain'_cons.mp hch).1
        have := ih (List.chain'_cons.mp hch).2 q hq' b (by simp)
        omega

theorem consecPairs_within (tl : List TLE) (hch : tl.Chain' (fun a b => a.ts ≤ b.ts)) :
    ∀ p ∈ consecPairs tl, p.1.ts ≤ p.2.ts := by
  induction tl with
  | nil => simp [consecPairs]
  | cons a rest ih =>
    cases rest with
    | nil => simp [consecPairs]
    | cons b r =>
      intro p hp
      rcases List.mem_cons.mp hp with rfl | hp'
      · exact (List.chain'_cons.mp hch).1
      · exact ih (List.chain'_cons.mp hch).2 p hp'

theorem consecPairs_pairwise (tl : List TLE) (hch : tl.Chain' (fun a b => a.ts ≤ b.ts)) :
    (consecPairs tl).Pairwise (fun p q => p.2.ts ≤ q.1.ts) := by
  induction tl with
  | nil => simp [consecPairs]
  | cons a rest ih =>
    cases rest with
    | nil => simp [consecPairs]
    | cons b r =>
      refine List.Pairwise.cons ?_ (ih (List.chain'_cons.mp hch).2)
      intro q hq
      exact consecPairs_head_le (b :: r) (List.chain'_cons.mp hch).2 q hq b (by simp)

theorem onLen_nonneg (p : TLE × TLE) (s e t : Int) : 0 ≤ onLen p s e t := by
  unfold onLen; split <;> simp

theorem accumPs_eq_zero (ps : List (TLE × TLE)) (s e t : Int)
    (h : ∀ q ∈ ps, onLen q s e t = 0) : accumPs ps s e t = 0 := by
  induction ps with
  | nil => simp [accumPs]
  | cons q r ihq =>
    simp only [accumPs, List.map_cons, List.sum_cons]
    rw [h q (List.mem_cons_self _ _)]
    have := ihq (fun q' hq' => h q' (List.mem_cons_of_mem _ hq'))
    simpa [accumPs] using this

theorem deadlineGo_spec (s e limitMs : Int) (hse : s ≤ e) :
    ∀ (ps : List (TLE × TLE)), (∀ p ∈ ps, p.1.ts ≤ p.2.ts) →
      ps.Pairwise (fun p q => p.2.ts ≤ q.1.ts) →
      ∀ (acc : Int) (pastAcc : Int → Int),
      (∀ t, pastAcc t ≤ acc) →
      (∀ t c, ps.head? = some c → c.1.ts ≤ t → pastAcc t = acc) →
      acc < limitMs →
      (s ≤ onDutyDeadlineGo s e limitMs ps acc ∧
       onDutyDeadlineGo s e limitMs ps acc ≤ e ∧
       (∀ t, t < onDutyDeadlineGo s e limitMs ps acc →
         pastAcc t + accumPs ps s e t < limitMs) ∧
       (pastAcc (onDutyDeadlineGo s e limitMs ps acc) +
          accumPs ps s e (onDutyDeadlineGo s e limitMs ps acc) ≥ limitMs ∨
        (onDutyDeadlineGo s e limitMs ps acc = e ∧
         ∀ t, pastAcc t + accumPs ps s e t < limitMs))) := by
  intro ps
  induction ps with
  | nil =>
    intro _ _ acc pastAcc hpa1 _ hacc
    refine ⟨hse, le_refl _, ?_, Or.inr ⟨rfl, ?_⟩⟩
    · intro t _
      have h := hpa1 t
      simp only [accumPs, List.map_nil, List.sum_nil]
      omega
    · intro t
      have h := hpa1 t
      simp only [accumPs, List.map_nil, List.sum_nil]
      omega
  | cons p rest ih =>
    obtain ⟨c, n⟩ := p
    intro hwithin hpw acc pastAcc hpa1 hpa2 hacc
    have hcn : c.ts ≤ n.ts := hwithin (c, n) (List.mem_cons_self _ _)
    have hwithin' : ∀ p ∈ rest, p.1.ts ≤ p.2.ts :=
      fun p hp => hwithin p (List.mem_cons_of_mem _ hp)
    have hpwhead : ∀ q ∈ rest, n.ts ≤ q.1.ts := fun q hq => (List.pairwise_cons.mp hpw).1 q hq
    have hpw' : rest.Pairwise (fun p q => p.2.ts ≤ q.1.ts) := (List.pairwise_cons.mp hpw).2
    have haccrec : ∀ t, accumPs ((c, n) :: rest) s e t = onLen (c, n) s e t + accumPs rest s e t := by
      intro t; simp [accumPs]
    by_cases hskip : n.ts ≤ s ∨ c.ts ≥ e
    · -- skipped pair: contributes 0 at every t
      have hz : ∀ t, onLen (c, n) s e t = 0 := by
        intro t
        show (if isOnDLit c.eff then max 0 (min (min n.ts e) t - max c.ts s) else 0) = 0
        split
        · rcases hskip with h | h <;> omega
        · rfl
      have hgo : onDutyDeadlineGo s e limitMs ((c, n) :: rest) acc =
          onDutyDeadlineGo s e limitMs rest acc := by
        show (if n.ts ≤ s ∨ c.ts ≥ e then onDutyDeadlineGo s e limitMs rest acc else _) = _
        rw [if_pos hskip]
      have hpa2' : ∀ t c', rest.head? = some c' → c'.1.ts ≤ t → pastAcc t = acc := by
        intro t c' hh hle
        have hc' : c' ∈ rest := List.mem_of_mem_head? hh
        have := hpwhead c' hc'
        exact hpa2 t (c, n) rfl (by show c.ts ≤ t; omega)
      obtain ⟨g1, g2, g3, g4⟩ := ih hwithin' hpw' acc pastAcc hpa1 hpa2' hacc
      rw [hgo]
      refine ⟨g1, g2, ?_, ?_⟩
      · intro t ht
        rw [haccrec t, hz t]
        have := g3 t ht
        omega
      · rcases g4 with h | ⟨heq, hall⟩
        · left
          rw [haccrec _, hz _]
          omega
        · right
          refine ⟨heq, ?_⟩
          intro t
          rw [haccrec t, hz t]
          have := hall t
          omega
    · -- pair inside the window
      push_neg at hskip
      obtain ⟨hns, hce⟩ := hskip
      by_cases hon : isOnDLit c.eff
      · have hseg : max 0 (min n.ts e - max c.ts s) = min n.ts e - max c.ts s := by omega
        by_cases hcross : acc + max 0 (min n.ts e - max c.ts s) ≥ limitMs
        · -- crossing: the deadline is inside this pair
          have hgo : onDutyDeadlineGo s e limitMs ((c, n) :: rest) acc =
              max c.ts s + max 0 (limitMs - acc) := by
            show (if n.ts ≤ s ∨ c.ts ≥ e then _ else _) = _
            rw [if_neg (by push_neg; exact ⟨hns, hce⟩)]
            simp only
            rw [if_pos hon, if_pos hcross]
          rw [hgo]
          set r := max c.ts s + max 0 (limitMs - acc) with hr
          have hrb : max c.ts s + (limitMs - acc) = r := by
            have : limitMs - acc > 0 := by omega
            omega
          have hrle : r ≤ min n.ts e := by omega
          refine ⟨by omega, by omega, ?_, ?_⟩
          · intro t ht
            rw [haccrec t]
            have honl : onLen (c, n) s e t ≤ max 0 (t - max c.ts s) := by
              show (if isOnDLit c.eff then max 0 (min (min n.ts e) t - max c.ts s) else 0) ≤
                max 0 (t - max c.ts s)
              rw [if_pos hon]
              omega
            have hrest : accumPs rest s e t = 0 := by
              refine accumPs_eq_zero rest s e t ?_
              intro q hq
              have hq1 : n.ts ≤ q.1.ts := hpwhead q hq
              unfold onLen
              split
              · omega
              · rfl
            rw [hrest]
            have := hpa1 t
            omega
          · left
            rw [haccrec r]
            have hpe : pastAcc r = acc := hpa2 r (c, n) rfl (by show c.ts ≤ r; omega)
            have honl : onLen (c, n) s e r = limitMs - acc := by
              show (if isOnDLit c.eff then max 0 (min (min n.ts e) r - max c.ts s) else 0) =
                limitMs - acc
              rw [if_pos hon]
              omega
            have := accumPs_nonneg rest s e r
            omega
        · -- not crossing: recurse with increased accumulator
          have hgo : onDutyDeadlineGo s e limitMs ((c, n) :: rest) acc =
              onDutyDeadlineGo s e limitMs rest (acc + max 0 (min n.ts e - max c.ts s)) := by
            show (if n.ts ≤ s ∨ c.ts ≥ e then _ else _) = _
            rw [if_neg (by push_neg; exact ⟨hns, hce⟩)]
            simp only
            rw [if_pos hon, if_neg hcross]
          set acc' := acc + max 0 (min n.ts e - max c.ts s) with hacc'
          set pastAcc' := fun t => pastAcc t + onLen (c, n) s e t with hpastAcc'
          have hpa1' : ∀ t, pastAcc' t ≤ acc' := by
            intro t
            have h1 := hpa1 t
            have h2 : onLen (c, n) s e t ≤ max 0 (min n.ts e - max c.ts s) := by
              show (if isOnDLit c.eff then max 0 (min (min n.ts e) t - max c.ts s) else 0) ≤
                max 0 (min n.ts e - max c.ts s)
              rw [if_pos hon]
              omega
            simp only [hpastAcc']
            omega
          have hpa2' : ∀ t c', rest.head? = some c' → c'.1.ts ≤ t → pastAcc' t = acc' := by
            intro t c' hh hle
            have hc' : c' ∈ rest := List.mem_of_mem_head? hh
            have hnq := hpwhead c' hc'
            have hp : pastAcc t = acc := hpa2 t (c, n) rfl (by show c.ts ≤ t; omega)
            have ho : onLen (c, n) s e t = max 0 (min n.ts e - max c.ts s) := by
              show (if isOnDLit c.eff then max 0 (min (min n.ts e) t - max c.ts s) else 0) =
                max 0 (min n.ts e - max c.ts s)
              rw [if_pos hon]
              omega
            simp only [hpastAcc', hp, ho, hacc']
          have hacc2 : acc' < limitMs := by omega
          obtain ⟨g1, g2, g3, g4⟩ := ih hwithin' hpw' acc' pastAcc' hpa1' hpa2' hacc2
          rw [hgo]
          refine ⟨g1, g2, ?_, ?_⟩
          · intro t ht
            have := g3 t ht
            simp only [hpastAcc'] at this
            rw [haccrec t]
            omega
          · rcases g4 with h | ⟨heq, hall⟩
            · left
              simp only [hpastAcc'] at h
              rw [haccrec _]
              omega
            · right
              refine ⟨heq, ?_⟩
              intro t
              have := hall t
              simp only [hpastAcc'] at this
              rw [haccrec t]
              omega
      · -- not ON/D: contributes 0 at every t
        have hz : ∀ t, onLen (c, n) s e t = 0 := by
          intro t
          show (if isOnDLit c.eff then max 0 (min (min n.ts e) t - max c.ts s) else 0) = 0
          rw [if_neg hon]
        have hgo : onDutyDeadlineGo s e limitMs ((c, n) :: rest) acc =
            onDutyDeadlineGo s e limitMs rest acc := by
          show (if n.ts ≤ s ∨ c.ts ≥ e then _ else _) = _
          rw [if_neg (by push_neg; exact ⟨hns, hce⟩)]
          simp only
          rw [if_neg hon]
        have hpa2' : ∀ t c', rest.head? = some c' → c'.1.ts ≤ t → pastAcc t = acc := by
          intro t c' hh hle
          have hc' : c' ∈ rest := List.mem_of_mem_head? hh
          have := hpwhead c' hc'
          exact hpa2 t (c, n) rfl (by show c.ts ≤ t; omega)
        obtain ⟨g1, g2, g3, g4⟩ := ih hwithin' hpw' acc pastAcc hpa1 hpa2' hacc
        rw [hgo]
        refine ⟨g1, g2, ?_, ?_⟩
        · intro t ht
          rw [haccrec t, hz t]
          have := g3 t ht
          omega
        · rcases g4 with h | ⟨heq, hall⟩
          · left
            rw [haccrec _, hz _]
            omega
          · right
            refine ⟨heq, ?_⟩
            intro t
            rw [haccrec t, hz t]
            have := hall t
            omega

theorem offSegs_sorted (tl : List TLE) (s e : Int)
    (hch : tl.Chain' (fun a b => a.ts ≤ b.ts)) :
    (offSegsIn tl s e).Pairwise (fun a b => a.start < b.start) := by
  unfold offSegsIn
  rw [List.pairwise_filterMap]
  refine (consecPairs_pairwise tl hch).imp ?_
  intro p q hpq c hc d hd
  simp only [Option.mem_def] at hc hd
  have hc' : max p.1.ts s < min p.2.ts e ∧ c.start = max p.1.ts s := by
    repeat' split at hc
    all_goals first
      | exact Option.noConfusion hc
      | (injection hc with h2; subst h2; refine ⟨by omega, rfl⟩)
  have hd' : d.start = max q.1.ts s := by
    repeat' split at hd
    all_goals first
      | exact Option.noConfusion hd
      | (injection hd with h2; subst h2; rfl)
  rw [hc'.2, hd']
  have h1 := hc'.1
  have h2 : min p.2.ts e ≤ p.2.ts := min_le_left _ _
  have h3 : q.1.ts ≤ max q.1.ts s := le_max_left _ _
  omega

theorem mem_enumFrom_facts {α : Type} :
    ∀ (l : List α) (n : Nat) (u : Nat × α), u ∈ l.enumFrom n → n ≤ u.1 ∧ u.2 ∈ l := by
  intro l
  induction l with
  | nil => intro n u hu; simp [List.enumFrom] at hu
  | cons a r ih =>
    intro n u hu
    rw [List.enumFrom_cons] at hu
    rcases List.mem_cons.mp hu with rfl | hu'
    · exact ⟨le_refl _, List.mem_cons_self _ _⟩
    · obtain ⟨h1, h2⟩ := ih (n + 1) u hu'
      exact ⟨by omega, List.mem_cons_of_mem _ h2⟩

theorem enumFrom_pairwise {α : Type} (R : α → α → Prop) :
    ∀ (l : List α) (n : Nat), l.Pairwise R →
      (l.enumFrom n).Pairwise (fun a b => a.1 < b.1 ∧ R a.2 b.2) := by
  intro l
  induction l with
  | nil => intro n _; simp [List.enumFrom]
  | cons a r ih =>
    intro n h
    rw [List.enumFrom_cons]
    refine List.pairwise_cons.mpr ⟨?_, ih (n + 1) (List.pairwise_cons.mp h).2⟩
    intro u hu
    obtain ⟨h1, h2⟩ := mem_enumFrom_facts r (n + 1) u hu
    exact ⟨by omega, (List.pairwise_cons.mp h).1 u.2 h2⟩

theorem mem_enumFrom_of_mem {α : Type} :
    ∀ (l : List α) (n : Nat) (b : α), b ∈ l → ∃ u ∈ l.enumFrom n, u.2 = b := by
  intro l
  induction l with
  | nil => intro n b hb; simp at hb
  | cons a r ih =>
    intro n b hb
    rw [List.enumFrom_cons]
    rcases List.mem_cons.mp hb with rfl | hb'
    · exact ⟨(n, b), List.mem_cons_self _ _, rfl⟩
    · obtain ⟨u, hu, he⟩ := ih (n + 1) b hb'
      exact ⟨u, List.mem_cons_of_mem _ hu, he⟩

theorem find_some_rel {α : Type} (R : α → α → Prop) (p : α → Bool) :
    ∀ (xs : List α), xs.Pairwise R → ∀ x, xs.find? p = some x →
      ∀ y ∈ xs, p y = true → x = y ∨ R x y := by
  intro xs
  induction xs with
  | nil => intro _ x hx; simp at hx
  | cons a l ih =>
    intro h x hx y hy hpy
    by_cases hpa : p a = true
    · rw [List.find?_cons_of_pos _ hpa] at hx
      injection hx with hx
      subst hx
      rcases List.mem_cons.mp hy with rfl | hy'
      · exact Or.inl rfl
      · exact Or.inr ((List.pairwise_cons.mp h).1 y hy')
    · rw [List.find?_cons_of_neg _ (by simpa using hpa)] at hx
      rcases List.mem_cons.mp hy with rfl | hy'
      · exact absurd hpy hpa
      · exact ih (List.pairwise_cons.mp h).2 x hx y hy' hpy

theorem enum_eq_enumFrom {α : Type} (l : List α) : l.enum = l.enumFrom 0 := rfl

theorem enum_idx_lt_of_start_lt (segs : List OffSeg)
    (hs : segs.Pairwise (fun a b => a.start < b.start)) :
    ∀ u ∈ segs.enum, ∀ v ∈ segs.enum, u.2.start < v.2.start → u.1 < v.1 := by
  have hpw : (segs.enum).Pairwise
      (fun a b : Nat × OffSeg => a.1 < b.1 ∧ a.2.start < b.2.start) := by
    rw [enum_eq_enumFrom]
    exact enumFrom_pairwise _ segs 0 hs
  have hpw0 : (segs.enum).Pairwise
      (fun a b : Nat × OffSeg =>
        (a.1 < b.1 ∧ a.2.start < b.2.start) ∨ (b.1 < a.1 ∧ b.2.start < a.2.start)) :=
    hpw.imp Or.inl
  intro u hu v hv hlt
  have hne : u ≠ v := fun h => by rw [h] at hlt; omega
  have := hpw0.forall (fun a b h => by tauto) hu hv hne
  rcases this with ⟨h1, _⟩ | ⟨_, h2⟩
  · exact h1
  · omega

/-- Claim C2 counterexample: on a shift `[0, 10h)` whose work carries the
`"DRIVING"` spelling (a reachable effective status: the extraction regex maps
`Duty Status - Driving` to `"DRIVING" ∈ D_SET`), with one 30-minute OFF break
starting at the 5-hour mark, the set-based accumulated ON/DRIVING time — the
claim's reading, the same classes that feed payable — reaches the 5-hour
limit at instant 18000000, yet the code's `onDutyDeadline` returns the shift
end 36000000 (its accumulator tests `cur.eff === "ON" || cur.eff === "D"`
literally and never accrues), and the verdict is compliant although the only
qualifying OFF segment starts at 18000000, not strictly before it — under the
claim's deadline the verdict would be a violation. -/
theorem claim_C2_counterexample :
    onDutyDeadline tlC2cex 0 36000000 5 = 36000000 ∧
    onDutyAccumSpec tlC2cex 0 36000000 18000000 = 5 * 3600000 ∧
    (18000000 : Int) < 36000000 ∧
    offSegsIn tlC2cex 0 36000000 = [⟨18000000, 19800000, 1800000⟩] ∧
    mealEval1 tlC2cex 0 36000000 570 = Meal1.ok (18000000, 30) none :=
  ⟨by decide, by decide, by decide, by decide, by decide⟩

/-- Claim C2 (amended): for a finalized shift, payable under 6 hours yields
the compliant no-break verdict; each break deadline is the instant at which
the literally-spelled `"ON"`/`"D"` time accumulated within the shift window
first reaches the limit (`e` if it never does) — not the set-based ON/DRIVING
time that feeds payable: alternate recognized spellings such as `"DRIVING"`
accrue payable but not deadline time (see the counterexample); and the
verdict is compliant iff a qualifying OFF segment starts before the 5-hour
deadline and, when payable exceeds 12 hours, a later-starting qualifying OFF
segment starts before the 10-hour deadline. -/
theorem claim_C2 (tl : List TLE) (s e payableMin : Int)
    (hch : tl.Chain' (fun a b => a.ts ≤ b.ts)) (hse : s ≤ e) :
    (payableMin * 60000 < 6 * 3600000 → mealEval1 tl s e payableMin = Meal1.noBreakNeeded) ∧
    (∀ L : Int, 0 < L →
      s ≤ onDutyDeadline tl s e L ∧ onDutyDeadline tl s e L ≤ e ∧
      (∀ t, t < onDutyDeadline tl s e L → onDutyAccum tl s e t < L * 3600000) ∧
      (L * 3600000 ≤ onDutyAccum tl s e (onDutyDeadline tl s e L) ∨
        (onDutyDeadline tl s e L = e ∧ ∀ t, onDutyAccum tl s e t < L * 3600000))) ∧
    ((mealEval1 tl s e payableMin).isCompliant ↔
      (payableMin * 60000 < 6 * 3600000 ∨
        ∃ b1 ∈ offSegsIn tl s e, b1.start < onDutyDeadline tl s e 5 ∧ MEAL_REQ_MS ≤ b1.ms ∧
          (12 * 3600000 < payableMin * 60000 →
            ∃ b2 ∈ offSegsIn tl s e, b1.start < b2.start ∧
              b2.start < onDutyDeadline tl s e 10 ∧ MEAL_REQ_MS ≤ b2.ms))) := by
  have hsorted := offSegs_sorted tl s e hch
  refine ⟨?_, ?_, ?_⟩
  · intro h6
    simp only [mealEval1]
    rw [if_pos h6]
  · intro L hL
    obtain ⟨g1, g2, g3, g4⟩ := deadlineGo_spec s e (L * 3600000) hse (consecPairs tl)
      (consecPairs_within tl hch) (consecPairs_pairwise tl hch) 0 (fun _ => 0)
      (fun t => le_refl 0) (fun t c _ _ => rfl) (by omega)
    refine ⟨g1, g2, ?_, ?_⟩
    · intro t ht
      have := g3 t ht
      simpa [onDutyAccum, accumPs] using this
    · rcases g4 with h | ⟨heq, hall⟩
      · left
        simpa [onDutyAccum, accumPs] using h
      · right
        refine ⟨heq, fun t => ?_⟩
        have := hall t
        simpa [onDutyAccum, accumPs] using this
  · by_cases h6 : payableMin * 60000 < 6 * 3600000
    · have h1 : mealEval1 tl s e payableMin = Meal1.noBreakNeeded := by
        simp only [mealEval1]
        rw [if_pos h6]
      rw [h1]
      simp only [Meal1.isCompliant, true_iff]
      exact Or.inl h6
    · have h6g : payableMin * 60000 ≥ 6 * 3600000 := by omega
      simp only [mealEval1, if_neg h6, if_pos h6g]
      by_cases hneed : payableMin * 60000 > 12 * 3600000
      · simp only [if_pos hneed]
        cases hfb : (offSegsIn tl s e).enum.find?
            (fun p => decide (p.2.start < onDutyDeadline tl s e 5 ∧ p.2.ms ≥ MEAL_REQ_MS)) with
        | none =>
          simp only [Meal1.isCompliant]
          constructor
          · intro hfalse
            exact absurd hfalse not_false
          · rintro (h | ⟨b1, hb1m, hb1d, hb1ms, _⟩)
            · exact absurd h h6
            · have hex : ∃ u ∈ (offSegsIn tl s e).enum, u.2 = b1 := by
                rw [enum_eq_enumFrom]
                exact mem_enumFrom_of_mem _ 0 b1 hb1m
              obtain ⟨u, hum, hue⟩ := hex
              have := List.find?_eq_none.mp hfb u hum
              apply this
              rw [decide_eq_true_eq]
              rw [hue]
              exact ⟨hb1d, hb1ms⟩
        | some f =>
          have hfm : f ∈ (offSegsIn tl s e).enum := List.mem_of_find?_eq_some hfb
          have hfseg : f.2 ∈ offSegsIn tl s e := by
            have := mem_enumFrom_facts (offSegsIn tl s e) 0 f (by rwa [← enum_eq_enumFrom])
            exact this.2
          have hfp := List.find?_some hfb
          rw [decide_eq_true_eq] at hfp
          obtain ⟨hfd5, hfms⟩ := hfp
          cases hsb : (offSegsIn tl s e).enum.find?
              (fun p => decide (p.1 ≠ f.1 ∧ p.2.start < onDutyDeadline tl s e 10 ∧
                p.2.ms ≥ MEAL_REQ_MS ∧ p.2.start > f.2.start)) with
          | none =>
            simp only []
            rw [if_pos ⟨hneed, trivial⟩]
            simp only [Meal1.isCompliant]
            constructor
            · intro hfalse
              exact absurd hfalse not_false
            · rintro (h | ⟨b1, hb1m, hb1d, hb1ms, himp⟩)
              · exact absurd h h6
              · obtain ⟨b2, hb2m, hb21, hb2d, hb2ms⟩ := himp hneed
                have hexu : ∃ u ∈ (offSegsIn tl s e).enum, u.2 = b1 := by
                  rw [enum_eq_enumFrom]
                  exact mem_enumFrom_of_mem _ 0 b1 hb1m
                obtain ⟨u, hum, hue⟩ := hexu
                have hexv : ∃ v ∈ (offSegsIn tl s e).enum, v.2 = b2 := by
                  rw [enum_eq_enumFrom]
                  exact mem_enumFrom_of_mem _ 0 b2 hb2m
                obtain ⟨v, hvm, hve⟩ := hexv
                have hfu : f.2.start ≤ b1.start := by
                  have hpw : ((offSegsIn tl s e).enum).Pairwise
                      (fun a b : Nat × OffSeg => a.1 < b.1 ∧ a.2.start < b.2.start) := by
                    rw [enum_eq_enumFrom]
                    exact enumFrom_pairwise _ _ 0 hsorted
                  have := find_some_rel _ _ _ hpw f hfb u hum
                    (by rw [decide_eq_true_eq, hue]; exact ⟨hb1d, hb1ms⟩)
                  rcases this with rfl | ⟨_, hlt⟩
                  · rw [hue]
                  · rw [← hue]; exact le_of_lt hlt
                have hfv : f.2.start < v.2.start := by
                  rw [hve]; omega
                have hidx : f.1 < v.1 :=
                  enum_idx_lt_of_start_lt _ hsorted f hfm v hvm hfv
                have := List.find?_eq_none.mp hsb v hvm
                apply this
                rw [decide_eq_true_eq]
                refine ⟨fun hh => by omega, ?_, ?_, hfv⟩
                · rw [hve]; exact hb2d
                · rw [hve]; exact hb2ms
          | some g =>
            simp only []
            rw [if_neg (fun hh => Option.noConfusion hh.2)]
            simp only [Meal1.isCompliant]
            constructor
            · intro _
              right
              have hgp := List.find?_some hsb
              rw [decide_eq_true_eq] at hgp
              obtain ⟨hgne, hgd10, hgms, hggt⟩ := hgp
              have hgseg : g.2 ∈ offSegsIn tl s e := by
                have := mem_enumFrom_facts (offSegsIn tl s e) 0 g
                  (by rw [← enum_eq_enumFrom]; exact List.mem_of_find?_eq_some hsb)
                exact this.2
              exact ⟨f.2, hfseg, hfd5, hfms, fun _ => ⟨g.2, hgseg, hggt, hgd10, hgms⟩⟩
            · intro _
              trivial
      · simp only [if_neg hneed]
        cases hfb : (offSegsIn tl s e).enum.find?
            (fun p => decide (p.2.start < onDutyDeadline tl s e 5 ∧ p.2.ms ≥ MEAL_REQ_MS)) with
        | none =>
          simp only [Meal1.isCompliant]
          constructor
          · intro hfalse
            exact absurd hfalse not_false
          · rintro (h | ⟨b1, hb1m, hb1d, hb1ms, _⟩)
            · exact absurd h h6
            · have hex : ∃ u ∈ (offSegsIn tl s e).enum, u.2 = b1 := by
                rw [enum_eq_enumFrom]
                exact mem_enumFrom_of_mem _ 0 b1 hb1m
              obtain ⟨u, hum, hue⟩ := hex
              have := List.find?_eq_none.mp hfb u hum
              apply this
              rw [decide_eq_true_eq]
              rw [hue]
              exact ⟨hb1d, hb1ms⟩
        | some f =>
          simp only []
          rw [if_neg (fun hh => hneed hh.1)]
          simp only [Meal1.isCompliant]
          have hfseg : f.2 ∈ offSegsIn tl s e := by
            have := mem_enumFrom_facts (offSegsIn tl s e) 0 f
              (by rw [← enum_eq_enumFrom]; exact List.mem_of_find?_eq_some hfb)
            exact this.2
          have hfp := List.find?_some hfb
          rw [decide_eq_true_eq] at hfp
          constructor
          · intro _
            exact Or.inr ⟨f.2, hfseg, hfp.1, hfp.2, fun h12 => absurd h12 hneed⟩
          · intro _
            trivial

theorem claim_C2_witness :
    List.Chain' (fun a b => a.ts ≤ b.ts)
      [(⟨0, some Eff.on, false⟩ : TLE), ⟨10800000, some Eff.off, false⟩,
       ⟨12600000, some Eff.drv, false⟩, ⟨43200000, some Eff.off, false⟩] ∧
    (0 : Int) ≤ 43200000 ∧
    (onDutyDeadline
      [(⟨0, some Eff.on, false⟩ : TLE), ⟨10800000, some Eff.off, false⟩,
       ⟨12600000, some Eff.drv, false⟩, ⟨43200000, some Eff.off, false⟩] 0 43200000 5 ≤ 43200000) :=
  ⟨by norm_num [List.chain'_cons], by decide,
    ((claim_C2
      [(⟨0, some Eff.on, false⟩ : TLE), ⟨10800000, some Eff.off, false⟩,
       ⟨12600000, some Eff.drv, false⟩, ⟨43200000, some Eff.off, false⟩] 0 43200000 400
      (by norm_num [List.chain'_cons]) (by decide)).2.1 5 (by decide)).2.1⟩

theorem foldl_add_sum {α : Type} (f : α → Int) :
    ∀ (ps : List α) (acc : Int), ps.foldl (fun a p => a + f p) acc = acc + (ps.map f).sum := by
  intro ps
  induction ps with
  | nil => intro acc; simp
  | cons p r ih =>
    intro acc
    simp only [List.foldl_cons, List.map_cons, List.sum_cons]
    rw [ih]
    ring

theorem jsRoundMin_nonneg (ms : Int) (h : 0 ≤ ms) : 0 ≤ jsRoundMin ms := by
  unfold jsRoundMin
  exact Int.fdiv_nonneg (by omega) (by omega)

theorem paySumWithin_eq_sum (tl : List TLE) (a b : Int) :
    paySumWithin tl a b =
      (((consecPairs tl).filter
          (fun p => decide (a ≤ p.1.ts ∧ p.2.ts ≤ b ∧ isOnOrD p.1.eff))).map
        (fun p => jsRoundMin (max 0 (p.2.ts - p.1.ts)))).sum := by
  unfold paySumWithin
  rw [foldl_add_sum]
  ring

theorem consecPairs_within_lt (tl : List TLE) (hch : tl.Chain' (fun a b => a.ts < b.ts)) :
    ∀ p ∈ consecPairs tl, p.1.ts < p.2.ts := by
  induction tl with
  | nil => simp [consecPairs]
  | cons a rest ih =>
    cases rest with
    | nil => simp [consecPairs]
    | cons b r =>
      intro p hp
      rcases List.mem_cons.mp hp with rfl | hp'
      · exact (List.chain'_cons.mp hch).1
      · exact ih (List.chain'_cons.mp hch).2 p hp'

theorem consecPairs_nodup (tl : List TLE) (hch : tl.Chain' (fun a b => a.ts < b.ts)) :
    (consecPairs tl).Nodup := by
  have hle : tl.Chain' (fun a b => a.ts ≤ b.ts) := hch.imp (fun _ _ h => le_of_lt h)
  have hpw := consecPairs_pairwise tl hle
  refine hpw.imp_of_mem ?_
  intro p q hp _ hpq
  have h1 := consecPairs_within_lt tl hch p hp
  intro he
  rw [he] at h1 hpq
  omega

theorem consecPairs_mem_cons (x : TLE) (l : List TLE) (p : TLE × TLE)
    (hp : p ∈ consecPairs l) : p ∈ consecPairs (x :: l) := by
  cases l with
  | nil => simp [consecPairs] at hp
  | cons y r => exact List.mem_cons_of_mem _ hp

theorem consecPairs_mem_of_append (pre r : List TLE) (a b : TLE) :
    (a, b) ∈ consecPairs (pre ++ a :: b :: r) := by
  induction pre with
  | nil => exact List.mem_cons_self _ _
  | cons x pre' ih => exact consecPairs_mem_cons x _ _ ih

theorem pair_second_between (tl : List TLE) (hch : tl.Chain' (fun a b => a.ts < b.ts)) :
    ∀ a b, (a, b) ∈ consecPairs tl → ∀ p ∈ consecPairs tl,
      a.ts < p.2.ts → p.2.ts ≤ b.ts → p = (a, b) := by
  have hle : tl.Chain' (fun a b => a.ts ≤ b.ts) := hch.imp (fun _ _ h => le_of_lt h)
  induction tl with
  | nil => simp [consecPairs]
  | cons x rest ih =>
    cases rest with
    | nil => simp [consecPairs]
    | cons y r =>
      intro a b hab p hp h1 h2
      rcases List.mem_cons.mp hab with hab0 | hab'
      · rcases List.mem_cons.mp hp with rfl | hp'
        · injection hab0 with e1 e2
          rw [e1, e2]
        · exfalso
          injection hab0 with e1 e2
          have hh := consecPairs_head_le (y :: r)
            ((List.chain'_cons.mp hle).2) p hp' y (by simp)
          have hw := consecPairs_within_lt (y :: r)
            ((List.chain'_cons.mp hch).2) p hp'
          rw [← e2] at hh
          omega
      · rcases List.mem_cons.mp hp with rfl | hp'
        · exfalso
          have hh := consecPairs_head_le (y :: r)
            ((List.chain'_cons.mp hle).2) (a, b) hab' y (by simp)
          simp only at h1 h2 hh
          omega
        · exact ih ((List.chain'_cons.mp hch).2) ((List.chain'_cons.mp hle).2)
            a b hab' p hp' h1 h2

theorem sum_filter_update (ps : List (TLE × TLE)) (q1 q2 : TLE × TLE → Bool)
    (f : TLE × TLE → Int) (a : TLE × TLE)
    (hnd : ps.Nodup) (ha : a ∈ ps) (hagree : ∀ p ∈ ps, p ≠ a → q1 p = q2 p)
    (hq1 : q1 a = false) :
    ((ps.filter q2).map f).sum =
      ((ps.filter q1).map f).sum + (if q2 a then f a else 0) := by
  obtain ⟨s, t, rfl⟩ := List.append_of_mem ha
  have hnotin : a ∉ s ∧ a ∉ t := by
    rw [List.nodup_middle, List.nodup_cons] at hnd
    have := hnd.1
    simp only [List.mem_append] at this
    tauto
  have hs : s.filter q1 = s.filter q2 :=
    List.filter_congr (fun p hp => hagree p (by simp [hp]) (fun he => hnotin.1 (he ▸ hp)))
  have ht : t.filter q1 = t.filter q2 :=
    List.filter_congr (fun p hp => hagree p (by simp [hp]) (fun he => hnotin.2 (he ▸ hp)))
  rw [List.filter_append, List.filter_append, List.filter_cons, List.filter_cons, hq1]
  simp only [Bool.false_eq_true, if_false]
  by_cases hq2 : q2 a = true
  · rw [if_pos hq2, if_pos hq2]
    simp only [List.map_append, List.sum_append, List.map_cons, List.sum_cons, ← hs, ← ht]
    ring
  · rw [if_neg hq2, if_neg (by simpa using hq2)]
    simp only [List.map_append, List.sum_append, ← hs, ← ht]
    ring

theorem paySumWithin_self (tl : List TLE) (hch : tl.Chain' (fun a b => a.ts < b.ts))
    (t : Int) : paySumWithin tl t t = 0 := by
  rw [paySumWithin_eq_sum]
  have : (consecPairs tl).filter
      (fun p => decide (t ≤ p.1.ts ∧ p.2.ts ≤ t ∧ isOnOrD p.1.eff)) = [] := by
    rw [List.filter_eq_nil_iff]
    intro p hp
    have := consecPairs_within_lt tl hch p hp
    simp only [decide_eq_true_eq, not_and]
    intro h1 h2
    omega
  rw [this]
  simp

theorem paySum_pair_step (tl : List TLE) (hch : tl.Chain' (fun a b => a.ts < b.ts))
    (a b : TLE) (hab : (a, b) ∈ consecPairs tl) (s0 : Int) (hs0 : s0 ≤ a.ts) :
    paySumWithin tl s0 b.ts = paySumWithin tl s0 a.ts +
      (if isOnOrD a.eff then jsRoundMin (max 0 (b.ts - a.ts)) else 0) := by
  have hlt : a.ts < b.ts := consecPairs_within_lt tl hch (a, b) hab
  rw [paySumWithin_eq_sum, paySumWithin_eq_sum]
  rw [sum_filter_update _
    (fun p => decide (s0 ≤ p.1.ts ∧ p.2.ts ≤ a.ts ∧ isOnOrD p.1.eff))
    (fun p => decide (s0 ≤ p.1.ts ∧ p.2.ts ≤ b.ts ∧ isOnOrD p.1.eff))
    (fun p => jsRoundMin (max 0 (p.2.ts - p.1.ts))) (a, b)
    (consecPairs_nodup tl hch) hab ?_ ?_]
  · by_cases hon : isOnOrD a.eff
    · rw [if_pos (by simp only [decide_eq_true_eq]; exact ⟨hs0, le_refl _, hon⟩),
        if_pos hon]
    · rw [if_neg ?_, if_neg hon]
      simp only [decide_eq_true_eq, not_and]
      intro _ _
      exact hon
  · intro p hp hne
    have hiff : (s0 ≤ p.1.ts ∧ p.2.ts ≤ a.ts ∧ isOnOrD p.1.eff) ↔
        (s0 ≤ p.1.ts ∧ p.2.ts ≤ b.ts ∧ isOnOrD p.1.eff) := by
      constructor
      · rintro ⟨x1, x2, x3⟩
        exact ⟨x1, by omega, x3⟩
      · rintro ⟨x1, x2, x3⟩
        refine ⟨x1, ?_, x3⟩
        by_contra hgt
        exact hne (pair_second_between tl hch a b hab p hp (by omega) x2)
    exact decide_eq_decide.mpr hiff
  · simp only [decide_eq_true_eq]
    rw [decide_eq_false_iff_not]
    simp only [not_and]
    intro _ h2
    omega

theorem offSbLit_not_onOrD (e : Option Eff) (h : isOffSbLit e) : ¬ isOnOrD e := by
  rcases h with h | h <;> rw [h] <;> decide

theorem not_sb_of_not_offSbLit (e : Option Eff) (h : ¬ isOffSbLit e) : ¬ e = some Eff.sb :=
  fun h2 => h (Or.inr h2)

theorem not_off_of_not_offSbLit (e : Option Eff) (h : ¬ isOffSbLit e) : ¬ e = some Eff.off :=
  fun h2 => h (Or.inl h2)

theorem finalize1_fields (tl : List TLE) (st : Eng1) (stop : Int) (note : Option CloseNote)
    (extra : Int) :
    (finalize1 tl st stop note extra).payableMin = st.payableMin ∧
    (finalize1 tl st stop note extra).sleeperMin = st.sleeperMin ∧
    (finalize1 tl st stop note extra).layoverMin = st.layoverMin ∧
    (finalize1 tl st stop note extra).shiftActive = st.shiftActive ∧
    (finalize1 tl st stop note extra).shiftStart = st.shiftStart ∧
    (finalize1 tl st stop note extra).inOff = st.inOff ∧
    (finalize1 tl st stop note extra).offStart = st.offStart := by
  unfold finalize1
  cases h : st.shiftStart <;> simp [h]

theorem finalize1_payable (tl : List TLE) (st : Eng1) (stop : Int) (note : Option CloseNote)
    (extra : Int) : (finalize1 tl st stop note extra).payableMin = st.payableMin :=
  (finalize1_fields tl st stop note extra).1

theorem finalize1_sleeper (tl : List TLE) (st : Eng1) (stop : Int) (note : Option CloseNote)
    (extra : Int) : (finalize1 tl st stop note extra).sleeperMin = st.sleeperMin :=
  (finalize1_fields tl st stop note extra).2.1

theorem finalize1_layover (tl : List TLE) (st : Eng1) (stop : Int) (note : Option CloseNote)
    (extra : Int) : (finalize1 tl st stop note extra).layoverMin = st.layoverMin :=
  (finalize1_fields tl st stop note extra).2.2.1

theorem finalize1_inOff (tl : List TLE) (st : Eng1) (stop : Int) (note : Option CloseNote)
    (extra : Int) : (finalize1 tl st stop note extra).inOff = st.inOff :=
  (finalize1_fields tl st stop note extra).2.2.2.2.2.1

theorem finalize1_offStart (tl : List TLE) (st : Eng1) (stop : Int) (note : Option CloseNote)
    (extra : Int) : (finalize1 tl st stop note extra).offStart = st.offStart :=
  (finalize1_fields tl st stop note extra).2.2.2.2.2.2

theorem finalize1_rows_ok (tl : List TLE) (st : Eng1) (stop : Int) (note : Option CloseNote)
    (extra : Int) (hex : 0 ≤ extra) (s0 : Int) (hss : st.shiftStart = some s0)
    (hnn : 0 ≤ st.payableMin ∧ 0 ≤ st.sleeperMin ∧ 0 ≤ st.layoverMin)
    (hpay : st.payableMin = paySumWithin tl s0 stop)
    (hold : ∀ r ∈ st.rows, rowOk tl r) :
    ∀ r ∈ (finalize1 tl st stop note extra).rows, rowOk tl r := by
  unfold finalize1
  rw [hss]
  simp only
  intro r hr
  rcases List.mem_append.mp hr with hr | hr
  · exact hold r hr
  · rw [List.mem_singleton] at hr
    subst hr
    refine ⟨by simpa using hnn.1, by simpa using hnn.2.1, ?_, ?_⟩
    · simp only
      have := hnn.2.2
      omega
    · simpa using hpay

theorem step1_eq_block_idle (tl : List TLE) (st : Eng1) (a : TLE) (nx : Option TLE)
    (hQ : isOffSbLit a.eff) (hio : st.inOff = true) (hsa : st.shiftActive = false) :
    step1 tl st a nx = { st with curOn := 0 } := by
  have hP : ¬ isOnOrD a.eff := offSbLit_not_onOrD a.eff hQ
  cases nx with
  | none => simp [step1, hP, hQ, hio, hsa]
  | some b => simp [step1, hP, hQ, hio, hsa]; cases h : st.offStart <;> simp [h, hsa]

theorem step1_eq_close10 (tl : List TLE) (st : Eng1) (a b : TLE) (os : Int)
    (hQ : isOffSbLit a.eff) (hio : st.inOff = true) (hsa : st.shiftActive = true)
    (hos : st.offStart = some os) (h10 : b.ts - os ≥ TEN_HOURS_MS) :
    step1 tl st a (some b) =
      { finalize1 tl { st with curOn := 0 } os none
          (if st.offKind = some true ∧ b.ts - os ≥ MIN_LAYOVER_MS ∧ ¬ offNearVal st = true
           then jsRoundMin (b.ts - os) else 0) with shiftActive := false } := by
  have hP : ¬ isOnOrD a.eff := offSbLit_not_onOrD a.eff hQ
  simp [step1, hP, hQ, hio, hsa, hos, h10, offNearVal]

theorem step1_eq_close930 (tl : List TLE) (st : Eng1) (a b : TLE) (os : Int)
    (hQ : isOffSbLit a.eff) (hio : st.inOff = true) (hsa : st.shiftActive = true)
    (hos : st.offStart = some os) (h10 : ¬ b.ts - os ≥ TEN_HOURS_MS)
    (h930 : b.ts - os ≥ START_BREAK_MIN_MS) :
    step1 tl st a (some b) =
      { finalize1 tl { st with curOn := 0 } os
          (some (.nearReset (TEN_HOURS_MS - (b.ts - os))))
          (if st.offKind = some true ∧ b.ts - os ≥ MIN_LAYOVER_MS ∧ ¬ offNearVal st = true
           then jsRoundMin (b.ts - os) else 0) with shiftActive := false } := by
  have hP : ¬ isOnOrD a.eff := offSbLit_not_onOrD a.eff hQ
  simp [step1, hP, hQ, hio, hsa, hos, h10, h930, offNearVal]

theorem step1_eq_block_cont (tl : List TLE) (st : Eng1) (a b : TLE) (os : Int)
    (hQ : isOffSbLit a.eff) (hio : st.inOff = true) (hsa : st.shiftActive = true)
    (hos : st.offStart = some os) (h930 : ¬ b.ts - os ≥ START_BREAK_MIN_MS) :
    step1 tl st a (some b) =
      { st with
        curOn := 0
        sleeperMin := st.sleeperMin +
          (if a.eff = some Eff.sb then jsRoundMin (max 0 (b.ts - a.ts)) else 0)
        layoverMin := st.layoverMin +
          (if a.eff = some Eff.off ∧ a.near = false ∧ max 0 (b.ts - a.ts) ≥ MIN_LAYOVER_MS
           then jsRoundMin (max 0 (b.ts - a.ts)) else 0) } := by
  have hP : ¬ isOnOrD a.eff := offSbLit_not_onOrD a.eff hQ
  have h10 : ¬ b.ts - os ≥ TEN_HOURS_MS := by
    unfold TEN_HOURS_MS
    unfold START_BREAK_MIN_MS at h930
    omega
  by_cases hsb : a.eff = some Eff.sb
  · have hoff : ¬ a.eff = some Eff.off := by rw [hsb]; intro h; injection h with h; cases h
    simp [step1, isOnOrD, isOffSbLit, hio, hsa, hos, h10, h930, hsb, hoff]
  · by_cases hlay : a.eff = some Eff.off ∧ a.near = false ∧ max 0 (b.ts - a.ts) ≥ MIN_LAYOVER_MS
    · simp [step1, hP, hQ, hio, hsa, hos, h10, h930, hsb, hlay, isOnOrD, isOffSbLit, hlay.1]
    · simp [step1, hP, hQ, hio, hsa, hos, h10, h930, hsb]
      split <;> rename_i hc <;> simp [hc]

theorem step1_eq_block_nostart (tl : List TLE) (st : Eng1) (a b : TLE)
    (hQ : isOffSbLit a.eff) (hio : st.inOff = true) (hosn : st.offStart = none)
    (hsa : st.shiftActive = true) :
    step1 tl st a (some b) =
      { st with
        curOn := 0
        sleeperMin := st.sleeperMin +
          (if a.eff = some Eff.sb then jsRoundMin (max 0 (b.ts - a.ts)) else 0)
        layoverMin := st.layoverMin +
          (if a.eff = some Eff.off ∧ a.near = false ∧ max 0 (b.ts - a.ts) ≥ MIN_LAYOVER_MS
           then jsRoundMin (max 0 (b.ts - a.ts)) else 0) } := by
  have hP : ¬ isOnOrD a.eff := offSbLit_not_onOrD a.eff hQ
  by_cases hsb : a.eff = some Eff.sb
  · have hoff : ¬ a.eff = some Eff.off := by rw [hsb]; intro h; injection h with h; cases h
    simp [step1, isOnOrD, isOffSbLit, hio, hsa, hosn, hsb, hoff]
  · simp [step1, hP, hQ, hio, hsa, hosn, hsb]
    split <;> rename_i hc <;> simp [hc]

theorem step1_eq_enter_idle (tl : List TLE) (st : Eng1) (a b : TLE)
    (hQ : isOffSbLit a.eff) (hio : st.inOff = false) (hsa : st.shiftActive = false) :
    step1 tl st a (some b) =
      { st with
        curOn := 0
        inOff := true
        offStart := some a.ts
        offNearO := some a.near
        offKind := some (decide (a.eff = some Eff.off)) } := by
  have hP : ¬ isOnOrD a.eff := offSbLit_not_onOrD a.eff hQ
  simp [step1, hP, hQ, hio, hsa]

theorem step1_eq_enter_close10 (tl : List TLE) (st : Eng1) (a b : TLE)
    (hQ : isOffSbLit a.eff) (hio : st.inOff = false) (hsa : st.shiftActive = true)
    (h10 : b.ts - a.ts ≥ TEN_HOURS_MS) :
    step1 tl st a (some b) =
      { finalize1 tl
          { st with
            curOn := 0
            inOff := true
            offStart := some a.ts
            offNearO := some a.near
            offKind := some (decide (a.eff = some Eff.off)) }
          a.ts none
          (if a.eff = some Eff.off ∧ b.ts - a.ts ≥ MIN_LAYOVER_MS ∧ a.near = false
           then jsRoundMin (b.ts - a.ts) else 0) with shiftActive := false } := by
  have hP : ¬ isOnOrD a.eff := offSbLit_not_onOrD a.eff hQ
  simp [step1, hP, hQ, hio, hsa, h10, offNearVal]

theorem step1_eq_enter_close930 (tl : List TLE) (st : Eng1) (a b : TLE)
    (hQ : isOffSbLit a.eff) (hio : st.inOff = false) (hsa : st.shiftActive = true)
    (h10 : ¬ b.ts - a.ts ≥ TEN_HOURS_MS) (h930 : b.ts - a.ts ≥ START_BREAK_MIN_MS) :
    step1 tl st a (some b) =
      { finalize1 tl
          { st with
            curOn := 0
            inOff := true
            offStart := some a.ts
            offNearO := some a.near
            offKind := some (decide (a.eff = some Eff.off)) }
          a.ts (some (.nearReset (TEN_HOURS_MS - (b.ts - a.ts))))
          (if a.eff = some Eff.off ∧ b.ts - a.ts ≥ MIN_LAYOVER_MS ∧ a.near = false
           then jsRoundMin (b.ts - a.ts) else 0) with shiftActive := false } := by
  have hP : ¬ isOnOrD a.eff := offSbLit_not_onOrD a.eff hQ
  simp [step1, hP, hQ, hio, hsa, h10, h930, offNearVal]

theorem step1_eq_enter_cont (tl : List TLE) (st : Eng1) (a b : TLE)
    (hQ : isOffSbLit a.eff) (hio : st.inOff = false) (hsa : st.shiftActive = true)
    (h930 : ¬ b.ts - a.ts ≥ START_BREAK_MIN_MS) :
    step1 tl st a (some b) =
      { st with
        curOn := 0
        inOff := true
        offStart := some a.ts
        offNearO := some a.near
        offKind := some (decide (a.eff = some Eff.off))
        sleeperMin := st.sleeperMin +
          (if a.eff = some Eff.sb then jsRoundMin (max 0 (b.ts - a.ts)) else 0)
        layoverMin := st.layoverMin +
          (if a.eff = some Eff.off ∧ a.near = false ∧ max 0 (b.ts - a.ts) ≥ MIN_LAYOVER_MS
           then jsRoundMin (max 0 (b.ts - a.ts)) else 0) } := by
  have hP : ¬ isOnOrD a.eff := offSbLit_not_onOrD a.eff hQ
  have h10 : ¬ b.ts - a.ts ≥ TEN_HOURS_MS := by
    unfold TEN_HOURS_MS
    unfold START_BREAK_MIN_MS at h930
    omega
  by_cases hsb : a.eff = some Eff.sb
  · have hoff : ¬ a.eff = some Eff.off := by rw [hsb]; intro h; injection h with h; cases h
    simp [step1, isOnOrD, isOffSbLit, hio, hsa, h10, h930, hsb, hoff]
  · simp [step1, hP, hQ, hio, hsa, h10, h930, hsb]
    split <;> rename_i hc <;> simp [hc]

theorem step1_eq_work (tl : List TLE) (st : Eng1) (a b : TLE)
    (hQ : ¬ isOffSbLit a.eff) (hio : st.inOff = false) :
    ∃ c m, step1 tl st a (some b) =
      { st with
        curOn := c
        maxOn := m
        payableMin := st.payableMin +
          (if st.shiftActive = true ∧ isOnOrD a.eff
           then jsRoundMin (max 0 (b.ts - a.ts)) else 0) } := by
  have hsb : ¬ a.eff = some Eff.sb := not_sb_of_not_offSbLit a.eff hQ
  have hoff : ¬ a.eff = some Eff.off := not_off_of_not_offSbLit a.eff hQ
  by_cases hP : isOnOrD a.eff
  · by_cases hsa : st.shiftActive = true
    · exact ⟨_, _, by simp [step1, hP, hQ, hio, hsa, hsb, hoff]; exact ⟨rfl, rfl⟩⟩
    · have hsa' : st.shiftActive = false := by
        cases hx : st.shiftActive
        · rfl
        · exact absurd hx hsa
      exact ⟨_, _, by simp [step1, hP, hQ, hio, hsa', hsb, hoff]; exact ⟨rfl, rfl⟩⟩
  · by_cases hsa : st.shiftActive = true
    · exact ⟨_, _, by simp [step1, hP, hQ, hio, hsa, hsb, hoff]; exact ⟨rfl, rfl⟩⟩
    · have hsa' : st.shiftActive = false := by
        cases hx : st.shiftActive
        · rfl
        · exact absurd hx hsa
      exact ⟨_, _, by simp [step1, hP, hQ, hio, hsa', hsb, hoff]; exact ⟨rfl, rfl⟩⟩

theorem step1_eq_exit (tl : List TLE) (st : Eng1) (a b : TLE)
    (hQ : ¬ isOffSbLit a.eff) (hio : st.inOff = true)
    (hng : st.offStart = none ∨ ∃ os, st.offStart = some os ∧ ¬ a.ts - os ≥ START_BREAK_MIN_MS) :
    ∃ c m, step1 tl st a (some b) =
      { st with
        curOn := c
        maxOn := m
        inOff := false
        offStart := none
        offNearO := none
        offKind := none
        payableMin := st.payableMin +
          (if st.shiftActive = true ∧ isOnOrD a.eff
           then jsRoundMin (max 0 (b.ts - a.ts)) else 0) } := by
  have hsb : ¬ a.eff = some Eff.sb := not_sb_of_not_offSbLit a.eff hQ
  have hoff : ¬ a.eff = some Eff.off := not_off_of_not_offSbLit a.eff hQ
  by_cases hP : isOnOrD a.eff <;>
    [skip; skip] <;>
    by_cases hsa : st.shiftActive = true <;>
    first
      | (rcases hng with hosn | ⟨os, hos, hgap⟩
         · exact ⟨_, _, by simp [step1, hP, hQ, hio, hsa, hsb, hoff, hosn]; exact ⟨rfl, rfl⟩⟩
         · exact ⟨_, _, by simp [step1, hP, hQ, hio, hsa, hsb, hoff, hos, hgap]; exact ⟨rfl, rfl⟩⟩)
      | (have hsa2 : st.shiftActive = false := by
          cases hx : st.shiftActive
          · rfl
          · exact absurd hx hsa
         rcases hng with hosn | ⟨os, hos, hgap⟩
         · exact ⟨_, _, by simp [step1, hP, hQ, hio, hsa2, hsb, hoff, hosn]; exact ⟨rfl, rfl⟩⟩
         · exact ⟨_, _, by simp [step1, hP, hQ, hio, hsa2, hsb, hoff, hos, hgap]; exact ⟨rfl, rfl⟩⟩)

theorem step1_eq_restart (tl : List TLE) (st : Eng1) (a b : TLE) (os : Int)
    (hQ : ¬ isOffSbLit a.eff) (hio : st.inOff = true)
    (hos : st.offStart = some os) (hgap : a.ts - os ≥ START_BREAK_MIN_MS) :
    step1 tl st a (some b) =
      { st with
        curOn := 0
        maxOn := 0
        inOff := false
        offStart := none
        offNearO := none
        offKind := none
        shiftActive := true
        shiftStart := some a.ts
        payableMin := (if isOnOrD a.eff then jsRoundMin (max 0 (b.ts - a.ts)) else 0)
        sleeperMin := 0
        layoverMin := 0
        startsLog := st.startsLog ++ [a.ts] } := by
  have hsb : ¬ a.eff = some Eff.sb := not_sb_of_not_offSbLit a.eff hQ
  have hoff : ¬ a.eff = some Eff.off := not_off_of_not_offSbLit a.eff hQ
  by_cases hP : isOnOrD a.eff
  · simp [step1, hP, hQ, hio, hos, hgap, hsb, hoff]
  · simp [step1, hP, hQ, hio, hos, hgap, hsb, hoff]

theorem step1_none_block (tl : List TLE) (st : Eng1) (a : TLE)
    (hQ : isOffSbLit a.eff) (hio : st.inOff = true) :
    step1 tl st a none = { st with curOn := 0 } := by
  have hP : ¬ isOnOrD a.eff := offSbLit_not_onOrD a.eff hQ
  simp [step1, hP, hQ, hio]

theorem step1_none_enter (tl : List TLE) (st : Eng1) (a : TLE)
    (hQ : isOffSbLit a.eff) (hio : st.inOff = false) :
    step1 tl st a none =
      { st with
        curOn := 0
        inOff := true
        offStart := some a.ts
        offNearO := some a.near
        offKind := some (decide (a.eff = some Eff.off)) } := by
  have hP : ¬ isOnOrD a.eff := offSbLit_not_onOrD a.eff hQ
  simp [step1, hP, hQ, hio]

theorem step1_none_work (tl : List TLE) (st : Eng1) (a : TLE)
    (hQ : ¬ isOffSbLit a.eff) (hio : st.inOff = false) :
    ∃ c m, step1 tl st a none = { st with curOn := c, maxOn := m } := by
  by_cases hP : isOnOrD a.eff
  · exact ⟨_, _, by simp [step1, hP, hQ, hio]; exact ⟨rfl, rfl⟩⟩
  · exact ⟨_, _, by simp [step1, hP, hQ, hio]; exact ⟨rfl, rfl⟩⟩

theorem step1_none_restart (tl : List TLE) (st : Eng1) (a : TLE) (os : Int)
    (hQ : ¬ isOffSbLit a.eff) (hio : st.inOff = true)
    (hos : st.offStart = some os) (hgap : a.ts - os ≥ START_BREAK_MIN_MS) :
    step1 tl st a none =
      { st with
        curOn := 0
        maxOn := 0
        inOff := false
        offStart := none
        offNearO := none
        offKind := none
        shiftActive := true
        shiftStart := some a.ts
        payableMin := 0
        sleeperMin := 0
        layoverMin := 0
        startsLog := st.startsLog ++ [a.ts] } := by
  by_cases hP : isOnOrD a.eff
  · simp [step1, hP, hQ, hio, hos, hgap]
  · simp [step1, hP, hQ, hio, hos, hgap]

theorem step1_none_exit (tl : List TLE) (st : Eng1) (a : TLE)
    (hQ : ¬ isOffSbLit a.eff) (hio : st.inOff = true)
    (hng : st.offStart = none ∨ ∃ os, st.offStart = some os ∧ ¬ a.ts - os ≥ START_BREAK_MIN_MS) :
    ∃ c m, step1 tl st a none =
      { st with
        curOn := c
        maxOn := m
        inOff := false
        offStart := none
        offNearO := none
        offKind := none } := by
  by_cases hP : isOnOrD a.eff <;>
    (rcases hng with hosn | ⟨os, hos, hgap⟩
     · exact ⟨_, _, by simp [step1, hP, hQ, hio, hosn]; exact ⟨rfl, rfl⟩⟩
     · exact ⟨_, _, by simp [step1, hP, hQ, hio, hos, hgap]; exact ⟨rfl, rfl⟩⟩)

/-- Claim C6 counterexample: (i) the claim's "a block of exactly 9h29m does
not end the shift at all" fails when the data ends inside the block — with a
shift opened at 10h and a trailing OFF block 12h→21h29m, the tail closure ends
the shift at the block's start with an end-of-file note; (ii) the claim's
"OFF/SLEEPER block" fails for alternate `SB_SET` spellings — the same shift
with a `"SLEEPER"`-spelled block 12h→21h40m is not closed at the block (no
near-reset row); the loop's literal `"OFF"`/`"SB"` test never sees the block,
and the shift runs to the still-on-duty end-of-file closure — whereas the same
block spelled `"OFF"` does close the shift at 12h short by 20 minutes. -/
theorem claim_C6_counterexample :
    ((run1 [⟨0, .off, false⟩, ⟨36000000, .on, false⟩, ⟨43200000, .off, false⟩,
        ⟨77340000, .off, false⟩]).map (fun r => (r.start, r.stop, r.note)) =
      [(36000000, 43200000, some CloseNote.eofShortOff)]) ∧
    (77340000 - 43200000 : Int) = 34140000 ∧
    ((run1 [⟨0, .off, false⟩, ⟨36000000, .on, false⟩, ⟨43200000, .sbAlt, false⟩,
        ⟨78000000, .on, false⟩]).map (fun r => (r.start, r.stop, r.note)) =
      [(36000000, 78000000, some CloseNote.eofStillOn)]) ∧
    ((run1 [⟨0, .off, false⟩, ⟨36000000, .on, false⟩, ⟨43200000, .off, false⟩,
        ⟨78000000, .on, false⟩]).map (fun r => (r.start, r.stop, r.note)) =
      [(36000000, 43200000, some (CloseNote.nearReset 1200000)),
       (78000000, 78000000, some CloseNote.eofStillOn)]) :=
  ⟨by decide, by decide, by decide, by decide⟩

/-- Claim C6 (amended): for every engine state with an active shift that is
inside a literally-spelled OFF/SB block opened at `os`: a gap to the next
entry of exactly 9h40m closes the shift at `os` tagged near-reset short by 20
minutes (1200000 ms); any gap below 9h30m leaves the shift open with rows and
shift start unchanged (within the loop — at end of data the tail closure
still ends the shift at the block's start with an end-of-file note, the
correction to the claim's "does not end the shift at all"); a gap of exactly
9h30m closes the shift (inclusive threshold, short by 30 minutes); a gap of
exactly 10h closes it with no note; and in `detectShiftStarts` a bracketed
work excursion of exactly 10 minutes is absorbed as a blip (inclusive
threshold) and the boundary is emitted at the duty resumption. -/
theorem claim_C6 (tl : List TLE) (st : Eng1) (a b : TLE) (os : Int)
    (hQ : isOffSbLit a.eff) (hio : st.inOff = true) (hsa : st.shiftActive = true)
    (hos : st.offStart = some os) :
    (b.ts - os = 34800000 →
      step1 tl st a (some b) =
        { finalize1 tl { st with curOn := 0 } os (some (CloseNote.nearReset 1200000))
            (if st.offKind = some true ∧ b.ts - os ≥ MIN_LAYOVER_MS ∧
                ¬ offNearVal st = true then jsRoundMin (b.ts - os) else 0) with
            shiftActive := false }) ∧
    (b.ts - os < START_BREAK_MIN_MS →
      (step1 tl st a (some b)).shiftActive = true ∧
      (step1 tl st a (some b)).rows = st.rows ∧
      (step1 tl st a (some b)).shiftStart = st.shiftStart) ∧
    (b.ts - os = START_BREAK_MIN_MS →
      step1 tl st a (some b) =
        { finalize1 tl { st with curOn := 0 } os (some (CloseNote.nearReset 1800000))
            (if st.offKind = some true ∧ b.ts - os ≥ MIN_LAYOVER_MS ∧
                ¬ offNearVal st = true then jsRoundMin (b.ts - os) else 0) with
            shiftActive := false }) ∧
    (b.ts - os = TEN_HOURS_MS →
      step1 tl st a (some b) =
        { finalize1 tl { st with curOn := 0 } os none
            (if st.offKind = some true ∧ b.ts - os ≥ MIN_LAYOVER_MS ∧
                ¬ offNearVal st = true then jsRoundMin (b.ts - os) else 0) with
            shiftActive := false }) ∧
    (∀ z, tl.getLast? = some z → isOffSbLit z.eff →
      max 0 (z.ts - os) < START_BREAK_MIN_MS →
      tail1 tl st = finalize1 tl st os (some CloseNote.eofShortOff) 0) ∧
    (∀ p q r w : Int, p < q → q < r → r < w → q - p < START_BREAK_MIN_MS →
      w - r < START_BREAK_MIN_MS → w - p ≥ START_BREAK_MIN_MS →
      r - q = BLIP_MAX_MS →
      detectShiftStarts [⟨p, .off⟩, ⟨q, .drv⟩, ⟨r, .off⟩, ⟨w, .on⟩] = [w]) := by
  refine ⟨?_, ?_, ?_, ?_, ?_, ?_⟩
  · intro h940
    have h10 : ¬ b.ts - os ≥ TEN_HOURS_MS := by unfold TEN_HOURS_MS; omega
    have h930 : b.ts - os ≥ START_BREAK_MIN_MS := by unfold START_BREAK_MIN_MS; omega
    rw [step1_eq_close930 tl st a b os hQ hio hsa hos h10 h930, h940]
    norm_num [TEN_HOURS_MS]
  · intro hlt
    have h930 : ¬ b.ts - os ≥ START_BREAK_MIN_MS := by omega
    rw [step1_eq_block_cont tl st a b os hQ hio hsa hos h930]
    exact ⟨hsa, rfl, rfl⟩
  · intro h930e
    have h10 : ¬ b.ts - os ≥ TEN_HOURS_MS := by
      unfold TEN_HOURS_MS
      unfold START_BREAK_MIN_MS at h930e
      omega
    have h930 : b.ts - os ≥ START_BREAK_MIN_MS := le_of_eq h930e.symm
    rw [step1_eq_close930 tl st a b os hQ hio hsa hos h10 h930, h930e]
    norm_num [TEN_HOURS_MS, START_BREAK_MIN_MS]
  · intro h10e
    exact step1_eq_close10 tl st a b os hQ hio hsa hos (le_of_eq h10e.symm)
  · intro z hz hzoff hshort
    have h10 : ¬ max 0 (z.ts - os) ≥ TEN_HOURS_MS := by
      unfold TEN_HOURS_MS
      unfold START_BREAK_MIN_MS at hshort
      omega
    have h930 : ¬ max 0 (z.ts - os) ≥ START_BREAK_MIN_MS := by omega
    unfold tail1
    rw [hz]
    simp only []
    rw [if_pos hsa, hos]
    simp only []
    rw [if_pos hzoff, if_neg h10, if_neg h930]
  · intro p q r w h1 h2 h3 h4 h5 h6 h7
    exact (detectBlip_cases p q r w h1 h2 h3 h4 h5 h6).1 (le_of_eq h7)

/-- Claim C6 witness: the 9h40m close applied at a concrete state — an active
shift opened at 10h, an OFF block opened at 12h, next entry at 21h40m — ends
the shift at the block start tagged short by 20 minutes. -/
theorem claim_C6_witness :
    isOffSbLit (some Eff.off) ∧ eng1C6.inOff = true ∧ eng1C6.shiftActive = true ∧
    eng1C6.offStart = some 43200000 ∧ (78000000 - 43200000 : Int) = 34800000 ∧
    step1 [] eng1C6 ⟨43200000, some Eff.off, false⟩ (some ⟨78000000, some Eff.on, false⟩) =
      { finalize1 [] { eng1C6 with curOn := 0 } 43200000
          (some (CloseNote.nearReset 1200000))
          (if eng1C6.offKind = some true ∧ (78000000 - 43200000 : Int) ≥ MIN_LAYOVER_MS ∧
              ¬ offNearVal eng1C6 = true then jsRoundMin (78000000 - 43200000) else 0) with
          shiftActive := false } :=
  ⟨by decide, by decide, by decide, by decide, by decide,
    (claim_C6 [] eng1C6 ⟨43200000, some Eff.off, false⟩ ⟨78000000, some Eff.on, false⟩
      43200000 (by decide) (by decide) (by decide) (by decide)).1 (by decide)⟩

theorem step1_inv (tl : List TLE) (hch : tl.Chain' (fun x y => x.ts < y.ts))
    (st : Eng1) (a b : TLE) (hab : (a, b) ∈ consecPairs tl)
    (hinv : inv1 tl st a) : inv1 tl (step1 tl st a (some b)) b := by
  have hlt : a.ts < b.ts := consecPairs_within_lt tl hch (a, b) hab
  obtain ⟨hrows, hp0, hs0, hl0, hioff, hact⟩ := hinv
  have hseg : 0 ≤ jsRoundMin (max 0 (b.ts - a.ts)) := jsRoundMin_nonneg _ (le_max_left _ _)
  by_cases hQ : isOffSbLit a.eff
  · by_cases hio : st.inOff = true
    · by_cases hsa : st.shiftActive = true
      · obtain ⟨s0, hss, hsle, hrest⟩ := hact hsa
        rw [if_pos hio] at hrest
        obtain ⟨os, hos, hosle, hpay, heqq⟩ := hrest
        have hstep : paySumWithin tl s0 b.ts = paySumWithin tl s0 a.ts := by
          rw [paySum_pair_step tl hch a b hab s0 hsle, if_neg (offSbLit_not_onOrD a.eff hQ)]
          omega
        by_cases h10 : b.ts - os ≥ TEN_HOURS_MS
        · rw [step1_eq_close10 tl st a b os hQ hio hsa hos h10]
          have hex : 0 ≤ (if st.offKind = some true ∧ b.ts - os ≥ MIN_LAYOVER_MS ∧
              ¬ offNearVal st = true then jsRoundMin (b.ts - os) else 0) := by
            split
            · exact jsRoundMin_nonneg _ (by unfold TEN_HOURS_MS at h10; omega)
            · exact le_refl 0
          refine ⟨finalize1_rows_ok tl _ os none _ hex s0 hss ⟨hp0, hs0, hl0⟩ hpay hrows,
            ?_, ?_, ?_, ?_, ?_⟩
          · simp only [finalize1_payable]; exact hp0
          · simp only [finalize1_sleeper]; exact hs0
          · simp only [finalize1_layover]; exact hl0
          · simp only [finalize1_inOff, finalize1_offStart]
            intro hcon
            rw [hio] at hcon
            exact Bool.noConfusion hcon
          · intro hcon
            exact Bool.noConfusion hcon
        · by_cases h930 : b.ts - os ≥ START_BREAK_MIN_MS
          · rw [step1_eq_close930 tl st a b os hQ hio hsa hos h10 h930]
            have hex : 0 ≤ (if st.offKind = some true ∧ b.ts - os ≥ MIN_LAYOVER_MS ∧
                ¬ offNearVal st = true then jsRoundMin (b.ts - os) else 0) := by
              split
              · exact jsRoundMin_nonneg _ (by unfold START_BREAK_MIN_MS at h930; omega)
              · exact le_refl 0
            refine ⟨finalize1_rows_ok tl _ os _ _ hex s0 hss ⟨hp0, hs0, hl0⟩ hpay hrows,
              ?_, ?_, ?_, ?_, ?_⟩
            · simp only [finalize1_payable]; exact hp0
            · simp only [finalize1_sleeper]; exact hs0
            · simp only [finalize1_layover]; exact hl0
            · simp only [finalize1_inOff, finalize1_offStart]
              intro hcon
              rw [hio] at hcon
              exact Bool.noConfusion hcon
            · intro hcon
              exact Bool.noConfusion hcon
          · rw [step1_eq_block_cont tl st a b os hQ hio hsa hos h930]
            refine ⟨hrows, hp0, ?_, ?_, ?_, ?_⟩
            · have : 0 ≤ (if a.eff = some Eff.sb then jsRoundMin (max 0 (b.ts - a.ts))
                  else 0) := by
                split
                · exact hseg
                · exact le_refl 0
              show 0 ≤ st.sleeperMin + _
              omega
            · have : 0 ≤ (if a.eff = some Eff.off ∧ a.near = false ∧
                  max 0 (b.ts - a.ts) ≥ MIN_LAYOVER_MS
                  then jsRoundMin (max 0 (b.ts - a.ts)) else 0) := by
                split
                · exact hseg
                · exact le_refl 0
              show 0 ≤ st.layoverMin + _
              omega
            · intro hcon
              exact absurd (hio ▸ hcon : (true : Bool) = false) (fun h => Bool.noConfusion h)
            · intro _
              refine ⟨s0, hss, by omega, ?_⟩
              rw [if_pos (hio : _)]
              exact ⟨os, hos, by omega, hpay, by rw [hstep, heqq]⟩
      · have hsa' : st.shiftActive = false := by
          cases hx : st.shiftActive
          · rfl
          · exact absurd hx hsa
        rw [step1_eq_block_idle tl st a (some b) hQ hio hsa']
        exact ⟨hrows, hp0, hs0, hl0,
          fun hcon => absurd (hio ▸ hcon : (true : Bool) = false)
            (fun h => Bool.noConfusion h),
          fun hcon => absurd (hsa' ▸ hcon : (false : Bool) = true)
            (fun h => Bool.noConfusion h)⟩
    · have hio' : st.inOff = false := by
        cases hx : st.inOff
        · rfl
        · exact absurd hx hio
      by_cases hsa : st.shiftActive = true
      · obtain ⟨s0, hss, hsle, hrest⟩ := hact hsa
        rw [if_neg (by simp [hio'])] at hrest
        have hpay : st.payableMin = paySumWithin tl s0 a.ts := hrest
        have hstep : paySumWithin tl s0 b.ts = paySumWithin tl s0 a.ts := by
          rw [paySum_pair_step tl hch a b hab s0 hsle, if_neg (offSbLit_not_onOrD a.eff hQ)]
          omega
        by_cases h10 : b.ts - a.ts ≥ TEN_HOURS_MS
        · rw [step1_eq_enter_close10 tl st a b hQ hio' hsa h10]
          have hex : 0 ≤ (if a.eff = some Eff.off ∧ b.ts - a.ts ≥ MIN_LAYOVER_MS ∧
              a.near = false then jsRoundMin (b.ts - a.ts) else 0) := by
            split
            · exact jsRoundMin_nonneg _ (by unfold TEN_HOURS_MS at h10; omega)
            · exact le_refl 0
          refine ⟨finalize1_rows_ok tl _ a.ts none _ hex s0 hss ⟨hp0, hs0, hl0⟩ hpay hrows,
            ?_, ?_, ?_, ?_, ?_⟩
          · simp only [finalize1_payable]; exact hp0
          · simp only [finalize1_sleeper]; exact hs0
          · simp only [finalize1_layover]; exact hl0
          · simp only [finalize1_inOff, finalize1_offStart]
            intro hcon
            exact Bool.noConfusion hcon
          · intro hcon
            exact Bool.noConfusion hcon
        · by_cases h930 : b.ts - a.ts ≥ START_BREAK_MIN_MS
          · rw [step1_eq_enter_close930 tl st a b hQ hio' hsa h10 h930]
            have hex : 0 ≤ (if a.eff = some Eff.off ∧ b.ts - a.ts ≥ MIN_LAYOVER_MS ∧
                a.near = false then jsRoundMin (b.ts - a.ts) else 0) := by
              split
              · exact jsRoundMin_nonneg _ (by unfold START_BREAK_MIN_MS at h930; omega)
              · exact le_refl 0
            refine ⟨finalize1_rows_ok tl _ a.ts _ _ hex s0 hss ⟨hp0, hs0, hl0⟩ hpay hrows,
              ?_, ?_, ?_, ?_, ?_⟩
            · simp only [finalize1_payable]; exact hp0
            · simp only [finalize1_sleeper]; exact hs0
            · simp only [finalize1_layover]; exact hl0
            · simp only [finalize1_inOff, finalize1_offStart]
              intro hcon
              exact Bool.noConfusion hcon
            · intro hcon
              exact Bool.noConfusion hcon
          · rw [step1_eq_enter_cont tl st a b hQ hio' hsa h930]
            refine ⟨hrows, hp0, ?_, ?_, ?_, ?_⟩
            · have : 0 ≤ (if a.eff = some Eff.sb then jsRoundMin (max 0 (b.ts - a.ts))
                  else 0) := by
                split
                · exact hseg
                · exact le_refl 0
              show 0 ≤ st.sleeperMin + _
              omega
            · have : 0 ≤ (if a.eff = some Eff.off ∧ a.near = false ∧
                  max 0 (b.ts - a.ts) ≥ MIN_LAYOVER_MS
                  then jsRoundMin (max 0 (b.ts - a.ts)) else 0) := by
                split
                · exact hseg
                · exact le_refl 0
              show 0 ≤ st.layoverMin + _
              omega
            · intro hcon
              exact Bool.noConfusion hcon
            · intro _
              refine ⟨s0, hss, by omega, ?_⟩
              rw [if_pos (rfl : (true : Bool) = true)]
              exact ⟨a.ts, rfl, by omega, hpay, by rw [hstep]⟩
      · have hsa' : st.shiftActive = false := by
          cases hx : st.shiftActive
          · rfl
          · exact absurd hx hsa
        rw [step1_eq_enter_idle tl st a b hQ hio' hsa']
        exact ⟨hrows, hp0, hs0, hl0,
          fun hcon => Bool.noConfusion hcon,
          fun hcon => absurd (hsa' ▸ hcon : (false : Bool) = true)
            (fun h => Bool.noConfusion h)⟩
  · by_cases hio : st.inOff = true
    · cases hosx : st.offStart with
      | some os =>
        by_cases hgap : a.ts - os ≥ START_BREAK_MIN_MS
        · rw [step1_eq_restart tl st a b os hQ hio hosx hgap]
          have hd : 0 ≤ (if isOnOrD a.eff then jsRoundMin (max 0 (b.ts - a.ts)) else 0) := by
            split
            · exact hseg
            · exact le_refl 0
          refine ⟨hrows, hd, le_refl 0, le_refl 0, fun _ => rfl, ?_⟩
          intro _
          refine ⟨a.ts, rfl, le_of_lt hlt, ?_⟩
          rw [if_neg (fun h => Bool.noConfusion h)]
          show (if isOnOrD a.eff then jsRoundMin (max 0 (b.ts - a.ts)) else 0) =
            paySumWithin tl a.ts b.ts
          rw [paySum_pair_step tl hch a b hab a.ts (le_refl _),
            paySumWithin_self tl hch a.ts]
          omega
        · obtain ⟨c, m, heq⟩ := step1_eq_exit tl st a b hQ hio (Or.inr ⟨os, hosx, hgap⟩)
          rw [heq]
          have hd : 0 ≤ (if st.shiftActive = true ∧ isOnOrD a.eff
              then jsRoundMin (max 0 (b.ts - a.ts)) else 0) := by
            split
            · exact hseg
            · exact le_refl 0
          refine ⟨hrows, by show 0 ≤ st.payableMin + _; omega, hs0, hl0, fun _ => rfl, ?_⟩
          intro hsa2
          have hsa : st.shiftActive = true := hsa2
          obtain ⟨s0, hss, hsle, hrest⟩ := hact hsa
          rw [if_pos hio] at hrest
          obtain ⟨os2, hos2, hosle, hpay, heqq⟩ := hrest
          rw [hosx] at hos2
          injection hos2 with hos2
          subst hos2
          refine ⟨s0, hss, by omega, ?_⟩
          rw [if_neg (fun h => Bool.noConfusion h)]
          show st.payableMin + _ = paySumWithin tl s0 b.ts
          rw [paySum_pair_step tl hch a b hab s0 hsle, hpay, ← heqq]
          by_cases hP : isOnOrD a.eff
          · rw [if_pos ⟨hsa, hP⟩, if_pos hP]
          · rw [if_neg (fun hh => hP hh.2), if_neg hP]
      | none =>
        by_cases hsa : st.shiftActive = true
        · obtain ⟨s0, hss, hsle, hrest⟩ := hact hsa
          rw [if_pos hio] at hrest
          obtain ⟨os, hos, _⟩ := hrest
          rw [hosx] at hos
          exact Option.noConfusion hos
        · obtain ⟨c, m, heq⟩ := step1_eq_exit tl st a b hQ hio (Or.inl hosx)
          rw [heq]
          have hd : 0 ≤ (if st.shiftActive = true ∧ isOnOrD a.eff
              then jsRoundMin (max 0 (b.ts - a.ts)) else 0) := by
            split
            · exact hseg
            · exact le_refl 0
          refine ⟨hrows, by show 0 ≤ st.payableMin + _; omega, hs0, hl0, fun _ => rfl, ?_⟩
          intro hcon
          exact absurd hcon hsa
    · have hio' : st.inOff = false := by
        cases hx : st.inOff
        · rfl
        · exact absurd hx hio
      obtain ⟨c, m, heq⟩ := step1_eq_work tl st a b hQ hio'
      rw [heq]
      have hd : 0 ≤ (if st.shiftActive = true ∧ isOnOrD a.eff
          then jsRoundMin (max 0 (b.ts - a.ts)) else 0) := by
        split
        · exact hseg
        · exact le_refl 0
      refine ⟨hrows, by show 0 ≤ st.payableMin + _; omega, hs0, hl0,
        fun _ => hioff hio', ?_⟩
      intro hsa
      obtain ⟨s0, hss, hsle, hrest⟩ := hact hsa
      rw [if_neg (by simp [hio'])] at hrest
      have hpay : st.payableMin = paySumWithin tl s0 a.ts := hrest
      refine ⟨s0, hss, by omega, ?_⟩
      rw [if_neg (fun h => absurd (hio'.symm.trans h) (fun hh => Bool.noConfusion hh))]
      show st.payableMin + _ = paySumWithin tl s0 b.ts
      rw [paySum_pair_step tl hch a b hab s0 hsle, hpay]
      by_cases hP : isOnOrD a.eff
      · rw [if_pos ⟨hsa, hP⟩, if_pos hP]
      · rw [if_neg (fun hh => hP hh.2), if_neg hP]

theorem step1_final (tl : List TLE) (hch : tl.Chain' (fun x y => x.ts < y.ts))
    (st : Eng1) (a : TLE) (hinv : inv1 tl st a) :
    finalInv1 tl (step1 tl st a none) a := by
  obtain ⟨hrows, hp0, hs0, hl0, hioff, hact⟩ := hinv
  by_cases hQ : isOffSbLit a.eff
  · by_cases hio : st.inOff = true
    · rw [step1_none_block tl st a hQ hio]
      refine ⟨hrows, hp0, hs0, hl0, ?_⟩
      intro hsa
      obtain ⟨s0, hss, hsle, hrest⟩ := hact hsa
      rw [if_pos hio] at hrest
      obtain ⟨os, hos, hosle, hpay, heqq⟩ := hrest
      refine ⟨s0, hss, ?_⟩
      show (match st.offStart with
        | some os => st.payableMin = paySumWithin tl s0 os ∧ isOffSbLit a.eff
        | none => st.payableMin = paySumWithin tl s0 a.ts)
      rw [hos]
      exact ⟨hpay, hQ⟩
    · have hio' : st.inOff = false := by
        cases hx : st.inOff
        · rfl
        · exact absurd hx hio
      rw [step1_none_enter tl st a hQ hio']
      refine ⟨hrows, hp0, hs0, hl0, ?_⟩
      intro hsa
      obtain ⟨s0, hss, hsle, hrest⟩ := hact hsa
      rw [if_neg (by simp [hio'])] at hrest
      exact ⟨s0, hss, ⟨hrest, hQ⟩⟩
  · by_cases hio : st.inOff = true
    · cases hosx : st.offStart with
      | some os =>
        by_cases hgap : a.ts - os ≥ START_BREAK_MIN_MS
        · rw [step1_none_restart tl st a os hQ hio hosx hgap]
          refine ⟨hrows, le_refl 0, le_refl 0, le_refl 0, ?_⟩
          intro _
          exact ⟨a.ts, rfl, (paySumWithin_self tl hch a.ts).symm⟩
        · obtain ⟨c, m, heq⟩ := step1_none_exit tl st a hQ hio (Or.inr ⟨os, hosx, hgap⟩)
          rw [heq]
          refine ⟨hrows, hp0, hs0, hl0, ?_⟩
          intro hsa2
          have hsa : st.shiftActive = true := hsa2
          obtain ⟨s0, hss, hsle, hrest⟩ := hact hsa
          rw [if_pos hio] at hrest
          obtain ⟨os2, hos2, hosle, hpay, heqq⟩ := hrest
          rw [hosx] at hos2
          injection hos2 with hos2
          subst hos2
          exact ⟨s0, hss, by rw [hpay, ← heqq]⟩
      | none =>
        obtain ⟨c, m, heq⟩ := step1_none_exit tl st a hQ hio (Or.inl hosx)
        rw [heq]
        refine ⟨hrows, hp0, hs0, hl0, ?_⟩
        intro hsa2
        have hsa : st.shiftActive = true := hsa2
        obtain ⟨s0, hss, hsle, hrest⟩ := hact hsa
        rw [if_pos hio] at hrest
        obtain ⟨os2, hos2, _⟩ := hrest
        rw [hosx] at hos2
        exact Option.noConfusion hos2
    · have hio' : st.inOff = false := by
        cases hx : st.inOff
        · rfl
        · exact absurd hx hio
      obtain ⟨c, m, heq⟩ := step1_none_work tl st a hQ hio'
      rw [heq]
      refine ⟨hrows, hp0, hs0, hl0, ?_⟩
      intro hsa2
      have hsa : st.shiftActive = true := hsa2
      obtain ⟨s0, hss, hsle, hrest⟩ := hact hsa
      rw [if_neg (by simp [hio'])] at hrest
      refine ⟨s0, hss, ?_⟩
      show (match st.offStart with
        | some os => st.payableMin = paySumWithin tl s0 os ∧ isOffSbLit a.eff
        | none => st.payableMin = paySumWithin tl s0 a.ts)
      rw [hioff hio']
      exact hrest

theorem eng1Go_inv (tl : List TLE) (hch : tl.Chain' (fun x y => x.ts < y.ts)) :
    ∀ (l pre : List TLE) (st : Eng1), tl = pre ++ l →
      ∀ a, l.head? = some a → inv1 tl st a →
      ∀ z, l.getLast? = some z →
      finalInv1 tl (eng1Go tl st l) z := by
  intro l
  induction l with
  | nil =>
    intro pre st _ a ha
    exact absurd ha (by simp)
  | cons x r ih =>
    intro pre st hpre a ha hinv z hz
    have hxa : x = a := by simpa using ha
    subst hxa
    cases r with
    | nil =>
      have hz' : x = z := by simpa using hz
      subst hz'
      exact step1_final tl hch st x hinv
    | cons y r' =>
      have hab : (x, y) ∈ consecPairs tl := by
        rw [hpre]
        exact consecPairs_mem_of_append pre r' x y
      have hinv' := step1_inv tl hch st x y hab hinv
      have hz2 : (y :: r').getLast? = some z := by
        simpa using hz
      exact ih (pre ++ [x]) (step1 tl st x (some y)) (by rw [hpre]; simp) y rfl hinv' z hz2

theorem tail1_rows_ok (tl : List TLE) (st : Eng1) (z : TLE)
    (hz : tl.getLast? = some z) (hfi : finalInv1 tl st z) :
    ∀ r ∈ (tail1 tl st).rows, rowOk tl r := by
  obtain ⟨hrows, hp0, hs0, hl0, hact⟩ := hfi
  unfold tail1
  rw [hz]
  by_cases hsa : st.shiftActive = true
  · obtain ⟨s0, hss, hrest⟩ := hact hsa
    simp only []
    rw [if_pos hsa]
    cases hosx : st.offStart with
    | some os =>
      rw [hosx] at hrest
      simp only [] at hrest
      obtain ⟨hpay, hzoff⟩ := hrest
      simp only []
      rw [if_pos hzoff]
      by_cases h10 : max 0 (z.ts - os) ≥ TEN_HOURS_MS
      · rw [if_pos h10]
        have hex : 0 ≤ (if max 0 (z.ts - os) ≥ MIN_LAYOVER_MS ∧ ¬ offNearVal st = true
            then jsRoundMin (max 0 (z.ts - os)) else 0) := by
          split
          · exact jsRoundMin_nonneg _ (le_max_left _ _)
          · exact le_refl 0
        exact finalize1_rows_ok tl st os none _ hex s0 hss ⟨hp0, hs0, hl0⟩ hpay hrows
      · rw [if_neg h10]
        by_cases h930 : max 0 (z.ts - os) ≥ START_BREAK_MIN_MS
        · rw [if_pos h930]
          have hex : 0 ≤ (if max 0 (z.ts - os) ≥ MIN_LAYOVER_MS ∧ ¬ offNearVal st = true
              then jsRoundMin (max 0 (z.ts - os)) else 0) := by
            split
            · exact jsRoundMin_nonneg _ (le_max_left _ _)
            · exact le_refl 0
          exact finalize1_rows_ok tl st os _ _ hex s0 hss ⟨hp0, hs0, hl0⟩ hpay hrows
        · rw [if_neg h930]
          exact finalize1_rows_ok tl st os _ 0 (le_refl 0) s0 hss ⟨hp0, hs0, hl0⟩ hpay hrows
    | none =>
      rw [hosx] at hrest
      simp only [] at hrest
      exact finalize1_rows_ok tl st z.ts _ 0 (le_refl 0) s0 hss ⟨hp0, hs0, hl0⟩ hrest hrows
  · simp only []
    rw [if_neg hsa]
    exact hrows

theorem buildTimelineGo_head_ts (r : List Evt1) (d : Option Eff) :
    ∀ w ∈ (buildTimelineGo d r).head?, ∃ f ∈ r.head?, w.ts = f.ts := by
  cases r with
  | nil => simp [buildTimelineGo]
  | cons f r' =>
    intro w hw
    cases hrd : rawDuty f.st <;>
      simp only [buildTimelineGo, hrd, List.head?_cons, Option.mem_def,
        Option.some.injEq] at hw <;>
      exact ⟨f, by simp, by rw [← hw]⟩

theorem buildTimelineGo_chain (evs : List Evt1)
    (hch : evs.Chain' (fun a b => a.ts < b.ts)) :
    ∀ d, (buildTimelineGo d evs).Chain' (fun a b => a.ts < b.ts) := by
  induction evs with
  | nil => intro d; simp [buildTimelineGo]
  | cons e r ih =>
    intro d
    have hch' : r.Chain' (fun a b => a.ts < b.ts) := (List.chain'_cons'.mp hch).2
    have hhd : ∀ f ∈ r.head?, e.ts < f.ts := (List.chain'_cons'.mp hch).1
    cases hrd : rawDuty e.st <;>
      simp only [buildTimelineGo, hrd] <;>
      refine List.chain'_cons'.mpr ⟨?_, ih hch' _⟩ <;>
      intro w hw <;>
      obtain ⟨f, hf, hts⟩ := buildTimelineGo_head_ts r _ w hw <;>
      (show e.ts < w.ts; rw [hts]; exact hhd f hf)

theorem run1_rows_ok (evs : List Evt1) (hch : evs.Chain' (fun a b => a.ts < b.ts)) :
    ∀ r ∈ run1 evs, rowOk (buildTimeline evs) r := by
  have hchtl : (buildTimeline evs).Chain' (fun a b => a.ts < b.ts) :=
    buildTimelineGo_chain evs hch none
  unfold run1 runEng1
  cases htl : buildTimeline evs with
  | nil =>
    intro r hr
    simp [eng1Go, tail1, eng1Init] at hr
  | cons x r0 =>
    rw [htl] at hchtl
    have hinit : inv1 (x :: r0) eng1Init x := by
      refine ⟨by simp [eng1Init], by simp [eng1Init], by simp [eng1Init],
        by simp [eng1Init], fun _ => rfl, ?_⟩
      intro hcon
      simp [eng1Init] at hcon
    have hzex : ∃ z, (x :: r0).getLast? = some z := by
      cases r0 with
      | nil => exact ⟨x, rfl⟩
      | cons y r1 =>
        exact ⟨(y :: r1).getLast (by simp), by simp [List.getLast?_eq_getLast]⟩
    obtain ⟨z, hzl⟩ := hzex
    have hfi := eng1Go_inv (x :: r0) hchtl (x :: r0) [] eng1Init rfl x rfl hinit z hzl
    exact tail1_rows_ok (x :: r0) _ z hzl hfi

/-- Claim C5 counterexample: the emitted row closes at the sleeper block's
start (stop = 11h), yet reports 60 sleeper minutes, although every SB segment
of the timeline begins at or after that stop. -/
theorem claim_C5_counterexample :
    ∃ r ∈ run1 evsC5, r.stop = 39600000 ∧ r.sleeperMin = 60 ∧
      ∀ p ∈ consecPairs (buildTimeline evsC5), p.1.eff = some Eff.sb →
        p.1.ts ≥ r.stop := by decide

/-- C5 (amended): for a strictly increasing event list, every Shift row's
payable, sleeper and layover totals are non-negative, and the payable total
equals the rounded ON/DRIVING pair sum clipped to `[start, stop]` — sleeper
and layover, by contrast, may include closing-block segments (see the
counterexample). -/
theorem claim_C5 (evs : List Evt1) (hch : evs.Chain' (fun a b => a.ts < b.ts)) :
    ∀ r ∈ run1 evs, 0 ≤ r.payableMin ∧ 0 ≤ r.sleeperMin ∧ 0 ≤ r.layoverMin ∧
      r.payableMin = paySumWithin (buildTimeline evs) r.start r.stop := by
  intro r hr
  exact run1_rows_ok evs hch r hr

theorem claim_C5_witness :
    List.Chain' (fun a b => a.ts < b.ts) evsC5 ∧
    (∀ r ∈ run1 evsC5, 0 ≤ r.payableMin ∧ 0 ≤ r.sleeperMin ∧ 0 ≤ r.layoverMin ∧
      r.payableMin = paySumWithin (buildTimeline evsC5) r.start r.stop) :=
  ⟨by norm_num [evsC5, List.chain'_cons], claim_C5 evsC5 (by norm_num [evsC5, List.chain'_cons])⟩

theorem finalize1_core_rows (tl2 tl1 : List TLE) (s t : Eng1) (stop : Int)
    (note note2 : Option CloseNote) (extra : Int)
    (hrows : s.rows.map Row1.core = t.rows.map Row1.core)
    (hss : s.shiftStart = t.shiftStart) (hpay : s.payableMin = t.payableMin)
    (hsl : s.sleeperMin = t.sleeperMin) (hlay : s.layoverMin = t.layoverMin) :
    (finalize1 tl2 s stop note extra).rows.map Row1.core =
      (finalize1 tl1 t stop note2 extra).rows.map Row1.core := by
  unfold finalize1
  cases h : s.shiftStart with
  | none =>
    have h2 : t.shiftStart = none := hss ▸ h
    rw [h2]
    exact hrows
  | some s0 =>
    have h2 : t.shiftStart = some s0 := hss ▸ h
    rw [h2]
    simp only [List.map_append, List.map_cons, List.map_nil]
    rw [hrows]
    congr 2
    simp [Row1.core, hpay, hsl, hlay]

theorem finalize1_offNearO (tl : List TLE) (st : Eng1) (stop : Int) (note : Option CloseNote)
    (extra : Int) : (finalize1 tl st stop note extra).offNearO = st.offNearO := by
  unfold finalize1
  cases h : st.shiftStart <;> simp [h]

theorem finalize1_offKind (tl : List TLE) (st : Eng1) (stop : Int) (note : Option CloseNote)
    (extra : Int) : (finalize1 tl st stop note extra).offKind = st.offKind := by
  unfold finalize1
  cases h : st.shiftStart <;> simp [h]

theorem close_coreEq (tl2 tl1 : List TLE) (s t : Eng1) (stop : Int)
    (note note2 : Option CloseNote) (extra : Int) (hc : coreEq s t) :
    coreEq { finalize1 tl2 s stop note extra with shiftActive := false }
      { finalize1 tl1 t stop note2 extra with shiftActive := false } := by
  obtain ⟨h1, h2, h3, h4, h5, h6, h7, h8, h9, h10⟩ := hc
  refine ⟨?_, ?_, ?_, ?_, rfl, ?_, ?_, ?_, ?_, ?_⟩
  · show (finalize1 tl2 s stop note extra).inOff = (finalize1 tl1 t stop note2 extra).inOff
    rw [finalize1_inOff, finalize1_inOff, h1]
  · show (finalize1 tl2 s stop note extra).offStart =
      (finalize1 tl1 t stop note2 extra).offStart
    rw [finalize1_offStart, finalize1_offStart, h2]
  · show (finalize1 tl2 s stop note extra).offNearO =
      (finalize1 tl1 t stop note2 extra).offNearO
    rw [finalize1_offNearO, finalize1_offNearO, h3]
  · show (finalize1 tl2 s stop note extra).offKind =
      (finalize1 tl1 t stop note2 extra).offKind
    rw [finalize1_offKind, finalize1_offKind, h4]
  · show (finalize1 tl2 s stop note extra).shiftStart =
      (finalize1 tl1 t stop note2 extra).shiftStart
    rw [(finalize1_fields tl2 s stop note extra).2.2.2.2.1,
      (finalize1_fields tl1 t stop note2 extra).2.2.2.2.1, h6]
  · show (finalize1 tl2 s stop note extra).payableMin =
      (finalize1 tl1 t stop note2 extra).payableMin
    rw [finalize1_payable, finalize1_payable, h7]
  · show (finalize1 tl2 s stop note extra).sleeperMin =
      (finalize1 tl1 t stop note2 extra).sleeperMin
    rw [finalize1_sleeper, finalize1_sleeper, h8]
  · show (finalize1 tl2 s stop note extra).layoverMin =
      (finalize1 tl1 t stop note2 extra).layoverMin
    rw [finalize1_layover, finalize1_layover, h9]
  · show (finalize1 tl2 s stop note extra).rows.map Row1.core =
      (finalize1 tl1 t stop note2 extra).rows.map Row1.core
    exact finalize1_core_rows tl2 tl1 s t stop note note2 extra h10 h6 h7 h8 h9

theorem step1_coreEq (tl2 tl1 : List TLE) (s t : Eng1) (a : TLE) (nx : Option TLE)
    (hc : coreEq s t) : coreEq (step1 tl2 s a nx) (step1 tl1 t a nx) := by
  obtain ⟨h1, h2, h3, h4, h5, h6, h7, h8, h9, h10⟩ := hc
  have hnv : offNearVal s = offNearVal t := by unfold offNearVal; rw [h3]
  by_cases hQ : isOffSbLit a.eff
  · by_cases hio : s.inOff = true
    · have hio2 : t.inOff = true := h1 ▸ hio
      cases nx with
      | none =>
        rw [step1_none_block tl2 s a hQ hio, step1_none_block tl1 t a hQ hio2]
        exact ⟨h1, h2, h3, h4, h5, h6, h7, h8, h9, h10⟩
      | some b =>
        by_cases hsa : s.shiftActive = true
        · have hsa2 : t.shiftActive = true := h5 ▸ hsa
          cases hosx : s.offStart with
          | some os =>
            have hos2 : t.offStart = some os := h2 ▸ hosx
            have hE : (if s.offKind = some true ∧ b.ts - os ≥ MIN_LAYOVER_MS ∧
                ¬ offNearVal s = true then jsRoundMin (b.ts - os) else 0) =
                (if t.offKind = some true ∧ b.ts - os ≥ MIN_LAYOVER_MS ∧
                ¬ offNearVal t = true then jsRoundMin (b.ts - os) else 0) := by
              rw [h4, hnv]
            by_cases h10' : b.ts - os ≥ TEN_HOURS_MS
            · rw [step1_eq_close10 tl2 s a b os hQ hio hsa hosx h10',
                step1_eq_close10 tl1 t a b os hQ hio2 hsa2 hos2 h10', ← hE]
              exact close_coreEq tl2 tl1 _ _ os none none _
                ⟨h1, h2, h3, h4, h5, h6, h7, h8, h9, h10⟩
            · by_cases h930 : b.ts - os ≥ START_BREAK_MIN_MS
              · rw [step1_eq_close930 tl2 s a b os hQ hio hsa hosx h10' h930,
                  step1_eq_close930 tl1 t a b os hQ hio2 hsa2 hos2 h10' h930, ← hE]
                exact close_coreEq tl2 tl1 _ _ os _ _ _
                  ⟨h1, h2, h3, h4, h5, h6, h7, h8, h9, h10⟩
              · rw [step1_eq_block_cont tl2 s a b os hQ hio hsa hosx h930,
                  step1_eq_block_cont tl1 t a b os hQ hio2 hsa2 hos2 h930]
                exact ⟨h1, h2, h3, h4, h5, h6, h7, by rw [h8], by rw [h9], h10⟩
          | none =>
            have hos2 : t.offStart = none := h2 ▸ hosx
            rw [step1_eq_block_nostart tl2 s a b hQ hio hosx hsa,
              step1_eq_block_nostart tl1 t a b hQ hio2 hos2 hsa2]
            exact ⟨h1, h2, h3, h4, h5, h6, h7, by rw [h8], by rw [h9], h10⟩
        · have hsa' : s.shiftActive = false := by
            cases hx : s.shiftActive
            · rfl
            · exact absurd hx hsa
          have hsa2 : t.shiftActive = false := h5 ▸ hsa'
          rw [step1_eq_block_idle tl2 s a (some b) hQ hio hsa',
            step1_eq_block_idle tl1 t a (some b) hQ hio2 hsa2]
          exact ⟨h1, h2, h3, h4, h5, h6, h7, h8, h9, h10⟩
    · have hio' : s.inOff = false := by
        cases hx : s.inOff
        · rfl
        · exact absurd hx hio
      have hio2 : t.inOff = false := h1 ▸ hio'
      cases nx with
      | none =>
        rw [step1_none_enter tl2 s a hQ hio', step1_none_enter tl1 t a hQ hio2]
        exact ⟨rfl, rfl, rfl, rfl, h5, h6, h7, h8, h9, h10⟩
      | some b =>
        by_cases hsa : s.shiftActive = true
        · have hsa2 : t.shiftActive = true := h5 ▸ hsa
          by_cases h10' : b.ts - a.ts ≥ TEN_HOURS_MS
          · rw [step1_eq_enter_close10 tl2 s a b hQ hio' hsa h10',
              step1_eq_enter_close10 tl1 t a b hQ hio2 hsa2 h10']
            exact close_coreEq tl2 tl1 _ _ a.ts none none _
              ⟨rfl, rfl, rfl, rfl, hsa.trans hsa2.symm, h6, h7, h8, h9, h10⟩
          · by_cases h930 : b.ts - a.ts ≥ START_BREAK_MIN_MS
            · rw [step1_eq_enter_close930 tl2 s a b hQ hio' hsa h10' h930,
                step1_eq_enter_close930 tl1 t a b hQ hio2 hsa2 h10' h930]
              exact close_coreEq tl2 tl1 _ _ a.ts _ _ _
                ⟨rfl, rfl, rfl, rfl, hsa.trans hsa2.symm, h6, h7, h8, h9, h10⟩
            · rw [step1_eq_enter_cont tl2 s a b hQ hio' hsa h930,
                step1_eq_enter_cont tl1 t a b hQ hio2 hsa2 h930]
              exact ⟨rfl, rfl, rfl, rfl, h5, h6, h7, by rw [h8], by rw [h9], h10⟩
        · have hsa' : s.shiftActive = false := by
            cases hx : s.shiftActive
            · rfl
            · exact absurd hx hsa
          have hsa2 : t.shiftActive = false := h5 ▸ hsa'
          rw [step1_eq_enter_idle tl2 s a b hQ hio' hsa',
            step1_eq_enter_idle tl1 t a b hQ hio2 hsa2]
          exact ⟨rfl, rfl, rfl, rfl, h5, h6, h7, h8, h9, h10⟩
  · by_cases hio : s.inOff = true
    · have hio2 : t.inOff = true := h1 ▸ hio
      cases hosx : s.offStart with
      | some os =>
        have hos2 : t.offStart = some os := h2 ▸ hosx
        by_cases hgap : a.ts - os ≥ START_BREAK_MIN_MS
        · cases nx with
          | none =>
            rw [step1_none_restart tl2 s a os hQ hio hosx hgap,
              step1_none_restart tl1 t a os hQ hio2 hos2 hgap]
            exact ⟨rfl, rfl, rfl, rfl, rfl, rfl, rfl, rfl, rfl, h10⟩
          | some b =>
            rw [step1_eq_restart tl2 s a b os hQ hio hosx hgap,
              step1_eq_restart tl1 t a b os hQ hio2 hos2 hgap]
            exact ⟨rfl, rfl, rfl, rfl, rfl, rfl, rfl, rfl, rfl, h10⟩
        · cases nx with
          | none =>
            obtain ⟨c, m, hL⟩ := step1_none_exit tl2 s a hQ hio (Or.inr ⟨os, hosx, hgap⟩)
            obtain ⟨c2, m2, hR⟩ := step1_none_exit tl1 t a hQ hio2 (Or.inr ⟨os, hos2, hgap⟩)
            rw [hL, hR]
            exact ⟨rfl, rfl, rfl, rfl, h5, h6, h7, h8, h9, h10⟩
          | some b =>
            obtain ⟨c, m, hL⟩ := step1_eq_exit tl2 s a b hQ hio (Or.inr ⟨os, hosx, hgap⟩)
            obtain ⟨c2, m2, hR⟩ := step1_eq_exit tl1 t a b hQ hio2 (Or.inr ⟨os, hos2, hgap⟩)
            rw [hL, hR]
            exact ⟨rfl, rfl, rfl, rfl, h5, h6, by rw [h7, h5], h8, h9, h10⟩
      | none =>
        have hos2 : t.offStart = none := h2 ▸ hosx
        cases nx with
        | none =>
          obtain ⟨c, m, hL⟩ := step1_none_exit tl2 s a hQ hio (Or.inl hosx)
          obtain ⟨c2, m2, hR⟩ := step1_none_exit tl1 t a hQ hio2 (Or.inl hos2)
          rw [hL, hR]
          exact ⟨rfl, rfl, rfl, rfl, h5, h6, h7, h8, h9, h10⟩
        | some b =>
          obtain ⟨c, m, hL⟩ := step1_eq_exit tl2 s a b hQ hio (Or.inl hosx)
          obtain ⟨c2, m2, hR⟩ := step1_eq_exit tl1 t a b hQ hio2 (Or.inl hos2)
          rw [hL, hR]
          exact ⟨rfl, rfl, rfl, rfl, h5, h6, by rw [h7, h5], h8, h9, h10⟩
    · have hio' : s.inOff = false := by
        cases hx : s.inOff
        · rfl
        · exact absurd hx hio
      have hio2 : t.inOff = false := h1 ▸ hio'
      cases nx with
      | none =>
        obtain ⟨c, m, hL⟩ := step1_none_work tl2 s a hQ hio'
        obtain ⟨c2, m2, hR⟩ := step1_none_work tl1 t a hQ hio2
        rw [hL, hR]
        exact ⟨h1, h2, h3, h4, h5, h6, h7, h8, h9, h10⟩
      | some b =>
        obtain ⟨c, m, hL⟩ := step1_eq_work tl2 s a b hQ hio'
        obtain ⟨c2, m2, hR⟩ := step1_eq_work tl1 t a b hQ hio2
        rw [hL, hR]
        exact ⟨h1, h2, h3, h4, h5, h6, by rw [h7, h5], h8, h9, h10⟩

theorem jsRoundMin_zero : jsRoundMin 0 = 0 := by decide

theorem step1_next_gap (tl : List TLE) (s : Eng1) (p w : TLE) :
    ∀ os, (step1 tl s p (some w)).offStart = some os →
      (step1 tl s p (some w)).inOff = true →
      (step1 tl s p (some w)).shiftActive = true →
      w.ts - os < START_BREAK_MIN_MS := by
  intro os hos hio2 hsa2
  by_cases hQ : isOffSbLit p.eff
  · by_cases hio : s.inOff = true
    · by_cases hsa : s.shiftActive = true
      · cases hosx : s.offStart with
        | some os0 =>
          by_cases h10 : w.ts - os0 ≥ TEN_HOURS_MS
          · rw [step1_eq_close10 tl s p w os0 hQ hio hsa hosx h10] at hsa2
            exact absurd hsa2 (fun h => Bool.noConfusion h)
          · by_cases h930 : w.ts - os0 ≥ START_BREAK_MIN_MS
            · rw [step1_eq_close930 tl s p w os0 hQ hio hsa hosx h10 h930] at hsa2
              exact absurd hsa2 (fun h => Bool.noConfusion h)
            · rw [step1_eq_block_cont tl s p w os0 hQ hio hsa hosx h930] at hos
              have : os0 = os := by
                have : s.offStart = some os := hos
                rw [hosx] at this
                injection this
              omega
        | none =>
          rw [step1_eq_block_nostart tl s p w hQ hio hosx hsa] at hos
          have : (none : Option Int) = some os := hosx ▸ hos
          exact Option.noConfusion this
      · have hsa' : s.shiftActive = false := by
          cases hx : s.shiftActive
          · rfl
          · exact absurd hx hsa
        rw [step1_eq_block_idle tl s p (some w) hQ hio hsa'] at hsa2
        exact absurd (hsa'.symm.trans hsa2) (fun h => Bool.noConfusion h)
    · have hio' : s.inOff = false := by
        cases hx : s.inOff
        · rfl
        · exact absurd hx hio
      by_cases hsa : s.shiftActive = true
      · by_cases h10 : w.ts - p.ts ≥ TEN_HOURS_MS
        · rw [step1_eq_enter_close10 tl s p w hQ hio' hsa h10] at hsa2
          exact absurd hsa2 (fun h => Bool.noConfusion h)
        · by_cases h930 : w.ts - p.ts ≥ START_BREAK_MIN_MS
          · rw [step1_eq_enter_close930 tl s p w hQ hio' hsa h10 h930] at hsa2
            exact absurd hsa2 (fun h => Bool.noConfusion h)
          · rw [step1_eq_enter_cont tl s p w hQ hio' hsa h930] at hos
            have : p.ts = os := by injection hos
            omega
      · have hsa' : s.shiftActive = false := by
          cases hx : s.shiftActive
          · rfl
          · exact absurd hx hsa
        rw [step1_eq_enter_idle tl s p w hQ hio' hsa'] at hsa2
        exact absurd (hsa'.symm.trans hsa2) (fun h => Bool.noConfusion h)
  · by_cases hio : s.inOff = true
    · cases hosx : s.offStart with
      | some os0 =>
        by_cases hgap : p.ts - os0 ≥ START_BREAK_MIN_MS
        · rw [step1_eq_restart tl s p w os0 hQ hio hosx hgap] at hos
          exact Option.noConfusion hos
        · obtain ⟨c, m, heq⟩ := step1_eq_exit tl s p w hQ hio (Or.inr ⟨os0, hosx, hgap⟩)
          rw [heq] at hos
          exact Option.noConfusion hos
      | none =>
        obtain ⟨c, m, heq⟩ := step1_eq_exit tl s p w hQ hio (Or.inl hosx)
        rw [heq] at hos
        exact Option.noConfusion hos
    · have hio' : s.inOff = false := by
        cases hx : s.inOff
        · rfl
        · exact absurd hx hio
      obtain ⟨c, m, heq⟩ := step1_eq_work tl s p w hQ hio'
      rw [heq] at hio2
      exact absurd (hio'.symm.trans hio2) (fun h => Bool.noConfusion h)

theorem coreEq_trans {s t u : Eng1} (h1 : coreEq s t) (h2 : coreEq t u) : coreEq s u := by
  obtain ⟨a1, a2, a3, a4, a5, a6, a7, a8, a9, a10⟩ := h1
  obtain ⟨b1, b2, b3, b4, b5, b6, b7, b8, b9, b10⟩ := h2
  exact ⟨a1.trans b1, a2.trans b2, a3.trans b3, a4.trans b4, a5.trans b5,
    a6.trans b6, a7.trans b7, a8.trans b8, a9.trans b9, a10.trans b10⟩

theorem zero_add_if (c : Prop) [Decidable c] (E : TLE) :
    (if c then jsRoundMin (max 0 (E.ts - E.ts)) else 0) = 0 := by
  have hz : jsRoundMin (max 0 (E.ts - E.ts)) = 0 := by
    rw [sub_self]
    simpa using jsRoundMin_zero
  split
  · exact hz
  · rfl

theorem layover_if_zero (E : TLE) :
    (if E.eff = some Eff.off ∧ E.near = false ∧ max 0 (E.ts - E.ts) ≥ MIN_LAYOVER_MS
     then jsRoundMin (max 0 (E.ts - E.ts)) else 0) = 0 := by
  rw [if_neg ?_]
  rintro ⟨_, _, h3⟩
  rw [sub_self] at h3
  simp only [max_self] at h3
  unfold MIN_LAYOVER_MS at h3
  omega

theorem dup_step_coreEq (tl2 tl1 : List TLE) (s t : Eng1) (E : TLE) (nx : Option TLE)
    (hc : coreEq s t)
    (hJ : ∀ os, s.offStart = some os → s.inOff = true → s.shiftActive = true →
      E.ts - os < START_BREAK_MIN_MS) :
    coreEq (step1 tl2 (step1 tl2 s E (some E)) E nx) (step1 tl1 t E nx) := by
  obtain ⟨h1, h2, h3, h4, h5, h6, h7, h8, h9, h10⟩ := hc
  by_cases hQ : isOffSbLit E.eff
  · by_cases hio : s.inOff = true
    · -- already in a block: the duplicate step is a core no-op
      have hs1 : coreEq (step1 tl2 s E (some E)) s := by
        by_cases hsa : s.shiftActive = true
        · cases hosx : s.offStart with
          | some os =>
            have hgap : E.ts - os < START_BREAK_MIN_MS := hJ os hosx hio hsa
            rw [step1_eq_block_cont tl2 s E E os hQ hio hsa hosx (by omega)]
            refine ⟨rfl, rfl, rfl, rfl, rfl, rfl, rfl, ?_, ?_, rfl⟩
            · show s.sleeperMin + _ = s.sleeperMin
              rw [zero_add_if]
              omega
            · show s.layoverMin + _ = s.layoverMin
              rw [layover_if_zero]
              omega
          | none =>
            rw [step1_eq_block_nostart tl2 s E E hQ hio hosx hsa]
            refine ⟨rfl, rfl, rfl, rfl, rfl, rfl, rfl, ?_, ?_, rfl⟩
            · show s.sleeperMin + _ = s.sleeperMin
              rw [zero_add_if]
              omega
            · show s.layoverMin + _ = s.layoverMin
              rw [layover_if_zero]
              omega
        · have hsa' : s.shiftActive = false := by
            cases hx : s.shiftActive
            · rfl
            · exact absurd hx hsa
          rw [step1_eq_block_idle tl2 s E (some E) hQ hio hsa']
          exact ⟨rfl, rfl, rfl, rfl, rfl, rfl, rfl, rfl, rfl, rfl⟩
      exact step1_coreEq tl2 tl1 _ t E nx
        (coreEq_trans hs1 ⟨h1, h2, h3, h4, h5, h6, h7, h8, h9, h10⟩)
    · -- entering the block at the duplicated event
      have hio' : s.inOff = false := by
        cases hx : s.inOff
        · rfl
        · exact absurd hx hio
      have hio2 : t.inOff = false := h1 ▸ hio'
      by_cases hsa : s.shiftActive = true
      · have hsa2 : t.shiftActive = true := h5 ▸ hsa
        set s1 : Eng1 :=
          { s with
            curOn := 0
            inOff := true
            offStart := some E.ts
            offNearO := some E.near
            offKind := some (decide (E.eff = some Eff.off))
            sleeperMin := s.sleeperMin +
              (if E.eff = some Eff.sb then jsRoundMin (max 0 (E.ts - E.ts)) else 0)
            layoverMin := s.layoverMin +
              (if E.eff = some Eff.off ∧ E.near = false ∧
                  max 0 (E.ts - E.ts) ≥ MIN_LAYOVER_MS
               then jsRoundMin (max 0 (E.ts - E.ts)) else 0) } with hs1e
        have hs1 : step1 tl2 s E (some E) = s1 := by
          rw [hs1e]
          exact step1_eq_enter_cont tl2 s E E hQ hio' hsa
            (by unfold START_BREAK_MIN_MS; omega)
        have hi1 : s1.inOff = true := by rw [hs1e]
        have hsa1 : s1.shiftActive = true := by rw [hs1e]; exact hsa
        have ho1 : s1.offStart = some E.ts := by rw [hs1e]
        have hk1 : s1.offKind = some (decide (E.eff = some Eff.off)) := by rw [hs1e]
        have hnv1 : offNearVal s1 = E.near := by rw [hs1e]; rfl
        have hsl1 : s1.sleeperMin = s.sleeperMin := by
          rw [hs1e]
          show s.sleeperMin + _ = s.sleeperMin
          rw [zero_add_if]
          omega
        have hly1 : s1.layoverMin = s.layoverMin := by
          rw [hs1e]
          show s.layoverMin + _ = s.layoverMin
          rw [layover_if_zero]
          omega
        have hp1 : s1.payableMin = s.payableMin := by rw [hs1e]
        have hsS1 : s1.shiftStart = s.shiftStart := by rw [hs1e]
        have hr1 : s1.rows = s.rows := by rw [hs1e]
        have hn1 : s1.offNearO = some E.near := by rw [hs1e]
        rw [hs1]
        cases nx with
        | none =>
          rw [step1_none_block tl2 s1 E hQ hi1, step1_none_enter tl1 t E hQ hio2]
          exact ⟨hi1, ho1, hn1, hk1, by rw [hsa1, hsa2], by rw [hsS1, h6],
            by rw [hp1, h7], by rw [hsl1, h8], by rw [hly1, h9], by rw [hr1, h10]⟩
        | some w =>
          have hEcore : coreEq s1
              { t with
                curOn := 0
                inOff := true
                offStart := some E.ts
                offNearO := some E.near
                offKind := some (decide (E.eff = some Eff.off)) } :=
            ⟨hi1, ho1, hn1, hk1, by rw [hsa1, hsa2], by rw [hsS1, h6],
              by rw [hp1, h7], by rw [hsl1, h8], by rw [hly1, h9], by rw [hr1, h10]⟩
          have hEx : ∀ X : Int, (if s1.offKind = some true ∧ X ≥ MIN_LAYOVER_MS ∧
              ¬ offNearVal s1 = true then jsRoundMin X else 0) =
              (if E.eff = some Eff.off ∧ X ≥ MIN_LAYOVER_MS ∧ E.near = false
               then jsRoundMin X else 0) := by
            intro X
            rw [hk1, hnv1]
            refine if_congr ?_ rfl rfl
            simp only [Option.some.injEq, decide_eq_true_eq, Bool.not_eq_true]
          by_cases h10' : w.ts - E.ts ≥ TEN_HOURS_MS
          · rw [step1_eq_close10 tl2 s1 E w E.ts hQ hi1 hsa1 ho1 h10',
              step1_eq_enter_close10 tl1 t E w hQ hio2 hsa2 h10', hEx]
            exact close_coreEq tl2 tl1 _ _ E.ts none none _ hEcore
          · by_cases h930 : w.ts - E.ts ≥ START_BREAK_MIN_MS
            · rw [step1_eq_close930 tl2 s1 E w E.ts hQ hi1 hsa1 ho1 h10' h930,
                step1_eq_enter_close930 tl1 t E w hQ hio2 hsa2 h10' h930, hEx]
              exact close_coreEq tl2 tl1 _ _ E.ts _ _ _ hEcore
            · rw [step1_eq_block_cont tl2 s1 E w E.ts hQ hi1 hsa1 ho1 h930,
                step1_eq_enter_cont tl1 t E w hQ hio2 hsa2 h930]
              exact ⟨hi1, ho1, hn1, hk1, by rw [hsa1, hsa2], by rw [hsS1, h6],
                by rw [hp1, h7], by rw [hsl1, h8], by rw [hly1, h9], by rw [hr1, h10]⟩
      · -- idle entering
        have hsa' : s.shiftActive = false := by
          cases hx : s.shiftActive
          · rfl
          · exact absurd hx hsa
        have hsa2 : t.shiftActive = false := h5 ▸ hsa'
        set s1 : Eng1 :=
          { s with
            curOn := 0
            inOff := true
            offStart := some E.ts
            offNearO := some E.near
            offKind := some (decide (E.eff = some Eff.off)) } with hs1e
        have hs1 : step1 tl2 s E (some E) = s1 := by
          rw [hs1e]
          exact step1_eq_enter_idle tl2 s E E hQ hio' hsa'
        have hi1 : s1.inOff = true := by rw [hs1e]
        have hsa1 : s1.shiftActive = false := by rw [hs1e]; exact hsa'
        rw [hs1]
        cases nx with
        | none =>
          rw [step1_none_block tl2 s1 E hQ hi1, step1_none_enter tl1 t E hQ hio2]
          exact ⟨rfl, rfl, rfl, rfl, h5, h6, h7, h8, h9, h10⟩
        | some w =>
          rw [step1_eq_block_idle tl2 s1 E (some w) hQ hi1 hsa1,
            step1_eq_enter_idle tl1 t E w hQ hio2 hsa2]
          exact ⟨rfl, rfl, rfl, rfl, h5, h6, h7, h8, h9, h10⟩
  · -- not OFF/SB at the duplicated event
    by_cases hio : s.inOff = true
    · have hio2 : t.inOff = true := h1 ▸ hio
      cases hosx : s.offStart with
      | some os =>
        have hos2 : t.offStart = some os := h2 ▸ hosx
        by_cases hgap : E.ts - os ≥ START_BREAK_MIN_MS
        · -- restart at the duplicated event
          set s1 : Eng1 :=
            { s with
              curOn := 0
              maxOn := 0
              inOff := false
              offStart := none
              offNearO := none
              offKind := none
              shiftActive := true
              shiftStart := some E.ts
              payableMin := (if isOnOrD E.eff then jsRoundMin (max 0 (E.ts - E.ts)) else 0)
              sleeperMin := 0
              layoverMin := 0
              startsLog := s.startsLog ++ [E.ts] } with hs1e
          have hs1 : step1 tl2 s E (some E) = s1 := by
            rw [hs1e]
            exact step1_eq_restart tl2 s E E os hQ hio hosx hgap
          have hi1 : s1.inOff = false := by rw [hs1e]
          have hp1 : s1.payableMin = 0 := by
            rw [hs1e]
            show (if isOnOrD E.eff then jsRoundMin (max 0 (E.ts - E.ts)) else 0) = 0
            rw [zero_add_if]
          have hsa1 : s1.shiftActive = true := by rw [hs1e]
          rw [hs1]
          cases nx with
          | none =>
            obtain ⟨c, m, heq⟩ := step1_none_work tl2 s1 E hQ hi1
            rw [heq, step1_none_restart tl1 t E os hQ hio2 hos2 hgap]
            refine ⟨hi1, by rw [hs1e], by rw [hs1e], by rw [hs1e], hsa1, by rw [hs1e],
              hp1, by rw [hs1e], by rw [hs1e], by rw [hs1e]; rw [h10]⟩
          | some w =>
            obtain ⟨c, m, heq⟩ := step1_eq_work tl2 s1 E w hQ hi1
            rw [heq, step1_eq_restart tl1 t E w os hQ hio2 hos2 hgap]
            refine ⟨hi1, by rw [hs1e], by rw [hs1e], by rw [hs1e], hsa1, by rw [hs1e],
              ?_, by rw [hs1e], by rw [hs1e], by rw [hs1e]; rw [h10]⟩
            show s1.payableMin + (if s1.shiftActive = true ∧ isOnOrD E.eff
              then jsRoundMin (max 0 (w.ts - E.ts)) else 0) =
              (if isOnOrD E.eff then jsRoundMin (max 0 (w.ts - E.ts)) else 0)
            rw [hp1, hsa1]
            by_cases hP : isOnOrD E.eff
            · rw [if_pos ⟨rfl, hP⟩, if_pos hP]
              omega
            · rw [if_neg (fun hh => hP hh.2), if_neg hP]
              omega
        · -- exit without restart at the duplicated event
          obtain ⟨c0, m0, hs1⟩ := step1_eq_exit tl2 s E E hQ hio (Or.inr ⟨os, hosx, hgap⟩)
          rw [hs1]
          cases nx with
          | none =>
            obtain ⟨c, m, heq⟩ := step1_none_work tl2
              { s with
                curOn := c0
                maxOn := m0
                inOff := false
                offStart := none
                offNearO := none
                offKind := none
                payableMin := s.payableMin +
                  (if s.shiftActive = true ∧ isOnOrD E.eff
                   then jsRoundMin (max 0 (E.ts - E.ts)) else 0) } E hQ rfl
            rw [heq]
            obtain ⟨c2, m2, heq2⟩ := step1_none_exit tl1 t E hQ hio2 (Or.inr ⟨os, hos2, hgap⟩)
            rw [heq2]
            refine ⟨rfl, rfl, rfl, rfl, h5, h6, ?_, h8, h9, h10⟩
            show s.payableMin + _ = t.payableMin
            rw [zero_add_if, h7]
            omega
          | some w =>
            obtain ⟨c, m, heq⟩ := step1_eq_work tl2
              { s with
                curOn := c0
                maxOn := m0
                inOff := false
                offStart := none
                offNearO := none
                offKind := none
                payableMin := s.payableMin +
                  (if s.shiftActive = true ∧ isOnOrD E.eff
                   then jsRoundMin (max 0 (E.ts - E.ts)) else 0) } E w hQ rfl
            rw [heq]
            obtain ⟨c2, m2, heq2⟩ := step1_eq_exit tl1 t E w hQ hio2 (Or.inr ⟨os, hos2, hgap⟩)
            rw [heq2]
            refine ⟨rfl, rfl, rfl, rfl, h5, h6, ?_, h8, h9, h10⟩
            show s.payableMin + _ + (if s.shiftActive = true ∧ isOnOrD E.eff
              then jsRoundMin (max 0 (w.ts - E.ts)) else 0) = t.payableMin + _
            rw [zero_add_if, h7, h5]
            omega
      | none =>
        have hos2 : t.offStart = none := h2 ▸ hosx
        obtain ⟨c0, m0, hs1⟩ := step1_eq_exit tl2 s E E hQ hio (Or.inl hosx)
        rw [hs1]
        cases nx with
        | none =>
          obtain ⟨c, m, heq⟩ := step1_none_work tl2
            { s with
                curOn := c0
                maxOn := m0
                inOff := false
                offStart := none
                offNearO := none
                offKind := none
                payableMin := s.payableMin +
                  (if s.shiftActive = true ∧ isOnOrD E.eff
                   then jsRoundMin (max 0 (E.ts - E.ts)) else 0) } E hQ rfl
          rw [heq]
          obtain ⟨c2, m2, heq2⟩ := step1_none_exit tl1 t E hQ hio2 (Or.inl hos2)
          rw [heq2]
          refine ⟨rfl, rfl, rfl, rfl, h5, h6, ?_, h8, h9, h10⟩
          show s.payableMin + _ = t.payableMin
          rw [zero_add_if, h7]
          omega
        | some w =>
          obtain ⟨c, m, heq⟩ := step1_eq_work tl2
            { s with
                curOn := c0
                maxOn := m0
                inOff := false
                offStart := none
                offNearO := none
                offKind := none
                payableMin := s.payableMin +
                  (if s.shiftActive = true ∧ isOnOrD E.eff
                   then jsRoundMin (max 0 (E.ts - E.ts)) else 0) } E w hQ rfl
          rw [heq]
          obtain ⟨c2, m2, heq2⟩ := step1_eq_exit tl1 t E w hQ hio2 (Or.inl hos2)
          rw [heq2]
          refine ⟨rfl, rfl, rfl, rfl, h5, h6, ?_, h8, h9, h10⟩
          show s.payableMin + _ + (if s.shiftActive = true ∧ isOnOrD E.eff
            then jsRoundMin (max 0 (w.ts - E.ts)) else 0) = t.payableMin + _
          rw [zero_add_if, h7, h5]
          omega
    · have hio' : s.inOff = false := by
        cases hx : s.inOff
        · rfl
        · exact absurd hx hio
      have hs1core : coreEq (step1 tl2 s E (some E)) s := by
        obtain ⟨c, m, heq⟩ := step1_eq_work tl2 s E E hQ hio'
        rw [heq]
        refine ⟨rfl, rfl, rfl, rfl, rfl, rfl, ?_, rfl, rfl, rfl⟩
        show s.payableMin + _ = s.payableMin
        rw [zero_add_if]
        omega
      exact step1_coreEq tl2 tl1 _ t E nx
        (coreEq_trans hs1core ⟨h1, h2, h3, h4, h5, h6, h7, h8, h9, h10⟩)

theorem eng1Go_coreEq (tl2 tl1 : List TLE) :
    ∀ (S : List TLE) (s t : Eng1), coreEq s t →
      coreEq (eng1Go tl2 s S) (eng1Go tl1 t S) := by
  intro S
  induction S with
  | nil => intro s t hc; exact hc
  | cons a r ih =>
    intro s t hc
    cases r with
    | nil => exact step1_coreEq tl2 tl1 s t a none hc
    | cons b r' => exact ih _ _ (step1_coreEq tl2 tl1 s t a (some b) hc)

theorem eng1Go_dup (tl2 tl1 : List TLE) (E : TLE) (S : List TLE) :
    ∀ (l1 : List TLE) (s t : Eng1), coreEq s t →
      (l1 = [] → ∀ os, s.offStart = some os → s.inOff = true → s.shiftActive = true →
        E.ts - os < START_BREAK_MIN_MS) →
      coreEq (eng1Go tl2 s (l1 ++ E :: E :: S)) (eng1Go tl1 t (l1 ++ E :: S)) := by
  intro l1
  induction l1 with
  | nil =>
    intro s t hc hJ
    cases S with
    | nil =>
      show coreEq (step1 tl2 (step1 tl2 s E (some E)) E none) (step1 tl1 t E none)
      exact dup_step_coreEq tl2 tl1 s t E none hc (hJ rfl)
    | cons w S' =>
      show coreEq (eng1Go tl2 (step1 tl2 (step1 tl2 s E (some E)) E (some w)) (w :: S'))
        (eng1Go tl1 (step1 tl1 t E (some w)) (w :: S'))
      exact eng1Go_coreEq tl2 tl1 (w :: S') _ _
        (dup_step_coreEq tl2 tl1 s t E (some w) hc (hJ rfl))
  | cons x l1' ih =>
    intro s t hc hJ
    cases l1' with
    | nil =>
      show coreEq (eng1Go tl2 (step1 tl2 s x (some E)) ([] ++ E :: E :: S))
        (eng1Go tl1 (step1 tl1 t x (some E)) ([] ++ E :: S))
      exact ih _ _ (step1_coreEq tl2 tl1 s t x (some E) hc)
        (fun _ => step1_next_gap tl2 s x E)
    | cons y l1'' =>
      show coreEq (eng1Go tl2 (step1 tl2 s x (some y)) ((y :: l1'') ++ E :: E :: S))
        (eng1Go tl1 (step1 tl1 t x (some y)) ((y :: l1'') ++ E :: S))
      exact ih _ _ (step1_coreEq tl2 tl1 s t x (some y) hc)
        (fun hcon => absurd hcon (by simp))

theorem tail1_core_rows (tl2 tl1 : List TLE) (s t : Eng1) (z : TLE)
    (hz2 : tl2.getLast? = some z) (hz1 : tl1.getLast? = some z) (hc : coreEq s t) :
    (tail1 tl2 s).rows.map Row1.core = (tail1 tl1 t).rows.map Row1.core := by
  obtain ⟨h1, h2, h3, h4, h5, h6, h7, h8, h9, h10⟩ := hc
  have hnv : offNearVal s = offNearVal t := by unfold offNearVal; rw [h3]
  unfold tail1
  rw [hz2, hz1]
  by_cases hsa : s.shiftActive = true
  · have hsa2 : t.shiftActive = true := h5 ▸ hsa
    simp only []
    rw [if_pos hsa, if_pos hsa2]
    cases hosx : s.offStart with
    | some os =>
      have hos2 : t.offStart = some os := h2 ▸ hosx
      rw [hos2]
      simp only []
      by_cases hzoff : isOffSbLit z.eff
      · rw [if_pos hzoff, if_pos hzoff]
        have hEx : (if max 0 (z.ts - os) ≥ MIN_LAYOVER_MS ∧ ¬ offNearVal s = true
            then jsRoundMin (max 0 (z.ts - os)) else 0) =
            (if max 0 (z.ts - os) ≥ MIN_LAYOVER_MS ∧ ¬ offNearVal t = true
             then jsRoundMin (max 0 (z.ts - os)) else 0) := by rw [hnv]
        by_cases h10' : max 0 (z.ts - os) ≥ TEN_HOURS_MS
        · rw [if_pos h10', if_pos h10', hEx]
          exact finalize1_core_rows tl2 tl1 s t os none none _ h10 h6 h7 h8 h9
        · rw [if_neg h10', if_neg h10']
          by_cases h930 : max 0 (z.ts - os) ≥ START_BREAK_MIN_MS
          · rw [if_pos h930, if_pos h930, hEx]
            exact finalize1_core_rows tl2 tl1 s t os _ _ _ h10 h6 h7 h8 h9
          · rw [if_neg h930, if_neg h930]
            exact finalize1_core_rows tl2 tl1 s t os _ _ _ h10 h6 h7 h8 h9
      · rw [if_neg hzoff, if_neg hzoff]
        exact finalize1_core_rows tl2 tl1 s t z.ts _ _ _ h10 h6 h7 h8 h9
    | none =>
      have hos2 : t.offStart = none := h2 ▸ hosx
      rw [hos2]
      simp only []
      exact finalize1_core_rows tl2 tl1 s t z.ts _ _ _ h10 h6 h7 h8 h9
  · have hsaF : ¬ t.shiftActive = true := h5 ▸ hsa
    simp only []
    rw [if_neg hsa, if_neg hsaF]
    exact h10

theorem buildTimelineGo_dup :
    ∀ (P : List Evt1) (d : Option Eff) (e : Evt1) (S : List Evt1),
    ∃ TP Ex TS, buildTimelineGo d (P ++ e :: e :: S) = TP ++ Ex :: Ex :: TS ∧
      buildTimelineGo d (P ++ e :: S) = TP ++ Ex :: TS := by
  intro P
  induction P with
  | nil =>
    intro d e S
    cases hrd : rawDuty e.st with
    | some st2 =>
      exact ⟨[], ⟨e.ts, some st2, e.near⟩, buildTimelineGo (some st2) S,
        by simp [buildTimelineGo, hrd], by simp [buildTimelineGo, hrd]⟩
    | none =>
      exact ⟨[], ⟨e.ts, d, e.near⟩, buildTimelineGo d S,
        by simp [buildTimelineGo, hrd], by simp [buildTimelineGo, hrd]⟩
  | cons p P' ih =>
    intro d e S
    cases hrd : rawDuty p.st with
    | some st2 =>
      obtain ⟨TP, Ex, TS, hA, hB⟩ := ih (some st2) e S
      exact ⟨⟨p.ts, some st2, p.near⟩ :: TP, Ex, TS,
        by simp [buildTimelineGo, hrd, hA], by simp [buildTimelineGo, hrd, hB]⟩
    | none =>
      obtain ⟨TP, Ex, TS, hA, hB⟩ := ih d e S
      exact ⟨⟨p.ts, d, p.near⟩ :: TP, Ex, TS,
        by simp [buildTimelineGo, hrd, hA], by simp [buildTimelineGo, hrd, hB]⟩

theorem getLast_append_ne_nil {α : Type} :
    ∀ (P l : List α), l ≠ [] → (P ++ l).getLast? = l.getLast? := by
  intro P
  induction P with
  | nil => intro l _; rfl
  | cons p P' ih =>
    intro l hl
    have h1 : P' ++ l ≠ [] := by
      intro h
      rw [List.append_eq_nil] at h
      exact hl h.2
    show (p :: (P' ++ l)).getLast? = l.getLast?
    rw [← ih l hl]
    cases hx : P' ++ l with
    | nil => exact absurd hx h1
    | cons q r => simp [List.getLast?_cons_cons]

theorem runEng1core_dup (TP TS : List TLE) (Ex : TLE) :
    (runEng1 (TP ++ Ex :: Ex :: TS)).rows.map Row1.core =
      (runEng1 (TP ++ Ex :: TS)).rows.map Row1.core := by
  unfold runEng1
  have hcr : coreEq (eng1Go (TP ++ Ex :: Ex :: TS) eng1Init (TP ++ Ex :: Ex :: TS))
      (eng1Go (TP ++ Ex :: TS) eng1Init (TP ++ Ex :: TS)) :=
    eng1Go_dup _ _ Ex TS TP eng1Init eng1Init
      ⟨rfl, rfl, rfl, rfl, rfl, rfl, rfl, rfl, rfl, rfl⟩
      (fun _ os hos => Option.noConfusion hos)
  have hz0 : ∃ z, (Ex :: TS).getLast? = some z := by
    cases TS with
    | nil => exact ⟨Ex, rfl⟩
    | cons y r => exact ⟨(y :: r).getLast (by simp), by simp [List.getLast?_eq_getLast]⟩
  obtain ⟨z, hz⟩ := hz0
  have hz2 : (TP ++ Ex :: Ex :: TS).getLast? = some z := by
    rw [getLast_append_ne_nil TP _ (by simp)]
    rw [List.getLast?_cons_cons]
    exact hz
  have hz1 : (TP ++ Ex :: TS).getLast? = some z := by
    rw [getLast_append_ne_nil TP _ (by simp)]
    exact hz
  exact tail1_core_rows _ _ _ _ z hz2 hz1 hcr

theorem chain_le_of_mem (e : Evt1) (r : List Evt1)
    (h : (e :: r).Chain' (fun a b => a.ts ≤ b.ts)) : ∀ x ∈ r, e.ts ≤ x.ts := by
  induction r generalizing e with
  | nil => simp
  | cons f r' ih =>
    intro x hx
    have h1 : e.ts ≤ f.ts := (List.chain'_cons.mp h).1
    rcases List.mem_cons.mp hx with rfl | hx'
    · exact h1
    · have := ih f (List.chain'_cons.mp h).2 x hx'
      omega

theorem dedupTsGo_strict :
    ∀ (l : List Evt1), l.Chain' (fun a b => a.ts ≤ b.ts) →
      ∀ t, (∀ x ∈ l, t ≤ x.ts) →
        (dedupTsGo (some t) l).Chain' (fun a b => a.ts < b.ts) ∧
        (∀ y ∈ dedupTsGo (some t) l, t < y.ts) := by
  intro l
  induction l with
  | nil =>
    intro _ t _
    exact ⟨by simp [dedupTsGo], by simp [dedupTsGo]⟩
  | cons e r ih =>
    intro hs t hl
    by_cases he : e.ts = t
    · have h1 : dedupTsGo (some t) (e :: r) = dedupTsGo (some t) r := by
        simp [dedupTsGo, he]
      rw [h1]
      exact ih (List.chain'_cons'.mp hs).2 t (fun x hx => hl x (List.mem_cons_of_mem _ hx))
    · have h1 : dedupTsGo (some t) (e :: r) = e :: dedupTsGo (some e.ts) r := by
        simp [dedupTsGo, he]
      rw [h1]
      have hrb : ∀ x ∈ r, e.ts ≤ x.ts := chain_le_of_mem e r hs
      obtain ⟨hc, hb⟩ := ih (List.chain'_cons'.mp hs).2 e.ts hrb
      have het : t < e.ts := by
        have := hl e (List.mem_cons_self _ _)
        omega
      constructor
      · refine List.chain'_cons'.mpr ⟨?_, hc⟩
        intro y hy
        exact hb y (List.mem_of_mem_head? hy)
      · intro y hy
        rcases List.mem_cons.mp hy with rfl | hy'
        · exact het
        · have := hb y hy'
          omega

theorem perSheet_strict (evs : List Evt1) :
    (perSheetEvents evs).Chain' (fun a b => a.ts < b.ts) := by
  unfold perSheetEvents
  have hsorted : (evs.insertionSort (fun a b => a.ts ≤ b.ts)).Chain'
      (fun a b => a.ts ≤ b.ts) := by
    haveI : IsTotal Evt1 (fun a b => a.ts ≤ b.ts) := ⟨fun a b => le_total a.ts b.ts⟩
    haveI : IsTrans Evt1 (fun a b => a.ts ≤ b.ts) := ⟨fun a b c h1 h2 => le_trans h1 h2⟩
    exact (List.sorted_insertionSort _ evs).chain'
  cases hx : evs.insertionSort (fun a b => a.ts ≤ b.ts) with
  | nil => simp [dedupTsGo]
  | cons e r =>
    rw [hx] at hsorted
    show (dedupTsGo none (e :: r)).Chain' _
    have h1 : dedupTsGo none (e :: r) = e :: dedupTsGo (some e.ts) r := by
      simp [dedupTsGo]
    rw [h1]
    have hrb : ∀ x ∈ r, e.ts ≤ x.ts := chain_le_of_mem e r hsorted
    obtain ⟨hc, hb⟩ := dedupTsGo_strict r (List.chain'_cons'.mp hsorted).2 e.ts hrb
    refine List.chain'_cons'.mpr ⟨?_, hc⟩
    intro y hy
    exact hb y (List.mem_of_mem_head? hy)

theorem mergeBatches_sorted (batches : List (List Evt1)) :
    (mergeBatches batches).Chain' (fun a b => a.ts ≤ b.ts) := by
  unfold mergeBatches
  haveI : IsTotal Evt1 (fun a b => a.ts ≤ b.ts) := ⟨fun a b => le_total a.ts b.ts⟩
  haveI : IsTrans Evt1 (fun a b => a.ts ≤ b.ts) := ⟨fun a b c h1 h2 => le_trans h1 h2⟩
  exact (List.sorted_insertionSort _ _).chain'

/-- C4 counterexample: the same event in two batches survives the merge (no
cross-batch de-duplication), while the in-sheet pass does collapse it. -/
theorem claim_C4_counterexample :
    mergeBatches [[⟨0, RawSt.on, false⟩], [⟨0, RawSt.on, false⟩]] =
      [⟨0, RawSt.on, false⟩, ⟨0, RawSt.on, false⟩] ∧
    perSheetEvents [⟨0, RawSt.on, false⟩, ⟨0, RawSt.on, false⟩] =
      [⟨0, RawSt.on, false⟩] := by decide

/-- C4 (amended): each sheet's event list is strictly increasing after the
per-sheet sort and adjacent de-duplication; the cross-batch merge re-sorts but
does not de-duplicate (see the counterexample), leaving the merged list merely
non-decreasing; nevertheless an identical DutyEvent present twice does not
change any row's start, end, payable, sleeper or layover minutes. -/
theorem claim_C4 :
    (∀ evs : List Evt1, (perSheetEvents evs).Chain' (fun a b => a.ts < b.ts)) ∧
    (∀ batches : List (List Evt1),
      (mergeBatches batches).Chain' (fun a b => a.ts ≤ b.ts)) ∧
    (∀ (P S : List Evt1) (e : Evt1),
      (run1 (P ++ e :: e :: S)).map Row1.core = (run1 (P ++ e :: S)).map Row1.core) := by
  refine ⟨perSheet_strict, mergeBatches_sorted, ?_⟩
  intro P S e
  unfold run1 buildTimeline
  obtain ⟨TP, Ex, TS, hA, hB⟩ := buildTimelineGo_dup P none e S
  rw [hA, hB]
  exact runEng1core_dup TP TS Ex
